import Mathlib

/-!
Shallow embedding of the octree core of rebound (src/tree.c) and proofs of
structural and functional properties of its operations.

Modelling conventions:
* C doubles are modelled as rationals (ℚ); all arithmetic is exact.
* Heap pointers are modelled as locations `Loc = (root index, octant path)`
  into the forest of root trees; a particle's back-reference `c` is an
  `Option Loc`.  Writing through a location whose path no longer denotes a
  live cell is a no-op (the C program would touch freed memory there).
* The recursive walks of `tree_add_particle_to_cell` and `tree_update_cell`
  follow heap pointers, so they are given explicit fuel; all theorems about
  them assume fuel at least the depth of the tree being walked, which makes
  the fuel-exhaustion branch unreachable.
* `struct cell` is `Cell` with the same fields (`x y z w`, the occupancy
  tag `pt`, the moment fields `m mx my mz`, and the eight octant slots as a
  list `oct`, allocated as eight `none`s).  `calloc` zero-initialises the
  moment fields.
* The external particle store (particle.c, not part of the sources) is
  modelled from the spec, see `particles_add` and `particles_add_fixed`.
-/

/-- Location of a node in the forest: root-grid index and octant path. -/
abbrev Loc : Type := ℕ × List ℕ

/-- Model of `struct Particle` as seen by the tree code: position, mass and
the back-reference `c` to the tree node currently holding the particle. -/
structure Particle where
  x : ℚ
  y : ℚ
  z : ℚ
  m : ℚ
  c : Option Loc
deriving DecidableEq, Inhabited

/-- Model of `struct cell`: geometry (center `x y z`, width `w`), the
occupancy tag `pt` (≥ 0: leaf holding particle index `pt`; < 0: branch whose
magnitude counts the subtree's particles), the moment fields `m mx my mz`,
and the eight octant slots `oct`. -/
inductive Cell : Type where
  | mk (x y z w : ℚ) (pt : Int) (m mx my mz : ℚ) (oct : List (Option Cell)) : Cell

/-- Center x-coordinate of a cell. -/
def Cell.x : Cell → ℚ
  | .mk x _ _ _ _ _ _ _ _ _ => x

/-- Center y-coordinate of a cell. -/
def Cell.y : Cell → ℚ
  | .mk _ y _ _ _ _ _ _ _ _ => y

/-- Center z-coordinate of a cell. -/
def Cell.z : Cell → ℚ
  | .mk _ _ z _ _ _ _ _ _ _ => z

/-- Width of a cell. -/
def Cell.w : Cell → ℚ
  | .mk _ _ _ w _ _ _ _ _ _ => w

/-- Occupancy tag of a cell (the C field `pt`). -/
def Cell.pt : Cell → Int
  | .mk _ _ _ _ pt _ _ _ _ _ => pt

/-- Total mass moment of a cell. -/
def Cell.m : Cell → ℚ
  | .mk _ _ _ _ _ m _ _ _ _ => m

/-- Center-of-mass x moment of a cell. -/
def Cell.mx : Cell → ℚ
  | .mk _ _ _ _ _ _ mx _ _ _ => mx

/-- Center-of-mass y moment of a cell. -/
def Cell.my : Cell → ℚ
  | .mk _ _ _ _ _ _ _ my _ _ => my

/-- Center-of-mass z moment of a cell. -/
def Cell.mz : Cell → ℚ
  | .mk _ _ _ _ _ _ _ _ mz _ => mz

/-- Octant slots of a cell. -/
def Cell.oct : Cell → List (Option Cell)
  | .mk _ _ _ _ _ _ _ _ _ oct => oct

/-- Overwrite the occupancy tag of a cell (the C assignment `node->pt = v`). -/
def Cell.setPt : Cell → Int → Cell
  | .mk x y z w _ m mx my mz oct, v => .mk x y z w v m mx my mz oct

/-- Overwrite one octant slot of a cell (the C assignment `node->oct[o] = v`). -/
def Cell.setOct : Cell → ℕ → Option Cell → Cell
  | .mk x y z w pt m mx my mz oct, o, v => .mk x y z w pt m mx my mz (oct.set o v)

/-- Read the subtree at an octant path below a (possibly absent) root cell. -/
def getPath : Option Cell → List ℕ → Option Cell
  | t, [] => t
  | none, _ :: _ => none
  | some c, o :: p => getPath (c.oct.getD o none) p

/-- Apply `f` in place to the cell at a path; a no-op if the path is dead. -/
def modifyAt : Option Cell → List ℕ → (Cell → Cell) → Option Cell
  | none, _, _ => none
  | some c, [], f => some (f c)
  | some c, o :: p, f => some (c.setOct o (modifyAt (c.oct.getD o none) p f))

/-- Overwrite the slot at a path (the whole tree for the empty path); a no-op
if an intermediate cell of the path is dead. -/
def setSlot : Option Cell → List ℕ → Option Cell → Option Cell
  | _, [], v => v
  | none, _ :: _, _ => none
  | some c, o :: p, v => some (c.setOct o (setSlot (c.oct.getD o none) p v))

/-- Model of the fields of `struct Rebound` that the tree code reads and
writes: the root grid, the particle array (its length is the C `r->N`), the
fixed-particle threshold and the periodic-domain parameters. -/
structure Rebound where
  tree_root : List (Option Cell)
  particles : List Particle
  N_tree_fixed : ℕ
  boxsize : ℚ
  boxsize_x : ℚ
  boxsize_y : ℚ
  boxsize_z : ℚ
  root_nx : ℕ
  root_ny : ℕ
  root_nz : ℕ

/-- Read the cell at a location of the forest. -/
def getCellAt (r : Rebound) (loc : Loc) : Option Cell :=
  getPath (r.tree_root.getD loc.1 none) loc.2

/-- Overwrite the slot at a location of the forest. -/
def setCellAt (r : Rebound) (loc : Loc) (v : Option Cell) : Rebound :=
  { r with tree_root := r.tree_root.set loc.1 (setSlot (r.tree_root.getD loc.1 none) loc.2 v) }

/-- Apply `f` in place to the cell at a location of the forest. -/
def modifyCellAt (r : Rebound) (loc : Loc) (f : Cell → Cell) : Rebound :=
  { r with tree_root := r.tree_root.set loc.1 (modifyAt (r.tree_root.getD loc.1 none) loc.2 f) }

/-- Set the back-reference of particle `i` to `loc` (the C assignment
`particles[i].c = node`). -/
def setParticleC (r : Rebound) (i : ℕ) (loc : Loc) : Rebound :=
  { r with particles := r.particles.set i { r.particles.getD i default with c := some loc } }

/-- tree.c lines 122–128: the octant of a particle in a cell.  Bit 0/1/2 is
set exactly when the particle's x/y/z coordinate is strictly less than the
cell's center. -/
def tree_get_octant_for_particle_in_cell (p : Particle) (node : Cell) : ℕ :=
  (if p.x < node.x then 1 else 0) + (if p.y < node.y then 2 else 0) +
    (if p.z < node.z then 4 else 0)

/-- Containment test of a particle against a cell's cubic box, shared by
`tree_particle_is_inside_cell` and the in-bounds checker. -/
def pInside (p : Particle) (node : Cell) : Bool :=
  if |p.x - node.x| > node.w / 2 ∨ |p.y - node.y| > node.w / 2 ∨
      |p.z - node.z| > node.w / 2 then false else true

/-- tree.c lines 135–142: whether the particle of a leaf is still within the
leaf's cubic box. -/
def tree_particle_is_inside_cell (r : Rebound) (node : Cell) : Bool :=
  pInside (r.particles.getD node.pt.toNat default) node

/-- Modelled from the spec: `particles_add` (particle.c, not among the
sources) appends a new particle at the end of the particle array ("re-insertion
as a new, possibly differently-indexed, particle"). -/
def particles_add (r : Rebound) (p : Particle) : Rebound :=
  { r with particles := r.particles ++ [p] }

/-- Modelled from the spec: `particles_add_fixed` (particle.c, not among the
sources) re-adds an evicted particle at its old index ("re-added at its old
index if that index is below the fixed-particle threshold"). -/
def particles_add_fixed (r : Rebound) (p : Particle) (pos : ℕ) : Rebound :=
  { r with particles := r.particles.set pos p }

/-- Modelled from the spec: `particles_get_rootbox_for_particle` (particle.c,
not among the sources) floors the particle's shifted coordinates into the
periodic root grid and linearises as `(k*root_ny+j)*root_nx+i`. -/
def particles_get_rootbox_for_particle (r : Rebound) (p : Particle) : ℕ :=
  let i := ⌊(p.x + r.boxsize_x / 2) / r.boxsize⌋ % (r.root_nx : ℤ)
  let j := ⌊(p.y + r.boxsize_y / 2) / r.boxsize⌋ % (r.root_ny : ℤ)
  let k := ⌊(p.z + r.boxsize_z / 2) / r.boxsize⌋ % (r.root_nz : ℤ)
  ((k * r.root_ny + j) * r.root_nx + i).toNat

/-- tree.c lines 80–120: recursive insertion of particle `pt` into the slot
`node`; `loc` is the address of that slot (the C pointer `node`), used for
the back-reference updates.  Returns the updated state and the new content of
the slot.  Fuel bounds the recursion depth (the C recurses unboundedly for
coincident particles). -/
def tree_add_particle_to_cell (r : Rebound) (node : Option Cell) (pt : ℕ)
    (parent : Option Cell) (o : ℕ) (loc : Loc) : ℕ → Rebound × Option Cell
  | 0 => (r, node)
  | fuel + 1 =>
    match node with
    | none =>
      -- lines 83–105: allocate a new cell, a leaf holding `pt`
      let p := r.particles.getD pt default
      let cNew : Cell :=
        match parent with
        | none =>
          -- lines 86–93: a root cell; geometry from the root-grid indices
          let i : ℤ := ⌊(p.x + r.boxsize_x / 2) / r.boxsize⌋ % (r.root_nx : ℤ)
          let j : ℤ := ⌊(p.y + r.boxsize_y / 2) / r.boxsize⌋ % (r.root_ny : ℤ)
          let k : ℤ := ⌊(p.z + r.boxsize_z / 2) / r.boxsize⌋ % (r.root_nz : ℤ)
          Cell.mk (-r.boxsize_x / 2 + r.boxsize * (1 / 2 + (i : ℚ)))
            (-r.boxsize_y / 2 + r.boxsize * (1 / 2 + (j : ℚ)))
            (-r.boxsize_z / 2 + r.boxsize * (1 / 2 + (k : ℚ)))
            r.boxsize (Int.ofNat pt) 0 0 0 0 (List.replicate 8 none)
        | some par =>
          -- lines 94–99: geometry derived from the parent and the octant o
          let w := par.w / 2
          Cell.mk (par.x + w / 2 * (if o % 2 = 0 then 1 else -1))
            (par.y + w / 2 * (if o / 2 % 2 = 0 then 1 else -1))
            (par.z + w / 2 * (if o / 4 % 2 = 0 then 1 else -1))
            w (Int.ofNat pt) 0 0 0 0 (List.replicate 8 none)
      (setParticleC r pt loc, some cNew)
    | some n =>
      if 0 ≤ n.pt then
        -- lines 108–113: a leaf; split it, re-inserting both particles
        let o1 := tree_get_octant_for_particle_in_cell
          (r.particles.getD n.pt.toNat default) n
        let res1 := tree_add_particle_to_cell r (n.oct.getD o1 none) n.pt.toNat
          (some n) o1 (loc.1, loc.2 ++ [o1]) fuel
        let n1 := n.setOct o1 res1.2
        let o2 := tree_get_octant_for_particle_in_cell
          (res1.1.particles.getD pt default) n1
        let res2 := tree_add_particle_to_cell res1.1 (n1.oct.getD o2 none) pt
          (some n1) o2 (loc.1, loc.2 ++ [o2]) fuel
        (res2.1, some ((n1.setOct o2 res2.2).setPt (-2)))
      else
        -- lines 114–118: a branch; decrement the tag and recurse
        let n1 := n.setPt (n.pt - 1)
        let o3 := tree_get_octant_for_particle_in_cell
          (r.particles.getD pt default) n1
        let res3 := tree_add_particle_to_cell r (n1.oct.getD o3 none) pt
          (some n1) o3 (loc.1, loc.2 ++ [o3]) fuel
        (res3.1, some (n1.setOct o3 res3.2))

/-- tree.c lines 65–78: insert particle `pt` into the tree of its root box
(the MPI branch is compiled out in the modelled configuration). -/
def tree_add_particle_to_tree (r : Rebound) (pt : ℕ) (fuel : ℕ) : Rebound :=
  let r1 := if r.tree_root.isEmpty then
    { r with tree_root := List.replicate (r.root_nx * r.root_ny * r.root_nz) none }
    else r
  let p := r1.particles.getD pt default
  let rootbox := particles_get_rootbox_for_particle r1 p
  let res := tree_add_particle_to_cell r1 (r1.tree_root.getD rootbox none) pt
    none 0 (rootbox, []) fuel
  { res.1 with tree_root := res.1.tree_root.set rootbox res.2 }

/-- tree.c lines 159–171: recompute the occupancy tag of a branch from its
(already maintained) children, also recording in the second component the
octant of the last surviving leaf child (the C variable `test`, `none` for
its initial sentinel value −1).  The accumulator's first component is the C
in-place accumulation into `node->pt` starting from 0. -/
def recomputeStep (node : Cell) (s : Int × Option ℕ) (o : ℕ) : Int × Option ℕ :=
  match node.oct.getD o none with
  | none => s
  | some d => if 0 ≤ d.pt then (s.1 - 1, some o) else (s.1 + d.pt, s.2)

def tree_recompute (node : Cell) : Int × Option ℕ :=
  (List.range 8).foldl (recomputeStep node) (0, none)

/-- tree.c lines 187–196: hand an evicted particle (index `oldpos`, read from
the leaf being freed) to the particle store: below the fixed threshold it is
re-added at its old index; otherwise the last particle is swapped into its
slot (updating that particle's leaf tag through its back-reference, line 194)
and the evicted particle is appended as a new particle. -/
def tree_evict (r : Rebound) (oldpos : ℕ) : Rebound :=
  let reinsertme := r.particles.getD oldpos default
  if oldpos < r.N_tree_fixed then
    particles_add_fixed r reinsertme oldpos
  else
    let lastIdx := r.particles.length - 1
    let swapped := r.particles.getD lastIdx default
    let r1 := { r with particles := (r.particles.set oldpos swapped).dropLast }
    let r2 := match swapped.c with
      | some cl => modifyCellAt r1 cl (fun n => n.setPt (Int.ofNat oldpos))
      | none => r1
    particles_add r2 reinsertme

/-- tree.c lines 149–203: one maintenance step on the slot at `loc`.  The C
function returns the new content of the caller's slot (`node` or `NULL`); the
model writes that slot itself, which happens at the same point of the
execution order.  The two `unreachable` branches correspond to the C reading
`node->oct[-1]` (resp. a vanished node), which invariants rule out. -/
def tree_update_cell (r : Rebound) (loc : Loc) : ℕ → Rebound
  | 0 => r
  | fuel + 1 =>
    match getCellAt r loc with
    | none => r
    | some node =>
      if node.pt < 0 then
        -- lines 155–158: maintain the eight children first
        let r8 := (List.range 8).foldl
          (fun acc o => tree_update_cell acc (loc.1, loc.2 ++ [o]) fuel) r
        match getCellAt r8 loc with
        | none => r8 -- unreachable: the node cannot vanish during the loop
        | some node1 =>
          let s := tree_recompute node1
          if s.1 = 0 then
            -- lines 173–175: the node is empty; free it
            setCellAt r8 loc none
          else if s.1 = -1 then
            -- lines 176–181: collapse into a leaf
            match s.2 with
            | some t =>
              match node1.oct.getD t none with
              | some child =>
                let r9 := modifyCellAt r8 loc (fun n => n.setPt child.pt)
                let r10 := setParticleC r9 child.pt.toNat loc
                setCellAt r10 (loc.1, loc.2 ++ [t]) none
              | none => modifyCellAt r8 loc (fun n => n.setPt s.1) -- unreachable
            | none => modifyCellAt r8 loc (fun n => n.setPt s.1) -- unreachable
          else
            modifyCellAt r8 loc (fun n => n.setPt s.1)
      else
        -- lines 186–202: a leaf
        if tree_particle_is_inside_cell r node then
          setParticleC r node.pt.toNat loc
        else
          setCellAt (tree_evict r node.pt.toNat) loc none

/-- tree.c lines 284–298: one maintenance pass over every root tree (the MPI
branch is compiled out; the C loop bound `root_n` equals
`root_nx*root_ny*root_nz`). -/
def tree_update (r : Rebound) (fuel : ℕ) : Rebound :=
  let r1 := if r.tree_root.isEmpty then
    { r with tree_root := List.replicate (r.root_nx * r.root_ny * r.root_nz) none }
    else r
  (List.range (r1.root_nx * r1.root_ny * r1.root_nz)).foldl
    (fun acc i => tree_update_cell acc (i, []) fuel) r1

/-- Accumulation step of tree.c lines 223–234: fold a child's contribution
into `(mx, my, mz, m)` (the C accumulates in place in the same order). -/
def gravAcc : (ℚ × ℚ × ℚ × ℚ) → Option Cell → (ℚ × ℚ × ℚ × ℚ)
  | a, none => a
  | (amx, amy, amz, am), some d => (amx + d.mx * d.m, amy + d.my * d.m, amz + d.mz * d.m, am + d.m)

mutual
/-- tree.c lines 208–268 (QUADRUPOLE compiled out): recompute the mass and
center-of-mass moments of a cell, children first.  A branch sums the
children's masses and mass-weighted centers and divides only when the total
mass is positive; a leaf copies its particle's mass and position. -/
def tree_update_gravity_data_in_cell (r : Rebound) : Cell → Cell
  | .mk x y z w pt _ _ _ _ oct =>
    if pt < 0 then
      let oct2 := gravityList r oct
      let a := oct2.foldl gravAcc (0, 0, 0, 0)
      if 0 < a.2.2.2 then
        Cell.mk x y z w pt a.2.2.2 (a.1 / a.2.2.2) (a.2.1 / a.2.2.2) (a.2.2.1 / a.2.2.2) oct2
      else
        Cell.mk x y z w pt a.2.2.2 a.1 a.2.1 a.2.2.1 oct2
    else
      let p := r.particles.getD pt.toNat default
      Cell.mk x y z w pt p.m p.x p.y p.z oct

/-- Children-first recursion of `tree_update_gravity_data_in_cell` over the
octant slots. -/
def gravityList (r : Rebound) : List (Option Cell) → List (Option Cell)
  | [] => []
  | none :: t => none :: gravityList r t
  | some c :: t => some (tree_update_gravity_data_in_cell r c) :: gravityList r t
end

/-- tree.c lines 270–282: recompute the gravity moments of every root tree
(the MPI branch is compiled out). -/
def tree_update_gravity_data (r : Rebound) : Rebound :=
  { r with tree_root := r.tree_root.map (fun t => t.map (tree_update_gravity_data_in_cell r)) }

mutual
/-- Number of particles (leaves) in a cell's subtree: a leaf counts 1, a
branch sums its children. -/
def countLeaves : Cell → Int
  | .mk _ _ _ _ pt _ _ _ _ oct => if 0 ≤ pt then 1 else countLeavesList oct

/-- Sum of `countLeaves` over a list of octant slots. -/
def countLeavesList : List (Option Cell) → Int
  | [] => 0
  | none :: t => countLeavesList t
  | some c :: t => countLeaves c + countLeavesList t
end

/-- Number of particles in an optional subtree. -/
def countLeavesO : Option Cell → Int
  | none => 0
  | some c => countLeaves c

mutual
/-- Depth of a cell: 1 plus the maximal depth of its children. -/
def depthCell : Cell → ℕ
  | .mk _ _ _ _ _ _ _ _ _ oct => 1 + depthList oct

/-- Maximal depth over a list of octant slots. -/
def depthList : List (Option Cell) → ℕ
  | [] => 0
  | none :: t => depthList t
  | some c :: t => max (depthCell c) (depthList t)
end

/-- Depth of an optional subtree (0 for an empty slot). -/
def depthO : Option Cell → ℕ
  | none => 0
  | some c => depthCell c

/-- Maximal depth over the whole forest. -/
def forestDepth (r : Rebound) : ℕ :=
  r.tree_root.foldl (fun a t => max a (depthO t)) 0

mutual
/-- Structural well-formedness of a cell: the octant list has length 8, a
leaf has only empty slots, and every child's box is nested in this cell's box
(`|child.x - x| + child.w/2 ≤ w/2` per axis, as produced by halving). -/
def structCell : Cell → Bool
  | .mk x y z w pt _ _ _ _ oct =>
    (oct.length == 8) &&
      (if 0 ≤ pt then oct.all (fun t => t.isNone) else true) &&
      structList x y z w oct

/-- Nested-geometry and recursive structural check over octant slots. -/
def structList (x y z w : ℚ) : List (Option Cell) → Bool
  | [] => true
  | none :: t => structList x y z w t
  | some c :: t =>
    (decide (|c.x - x| + c.w / 2 ≤ w / 2) && decide (|c.y - y| + c.w / 2 ≤ w / 2) &&
      decide (|c.z - z| + c.w / 2 ≤ w / 2)) && structCell c && structList x y z w t
end

/-- Structural well-formedness of the whole forest. -/
def structB (r : Rebound) : Bool :=
  r.tree_root.all (fun t => match t with | none => true | some c => structCell c)

mutual
/-- Leaf-to-particle consistency of a subtree located at root `ri`, path
`path`: every leaf's tag is a valid particle index whose particle's
back-reference is exactly this leaf's location. -/
def inv1Cell (ps : List Particle) (ri : ℕ) (path : List ℕ) : Cell → Bool
  | .mk _ _ _ _ pt _ _ _ _ oct =>
    if 0 ≤ pt then
      decide (pt.toNat < ps.length) &&
        decide ((ps.getD pt.toNat default).c = some (ri, path))
    else inv1List ps ri path 0 oct

/-- Walk of `inv1Cell` over octant slots, `o` being the next octant index. -/
def inv1List (ps : List Particle) (ri : ℕ) (path : List ℕ) (o : ℕ) :
    List (Option Cell) → Bool
  | [] => true
  | none :: t => inv1List ps ri path (o + 1) t
  | some c :: t => inv1Cell ps ri (path ++ [o]) c && inv1List ps ri path (o + 1) t
end

/-- Leaf-to-particle consistency of the whole forest. -/
def inv1B (r : Rebound) : Bool :=
  (List.range r.tree_root.length).all fun i =>
    match r.tree_root.getD i none with
    | none => true
    | some c => inv1Cell r.particles i [] c

/-- Particle-to-leaf consistency: every live particle's back-reference, when
set, points either to a dead location or to a cell tagged with exactly this
particle's index. -/
def inv2B (r : Rebound) : Bool :=
  (List.range r.particles.length).all fun i =>
    match (r.particles.getD i default).c with
    | none => true
    | some loc =>
      match getCellAt r loc with
      | none => true
      | some cl => cl.pt == Int.ofNat i

/-- All state invariants a legitimately constructed forest satisfies when
maintenance starts: root-grid size, leaf/particle mutual consistency and
structural well-formedness. -/
def goodState (r : Rebound) : Bool :=
  (r.tree_root.length == r.root_nx * r.root_ny * r.root_nz) &&
    inv1B r && inv2B r && structB r

/-- Sum of the occupancy contributions of a branch's surviving children as
the spec words them: a leaf child contributes −1, a branch child its own
(negative) tag. -/
def contribStep (node : Cell) (s : Int) (o : ℕ) : Int :=
  match node.oct.getD o none with
  | none => s
  | some d => if 0 ≤ d.pt then s - 1 else s + d.pt

def octContribution (node : Cell) : Int :=
  (List.range 8).foldl (contribStep node) 0

/-- Containment test on raw header data, the spec's formulation: all three
axis distances from the particle to the center are at most the half-width. -/
def specInside (p : Particle) (x y z w : ℚ) : Prop :=
  |p.x - x| ≤ w / 2 ∧ |p.y - y| ≤ w / 2 ∧ |p.z - z| ≤ w / 2

/-- Header of a cell: every field except the octant slots themselves, with
the slot list replaced by its length. -/
structure Hd where
  x : ℚ
  y : ℚ
  z : ℚ
  w : ℚ
  pt : Int
  len : ℕ

/-- Header of a cell. -/
def Cell.hd (c : Cell) : Hd :=
  ⟨c.x, c.y, c.z, c.w, c.pt, c.oct.length⟩

/-- Header of an optional cell. -/
def hdO : Option Cell → Option Hd :=
  Option.map Cell.hd

/-- Header observable of the forest at a location. -/
def hdAt (r : Rebound) (q : Loc) : Option Hd :=
  hdO (getCellAt r q)

/-- Location `q` lies in the subtree rooted at `a` (including `a` itself). -/
def locUnder (a q : Loc) : Prop :=
  a.1 = q.1 ∧ ∃ s, q.2 = a.2 ++ s

/-- Location `q` is a strict ancestor of `a`. -/
def locAnc (q a : Loc) : Prop :=
  q.1 = a.1 ∧ ∃ o s, a.2 = q.2 ++ o :: s

/-- Leaf-to-particle consistency, quantified form: every leaf's tag indexes a
live particle whose back-reference is that leaf's location. -/
def Inv1Q (r : Rebound) : Prop :=
  ∀ q c, getCellAt r q = some c → 0 ≤ c.pt →
    c.pt.toNat < r.particles.length ∧
      (r.particles.getD c.pt.toNat default).c = some q

/-- Particle-to-leaf consistency, quantified form: a live particle's set
back-reference points to a dead location or to a cell tagged with its index. -/
def Inv2Q (r : Rebound) : Prop :=
  ∀ i, i < r.particles.length →
    ∀ loc, (r.particles.getD i default).c = some loc →
      getCellAt r loc = none ∨
        ∃ cl, getCellAt r loc = some cl ∧ cl.pt = Int.ofNat i

/-- Structural well-formedness, quantified form: octant lists have length 8,
leaves have only empty slots, and children's boxes nest in their parent's. -/
def StructQ (r : Rebound) : Prop :=
  ∀ q c, getCellAt r q = some c →
    c.oct.length = 8 ∧
      (0 ≤ c.pt → ∀ o, c.oct.getD o none = none) ∧
      (∀ o child, c.oct.getD o none = some child →
        |child.x - c.x| + child.w / 2 ≤ c.w / 2 ∧
          |child.y - c.y| + child.w / 2 ≤ c.w / 2 ∧
          |child.z - c.z| + child.w / 2 ≤ c.w / 2)

/-- All invariants carried through the maintenance induction. -/
def GInvQ (r : Rebound) : Prop :=
  Inv1Q r ∧ Inv2Q r ∧ StructQ r

/-- Occupancy wellformedness of the subtree at `base`: every branch's tag is
the negated particle count of its subtree and at most −2. -/
def WCQsub (r : Rebound) (base : Loc) : Prop :=
  ∀ s c, getCellAt r (base.1, base.2 ++ s) = some c → c.pt < 0 →
    c.pt = -(countLeavesList c.oct) ∧ c.pt ≤ -2

/-- In-bounds wellformedness of the subtree at `base`: every leaf's particle
passes the containment test against the leaf's box. -/
def IBQsub (r : Rebound) (base : Loc) : Prop :=
  ∀ s c, getCellAt r (base.1, base.2 ++ s) = some c → 0 ≤ c.pt →
    pInside (r.particles.getD c.pt.toNat default) c = true

/-- Maintained-subtree wellformedness. -/
def SubOK (r : Rebound) (base : Loc) : Prop :=
  WCQsub r base ∧ IBQsub r base

/-- Effect of a maintenance step on a location outside the maintained subtree
and not an ancestor of it: the cell survives with identical geometry, slot
count, particle count and depth; a branch keeps its tag; a leaf's tag may be
renumbered but then indexes an identical particle value. -/
def UnrelPres (r r' : Rebound) (q : Loc) : Prop :=
  ∀ c, getCellAt r q = some c → ∃ c', getCellAt r' q = some c' ∧
    c'.x = c.x ∧ c'.y = c.y ∧ c'.z = c.z ∧ c'.w = c.w ∧
    c'.oct.length = c.oct.length ∧
    countLeaves c' = countLeaves c ∧ depthCell c' = depthCell c ∧
    (c.pt < 0 → c'.pt = c.pt) ∧
    (0 ≤ c.pt → ∃ j' : ℕ, c'.pt = Int.ofNat j' ∧
      r'.particles.getD j' default = r.particles.getD c.pt.toNat default)

/-- Full conclusion of one maintenance step at `act`: invariants persist, the
particle count is unchanged, no dead location revives, ancestors keep their
headers, unrelated locations are preserved in the `UnrelPres` sense, and the
maintained slot is either freed or a wellformed subtree of no greater depth
with unchanged geometry. -/
structure MStep (r r' : Rebound) (act : Loc) : Prop where
  inv : GInvQ r'
  plen : r'.particles.length = r.particles.length
  dead : ∀ q : Loc, getCellAt r q = none → getCellAt r' q = none
  anc : ∀ q : Loc, locAnc q act → hdAt r' q = hdAt r q
  unrel : ∀ q : Loc, ¬ locUnder act q → ¬ locAnc q act → UnrelPres r r' q
  out : getCellAt r' act = none ∨
    ∃ c c', getCellAt r act = some c ∧ getCellAt r' act = some c' ∧
      c'.x = c.x ∧ c'.y = c.y ∧ c'.z = c.z ∧ c'.w = c.w ∧
      depthCell c' ≤ depthCell c ∧ SubOK r' act

/-- Sum of the masses of the surviving children in a slot list. -/
def sumM : List (Option Cell) → ℚ
  | [] => 0
  | none :: t => sumM t
  | some c :: t => c.m + sumM t

/-- Sum of the mass-weighted x-centers of the surviving children. -/
def sumMX : List (Option Cell) → ℚ
  | [] => 0
  | none :: t => sumMX t
  | some c :: t => c.mx * c.m + sumMX t

/-- Sum of the mass-weighted y-centers of the surviving children. -/
def sumMY : List (Option Cell) → ℚ
  | [] => 0
  | none :: t => sumMY t
  | some c :: t => c.my * c.m + sumMY t

/-- Sum of the mass-weighted z-centers of the surviving children. -/
def sumMZ : List (Option Cell) → ℚ
  | [] => 0
  | none :: t => sumMZ t
  | some c :: t => c.mz * c.m + sumMZ t

/-- Occupancy tags survive pointwise from `r` to `r'`: every live cell of
`r'` was live in `r` with the same tag. -/
def PtPreserved (r r' : Rebound) : Prop :=
  ∀ q c', getCellAt r' q = some c' → ∃ c, getCellAt r q = some c ∧
    (c.pt = c'.pt ∨ (c.pt < 0 ∧ c'.pt < 0))

/-- Geometry and slot count survive pointwise from `r` to `r'`, empty slots
stay empty, and the leaf/branch classification is preserved except that a
cell may become a childless leaf (a collapsed branch). -/
def GeomSignPreserved (r r' : Rebound) : Prop :=
  ∀ q c', getCellAt r' q = some c' → ∃ c, getCellAt r q = some c ∧
    c'.x = c.x ∧ c'.y = c.y ∧ c'.z = c.z ∧ c'.w = c.w ∧
    c'.oct.length = c.oct.length ∧
    (∀ o, c.oct.getD o none = none → c'.oct.getD o none = none) ∧
    ((0 ≤ c'.pt ↔ 0 ≤ c.pt) ∨ (0 ≤ c'.pt ∧ ∀ o, c'.oct.getD o none = none))

/-- Decidable check that all particle masses are nonnegative. -/
def massNonnegB (r : Rebound) : Bool :=
  r.particles.all fun p => decide (0 ≤ p.m)

/-- Concrete leaf cell (octant 0 of the witness root) holding particle 0. -/
def wit_leafA : Cell :=
  Cell.mk (mkRat 1 4) (mkRat 1 4) (mkRat 1 4) (mkRat 1 2) (Int.ofNat 0) 0 0 0 0
    (List.replicate 8 none)

/-- Concrete leaf cell (octant 7 of the witness root) holding particle 1. -/
def wit_leafB : Cell :=
  Cell.mk (mkRat (-1) 4) (mkRat (-1) 4) (mkRat (-1) 4) (mkRat 1 2) (Int.ofNat 1) 0 0 0 0
    (List.replicate 8 none)

/-- Concrete branch root of the witness state: occupancy −2, leaves in
octants 0 and 7. -/
def wit_root : Cell :=
  Cell.mk 0 0 0 1 (-2) 0 0 0 0
    [some wit_leafA, none, none, none, none, none, none, some wit_leafB]

/-- Witness particle at (0.1, 0.1, 0.1). -/
def wit_p0 : Particle :=
  { x := mkRat 1 10, y := mkRat 1 10, z := mkRat 1 10, m := 1, c := some (0, [0]) }

/-- Witness particle at (−0.1, −0.1, −0.1). -/
def wit_p1 : Particle :=
  { x := mkRat (-1) 10, y := mkRat (-1) 10, z := mkRat (-1) 10, m := 1,
    c := some (0, [7]) }

/-- Concrete two-particle state: one root box of width 1 centered at the
origin whose tree is a branch with two leaf children. -/
def wit_r2 : Rebound :=
  { tree_root := [some wit_root], particles := [wit_p0, wit_p1],
    N_tree_fixed := 0, boxsize := 1, boxsize_x := 1, boxsize_y := 1, boxsize_z := 1,
    root_nx := 1, root_ny := 1, root_nz := 1 }

/-- Concrete branch with a single surviving leaf child, used to witness the
collapse-safety theorem. -/
def wit_single : Cell :=
  Cell.mk 0 0 0 1 (-1) 0 0 0 0
    [some wit_leafA, none, none, none, none, none, none, none]

/-- Particle at (0.1, 0.1, 0.1) not yet inserted into any tree. -/
def wit_c7_p0 : Particle :=
  { x := mkRat 1 10, y := mkRat 1 10, z := mkRat 1 10, m := 1, c := none }

/-- Particle at (−0.1, −0.1, −0.1) not yet inserted into any tree. -/
def wit_c7_p1 : Particle :=
  { x := mkRat (-1) 10, y := mkRat (-1) 10, z := mkRat (-1) 10, m := 1, c := none }

/-- Two particles and an empty single-box forest (root box of width 1
centered at the origin), before any insertion. -/
def wit_c7 : Rebound :=
  { tree_root := [], particles := [wit_c7_p0, wit_c7_p1],
    N_tree_fixed := 0, boxsize := 1, boxsize_x := 1, boxsize_y := 1, boxsize_z := 1,
    root_nx := 1, root_ny := 1, root_nz := 1 }

/-- Forward geometry preservation between optional subtrees: every cell of
the first is present at the same path in the second with identical center
and width. -/
def GeomFwdO (t t' : Option Cell) : Prop :=
  ∀ p c, getPath t p = some c → ∃ c', getPath t' p = some c' ∧
    c'.x = c.x ∧ c'.y = c.y ∧ c'.z = c.z ∧ c'.w = c.w

/-- Backward geometry preservation between states: every live cell of the
second state was live at the same location in the first with identical
center and width. -/
def GeomBack (r r' : Rebound) : Prop :=
  ∀ q c', getCellAt r' q = some c' → ∃ c, getCellAt r q = some c ∧
    c'.x = c.x ∧ c'.y = c.y ∧ c'.z = c.z ∧ c'.w = c.w

/-! ### Basic cell accessor and setter lemmas -/

@[simp] theorem Cell.x_mk (x y z w : ℚ) (pt : Int) (m mx my mz : ℚ) (oct) :
    (Cell.mk x y z w pt m mx my mz oct).x = x := rfl

@[simp] theorem Cell.y_mk (x y z w : ℚ) (pt : Int) (m mx my mz : ℚ) (oct) :
    (Cell.mk x y z w pt m mx my mz oct).y = y := rfl

@[simp] theorem Cell.z_mk (x y z w : ℚ) (pt : Int) (m mx my mz : ℚ) (oct) :
    (Cell.mk x y z w pt m mx my mz oct).z = z := rfl

@[simp] theorem Cell.w_mk (x y z w : ℚ) (pt : Int) (m mx my mz : ℚ) (oct) :
    (Cell.mk x y z w pt m mx my mz oct).w = w := rfl

@[simp] theorem Cell.pt_mk (x y z w : ℚ) (pt : Int) (m mx my mz : ℚ) (oct) :
    (Cell.mk x y z w pt m mx my mz oct).pt = pt := rfl

@[simp] theorem Cell.m_mk (x y z w : ℚ) (pt : Int) (m mx my mz : ℚ) (oct) :
    (Cell.mk x y z w pt m mx my mz oct).m = m := rfl

@[simp] theorem Cell.mx_mk (x y z w : ℚ) (pt : Int) (m mx my mz : ℚ) (oct) :
    (Cell.mk x y z w pt m mx my mz oct).mx = mx := rfl

@[simp] theorem Cell.my_mk (x y z w : ℚ) (pt : Int) (m mx my mz : ℚ) (oct) :
    (Cell.mk x y z w pt m mx my mz oct).my = my := rfl

@[simp] theorem Cell.mz_mk (x y z w : ℚ) (pt : Int) (m mx my mz : ℚ) (oct) :
    (Cell.mk x y z w pt m mx my mz oct).mz = mz := rfl

@[simp] theorem Cell.oct_mk (x y z w : ℚ) (pt : Int) (m mx my mz : ℚ) (oct) :
    (Cell.mk x y z w pt m mx my mz oct).oct = oct := rfl

@[simp] theorem Cell.x_setPt (c : Cell) (v : Int) : (c.setPt v).x = c.x := by
  cases c; rfl

@[simp] theorem Cell.y_setPt (c : Cell) (v : Int) : (c.setPt v).y = c.y := by
  cases c; rfl

@[simp] theorem Cell.z_setPt (c : Cell) (v : Int) : (c.setPt v).z = c.z := by
  cases c; rfl

@[simp] theorem Cell.w_setPt (c : Cell) (v : Int) : (c.setPt v).w = c.w := by
  cases c; rfl

@[simp] theorem Cell.pt_setPt (c : Cell) (v : Int) : (c.setPt v).pt = v := by
  cases c; rfl

@[simp] theorem Cell.oct_setPt (c : Cell) (v : Int) : (c.setPt v).oct = c.oct := by
  cases c; rfl

@[simp] theorem Cell.x_setOct (c : Cell) (o : ℕ) (v : Option Cell) :
    (c.setOct o v).x = c.x := by cases c; rfl

@[simp] theorem Cell.y_setOct (c : Cell) (o : ℕ) (v : Option Cell) :
    (c.setOct o v).y = c.y := by cases c; rfl

@[simp] theorem Cell.z_setOct (c : Cell) (o : ℕ) (v : Option Cell) :
    (c.setOct o v).z = c.z := by cases c; rfl

@[simp] theorem Cell.w_setOct (c : Cell) (o : ℕ) (v : Option Cell) :
    (c.setOct o v).w = c.w := by cases c; rfl

@[simp] theorem Cell.pt_setOct (c : Cell) (o : ℕ) (v : Option Cell) :
    (c.setOct o v).pt = c.pt := by cases c; rfl

@[simp] theorem Cell.oct_setOct (c : Cell) (o : ℕ) (v : Option Cell) :
    (c.setOct o v).oct = c.oct.set o v := by cases c; rfl

theorem Cell.eta (c : Cell) :
    Cell.mk c.x c.y c.z c.w c.pt c.m c.mx c.my c.mz c.oct = c := by
  cases c; rfl

/-! ### List getD and set helper lemmas -/

theorem listGetD_set_self {α : Type} (l : List α) (i : ℕ) (v d : α)
    (h : i < l.length) : (l.set i v).getD i d = v := by
  simp [List.getD_eq_getElem?_getD, List.getElem?_set_self (by simpa using h)]

theorem listGetD_set_ne {α : Type} (l : List α) (i j : ℕ) (v d : α)
    (h : i ≠ j) : (l.set i v).getD j d = l.getD j d := by
  simp [List.getD_eq_getElem?_getD, List.getElem?_set_ne h]

theorem listSet_getD_self {α : Type} : ∀ (l : List α) (i : ℕ) (d : α),
    l.set i (l.getD i d) = l
  | [], _, _ => rfl
  | _ :: _, 0, _ => rfl
  | a :: t, i + 1, d => by
    simpa [List.getD_cons_succ] using congrArg (a :: ·) (listSet_getD_self t i d)

theorem listGetD_set {α : Type} (l : List α) (i j : ℕ) (v d : α) :
    (l.set i v).getD j d = if i = j ∧ i < l.length then v else l.getD j d := by
  rcases eq_or_ne i j with rfl | h
  · rcases lt_or_le i l.length with h2 | h2
    · simp [listGetD_set_self _ _ _ _ h2, h2]
    · simp [List.set_eq_of_length_le h2, Nat.not_lt.mpr h2]
  · simp [listGetD_set_ne _ _ _ _ _ h, h]

/-! ### Path algebra: getPath, modifyAt, setSlot -/

@[simp] theorem getPath_none : ∀ p : List ℕ, getPath none p = none
  | [] => rfl
  | _ :: _ => rfl

@[simp] theorem getPath_nil (t : Option Cell) : getPath t [] = t := by
  cases t <;> rfl

theorem getPath_cons (c : Cell) (o : ℕ) (p : List ℕ) :
    getPath (some c) (o :: p) = getPath (c.oct.getD o none) p := rfl

theorem getPath_append : ∀ (p q : List ℕ) (t : Option Cell),
    getPath t (p ++ q) = getPath (getPath t p) q
  | [], _, t => by simp
  | _ :: _, _, none => by simp
  | o :: p, q, some c => by
    rw [List.cons_append, getPath_cons, getPath_cons, getPath_append p q]

@[simp] theorem modifyAt_none (p : List ℕ) (f : Cell → Cell) :
    modifyAt none p f = none := by cases p <;> rfl

@[simp] theorem modifyAt_nil (t : Option Cell) (f : Cell → Cell) :
    modifyAt t [] f = t.map f := by cases t <;> rfl

@[simp] theorem setSlot_none_of_cons (o : ℕ) (p : List ℕ) (v : Option Cell) :
    setSlot none (o :: p) v = none := rfl

@[simp] theorem setSlot_nil (t v : Option Cell) : setSlot t [] v = v := by
  cases t <;> rfl

theorem setSlot_cons (c : Cell) (o : ℕ) (p : List ℕ) (v : Option Cell) :
    setSlot (some c) (o :: p) v = some (c.setOct o (setSlot (c.oct.getD o none) p v)) := rfl

theorem modifyAt_cons (c : Cell) (o : ℕ) (p : List ℕ) (f : Cell → Cell) :
    modifyAt (some c) (o :: p) f = some (c.setOct o (modifyAt (c.oct.getD o none) p f)) := rfl

theorem getPath_modifyAt_deep : ∀ (p s : List ℕ) (t : Option Cell) (f : Cell → Cell),
    getPath (modifyAt t (p ++ s) f) p = modifyAt (getPath t p) s f := by
  intro p
  induction p with
  | nil => intro s t f; simp
  | cons o p ih =>
    intro s t f
    cases t with
    | none => simp
    | some c =>
      show getPath ((c.setOct o (modifyAt (c.oct.getD o none) (p ++ s) f)).oct.getD o none) p =
        modifyAt (getPath (c.oct.getD o none) p) s f
      rw [Cell.oct_setOct, listGetD_set]
      rcases lt_or_le o c.oct.length with h | h
      · rw [if_pos ⟨rfl, h⟩, ih]
      · rw [if_neg (fun hc => absurd hc.2 (Nat.not_lt.mpr h)), List.getD_eq_default _ _ h]
        simp

theorem getPath_modifyAt_self (p : List ℕ) (t : Option Cell) (f : Cell → Cell) :
    getPath (modifyAt t p f) p = (getPath t p).map f := by
  simpa using getPath_modifyAt_deep p [] t f

theorem getPath_modifyAt_below (p s : List ℕ) (t : Option Cell) (f : Cell → Cell) :
    getPath (modifyAt t p f) (p ++ s) = getPath ((getPath t p).map f) s := by
  rw [getPath_append, getPath_modifyAt_self]

theorem getPath_setSlot_deep : ∀ (p : List ℕ) (o : ℕ) (s : List ℕ) (t : Option Cell)
    (v : Option Cell),
    getPath (setSlot t (p ++ o :: s) v) p = setSlot (getPath t p) (o :: s) v := by
  intro p
  induction p with
  | nil => intro o s t v; simp
  | cons a p ih =>
    intro o s t v
    cases t with
    | none => simp
    | some c =>
      show getPath ((c.setOct a (setSlot (c.oct.getD a none) (p ++ o :: s) v)).oct.getD a none) p =
        setSlot (getPath (c.oct.getD a none) p) (o :: s) v
      rw [Cell.oct_setOct, listGetD_set]
      rcases lt_or_le a c.oct.length with h | h
      · rw [if_pos ⟨rfl, h⟩, ih]
      · rw [if_neg (fun hc => absurd hc.2 (Nat.not_lt.mpr h)), List.getD_eq_default _ _ h]
        simp

theorem getPath_setSlot_none : ∀ (p s : List ℕ) (t : Option Cell),
    getPath (setSlot t p none) (p ++ s) = none := by
  intro p
  induction p with
  | nil => intro s t; simp
  | cons o p ih =>
    intro s t
    cases t with
    | none => simp
    | some c =>
      rw [List.cons_append]
      show getPath ((c.setOct o (setSlot (c.oct.getD o none) p none)).oct.getD o none) (p ++ s) =
        none
      rw [Cell.oct_setOct, listGetD_set]
      rcases lt_or_le o c.oct.length with h | h
      · rw [if_pos ⟨rfl, h⟩, ih]
      · rw [if_neg (fun hc => absurd hc.2 (Nat.not_lt.mpr h)), List.getD_eq_default _ _ h]
        simp

theorem getPath_modifyAt_divergent : ∀ (u : List ℕ) (a b : ℕ) (p q : List ℕ)
    (t : Option Cell) (f : Cell → Cell), a ≠ b →
    getPath (modifyAt t (u ++ a :: p) f) (u ++ b :: q) = getPath t (u ++ b :: q) := by
  intro u
  induction u with
  | nil =>
    intro a b p q t f hab
    cases t with
    | none => simp
    | some c =>
      show getPath ((c.setOct a (modifyAt (c.oct.getD a none) p f)).oct.getD b none) q =
        getPath (c.oct.getD b none) q
      rw [Cell.oct_setOct, listGetD_set_ne _ _ _ _ _ hab]
  | cons x u ih =>
    intro a b p q t f hab
    cases t with
    | none => simp
    | some c =>
      rw [List.cons_append, List.cons_append, getPath_cons]
      show getPath ((c.setOct x (modifyAt (c.oct.getD x none) (u ++ a :: p) f)).oct.getD x none)
        (u ++ b :: q) = getPath (c.oct.getD x none) (u ++ b :: q)
      rw [Cell.oct_setOct, listGetD_set]
      rcases lt_or_le x c.oct.length with h | h
      · rw [if_pos ⟨rfl, h⟩, ih _ _ _ _ _ _ hab]
      · rw [if_neg (fun hc => absurd hc.2 (Nat.not_lt.mpr h))]

theorem getPath_setSlot_divergent : ∀ (u : List ℕ) (a b : ℕ) (p q : List ℕ)
    (t : Option Cell) (v : Option Cell), a ≠ b →
    getPath (setSlot t (u ++ a :: p) v) (u ++ b :: q) = getPath t (u ++ b :: q) := by
  intro u
  induction u with
  | nil =>
    intro a b p q t v hab
    cases t with
    | none => simp
    | some c =>
      show getPath ((c.setOct a (setSlot (c.oct.getD a none) p v)).oct.getD b none) q =
        getPath (c.oct.getD b none) q
      rw [Cell.oct_setOct, listGetD_set_ne _ _ _ _ _ hab]
  | cons x u ih =>
    intro a b p q t v hab
    cases t with
    | none => simp
    | some c =>
      rw [List.cons_append, List.cons_append, getPath_cons]
      show getPath ((c.setOct x (setSlot (c.oct.getD x none) (u ++ a :: p) v)).oct.getD x none)
        (u ++ b :: q) = getPath (c.oct.getD x none) (u ++ b :: q)
      rw [Cell.oct_setOct, listGetD_set]
      rcases lt_or_le x c.oct.length with h | h
      · rw [if_pos ⟨rfl, h⟩, ih _ _ _ _ _ _ hab]
      · rw [if_neg (fun hc => absurd hc.2 (Nat.not_lt.mpr h))]

theorem hdO_modifyAt_cons (o : ℕ) (p : List ℕ) (t : Option Cell) (f : Cell → Cell) :
    hdO (modifyAt t (o :: p) f) = hdO t := by
  cases t with
  | none => simp
  | some c =>
    show hdO (some (c.setOct o _)) = hdO (some c)
    simp [hdO, Cell.hd]

theorem hdO_setSlot_cons (o : ℕ) (p : List ℕ) (t v : Option Cell) :
    hdO (setSlot t (o :: p) v) = hdO t := by
  cases t with
  | none => simp
  | some c =>
    show hdO (some (c.setOct o _)) = hdO (some c)
    simp [hdO, Cell.hd]

/-- Trichotomy of octant paths: either `q` extends `p`, or `p` strictly
extends `q`, or the two diverge after a common prefix. -/
theorem listRel : ∀ p q : List ℕ,
    (∃ s, q = p ++ s) ∨ (∃ o s, p = q ++ o :: s) ∨
      (∃ u a b p' q', a ≠ b ∧ p = u ++ a :: p' ∧ q = u ++ b :: q')
  | [], q => Or.inl ⟨q, rfl⟩
  | o :: p, [] => Or.inr (Or.inl ⟨o, p, rfl⟩)
  | a :: p, b :: q => by
    rcases eq_or_ne a b with rfl | hab
    · rcases listRel p q with ⟨s, rfl⟩ | ⟨o, s, rfl⟩ | ⟨u, x, y, p', q', hxy, rfl, rfl⟩
      · exact Or.inl ⟨s, rfl⟩
      · exact Or.inr (Or.inl ⟨o, s, rfl⟩)
      · exact Or.inr (Or.inr ⟨a :: u, x, y, p', q', hxy, rfl, rfl⟩)
    · exact Or.inr (Or.inr ⟨[], a, b, p, q, hab, rfl, rfl⟩)

/-! ### State-level lemmas -/

@[simp] theorem particles_modifyCellAt (r : Rebound) (a : Loc) (f : Cell → Cell) :
    (modifyCellAt r a f).particles = r.particles := rfl

@[simp] theorem particles_setCellAt (r : Rebound) (a : Loc) (v : Option Cell) :
    (setCellAt r a v).particles = r.particles := rfl

@[simp] theorem tree_root_setParticleC (r : Rebound) (i : ℕ) (loc : Loc) :
    (setParticleC r i loc).tree_root = r.tree_root := rfl

@[simp] theorem getCellAt_setParticleC (r : Rebound) (i : ℕ) (loc : Loc) (q : Loc) :
    getCellAt (setParticleC r i loc) q = getCellAt r q := rfl

@[simp] theorem ntf_modifyCellAt (r : Rebound) (a : Loc) (f : Cell → Cell) :
    (modifyCellAt r a f).N_tree_fixed = r.N_tree_fixed := rfl

@[simp] theorem ntf_setCellAt (r : Rebound) (a : Loc) (v : Option Cell) :
    (setCellAt r a v).N_tree_fixed = r.N_tree_fixed := rfl

@[simp] theorem ntf_setParticleC (r : Rebound) (i : ℕ) (loc : Loc) :
    (setParticleC r i loc).N_tree_fixed = r.N_tree_fixed := rfl

@[simp] theorem length_setParticleC (r : Rebound) (i : ℕ) (loc : Loc) :
    (setParticleC r i loc).particles.length = r.particles.length := by
  simp [setParticleC]

theorem setSlot_none_none : ∀ p : List ℕ, setSlot (none : Option Cell) p none = none
  | [] => rfl
  | _ :: _ => rfl

theorem treeRootGetD_modifyCellAt_self (r : Rebound) (a : Loc) (f : Cell → Cell) :
    (modifyCellAt r a f).tree_root.getD a.1 none =
      modifyAt (r.tree_root.getD a.1 none) a.2 f := by
  show (r.tree_root.set a.1 _).getD a.1 none = _
  rcases lt_or_le a.1 r.tree_root.length with h | h
  · rw [listGetD_set_self _ _ _ _ h]
  · rw [List.set_eq_of_length_le h, List.getD_eq_default _ _ h, modifyAt_none]

theorem treeRootGetD_modifyCellAt_ne (r : Rebound) (a : Loc) (f : Cell → Cell)
    (i : ℕ) (h : i ≠ a.1) :
    (modifyCellAt r a f).tree_root.getD i none = r.tree_root.getD i none := by
  show (r.tree_root.set a.1 _).getD i none = _
  rw [listGetD_set_ne _ _ _ _ _ (fun hc => h hc.symm)]

theorem treeRootGetD_setCellAt_self (r : Rebound) (a : Loc) :
    (setCellAt r a none).tree_root.getD a.1 none =
      setSlot (r.tree_root.getD a.1 none) a.2 none := by
  show (r.tree_root.set a.1 _).getD a.1 none = _
  rcases lt_or_le a.1 r.tree_root.length with h | h
  · rw [listGetD_set_self _ _ _ _ h]
  · rw [List.set_eq_of_length_le h, List.getD_eq_default _ _ h, setSlot_none_none]

theorem treeRootGetD_setCellAt_ne (r : Rebound) (a : Loc) (v : Option Cell)
    (i : ℕ) (h : i ≠ a.1) :
    (setCellAt r a v).tree_root.getD i none = r.tree_root.getD i none := by
  show (r.tree_root.set a.1 _).getD i none = _
  rw [listGetD_set_ne _ _ _ _ _ (fun hc => h hc.symm)]

theorem getCellAt_modifyCellAt_self (r : Rebound) (a : Loc) (f : Cell → Cell) :
    getCellAt (modifyCellAt r a f) a = (getCellAt r a).map f := by
  unfold getCellAt
  rw [treeRootGetD_modifyCellAt_self, getPath_modifyAt_self]

theorem getCellAt_modifyCellAt_below (r : Rebound) (a : Loc) (f : Cell → Cell)
    (s : List ℕ) :
    getCellAt (modifyCellAt r a f) (a.1, a.2 ++ s) =
      getPath ((getCellAt r a).map f) s := by
  unfold getCellAt
  rw [treeRootGetD_modifyCellAt_self, getPath_modifyAt_below]

theorem getCellAt_modifyCellAt_anc (r : Rebound) (q : Loc) (f : Cell → Cell)
    (o : ℕ) (s : List ℕ) :
    getCellAt (modifyCellAt r (q.1, q.2 ++ o :: s) f) q =
      modifyAt (getCellAt r q) (o :: s) f := by
  unfold getCellAt
  rw [treeRootGetD_modifyCellAt_self, getPath_modifyAt_deep]

theorem getCellAt_modifyCellAt_ne_root (r : Rebound) (a : Loc) (f : Cell → Cell)
    (q : Loc) (h : q.1 ≠ a.1) :
    getCellAt (modifyCellAt r a f) q = getCellAt r q := by
  unfold getCellAt
  rw [treeRootGetD_modifyCellAt_ne _ _ _ _ h]

theorem getCellAt_modifyCellAt_divergent (r : Rebound) (i : ℕ) (u : List ℕ)
    (a b : ℕ) (p q : List ℕ) (f : Cell → Cell) (hab : a ≠ b) :
    getCellAt (modifyCellAt r (i, u ++ a :: p) f) (i, u ++ b :: q) =
      getCellAt r (i, u ++ b :: q) := by
  unfold getCellAt
  rw [treeRootGetD_modifyCellAt_self, getPath_modifyAt_divergent _ _ _ _ _ _ _ hab]

theorem getCellAt_setCellAt_under (r : Rebound) (a : Loc) (s : List ℕ) :
    getCellAt (setCellAt r a none) (a.1, a.2 ++ s) = none := by
  unfold getCellAt
  rw [treeRootGetD_setCellAt_self, getPath_setSlot_none]

theorem getCellAt_setCellAt_self (r : Rebound) (a : Loc) :
    getCellAt (setCellAt r a none) a = none := by
  simpa using getCellAt_setCellAt_under r a []

theorem getCellAt_setCellAt_anc (r : Rebound) (q : Loc) (o : ℕ) (s : List ℕ) :
    getCellAt (setCellAt r (q.1, q.2 ++ o :: s) none) q =
      setSlot (getCellAt r q) (o :: s) none := by
  unfold getCellAt
  rw [treeRootGetD_setCellAt_self, getPath_setSlot_deep]

theorem getCellAt_setCellAt_ne_root (r : Rebound) (a : Loc) (v : Option Cell)
    (q : Loc) (h : q.1 ≠ a.1) :
    getCellAt (setCellAt r a v) q = getCellAt r q := by
  unfold getCellAt
  rw [treeRootGetD_setCellAt_ne _ _ _ _ h]

theorem getCellAt_setCellAt_divergent (r : Rebound) (i : ℕ) (u : List ℕ)
    (a b : ℕ) (p q : List ℕ) (hab : a ≠ b) :
    getCellAt (setCellAt r (i, u ++ a :: p) none) (i, u ++ b :: q) =
      getCellAt r (i, u ++ b :: q) := by
  unfold getCellAt
  rw [treeRootGetD_setCellAt_self, getPath_setSlot_divergent _ _ _ _ _ _ _ hab]

/-! ### Counting and depth lemmas -/

theorem countLeaves_eq (c : Cell) :
    countLeaves c = if 0 ≤ c.pt then 1 else countLeavesList c.oct := by
  cases c
  rw [countLeaves]
  rfl

theorem depthCell_eq (c : Cell) : depthCell c = 1 + depthList c.oct := by
  cases c
  rw [depthCell]
  rfl

mutual
theorem countLeaves_nonneg : ∀ c : Cell, 0 ≤ countLeaves c
  | .mk _ _ _ _ pt _ _ _ _ oct => by
    rw [countLeaves]
    split
    · exact zero_le_one
    · exact countLeavesList_nonneg oct

theorem countLeavesList_nonneg : ∀ l : List (Option Cell), 0 ≤ countLeavesList l
  | [] => by rw [countLeavesList]
  | none :: t => by rw [countLeavesList]; exact countLeavesList_nonneg t
  | some c :: t => by
    rw [countLeavesList]
    exact add_nonneg (countLeaves_nonneg c) (countLeavesList_nonneg t)
end

theorem countLeavesO_nonneg (t : Option Cell) : 0 ≤ countLeavesO t := by
  cases t with
  | none => exact le_refl 0
  | some c => exact countLeaves_nonneg c

theorem countLeavesList_cons (x : Option Cell) (t : List (Option Cell)) :
    countLeavesList (x :: t) = countLeavesO x + countLeavesList t := by
  cases x with
  | none => rw [countLeavesList]; simp [countLeavesO]
  | some c => rw [countLeavesList]; rfl

theorem depthList_cons (x : Option Cell) (t : List (Option Cell)) :
    depthList (x :: t) = max (depthO x) (depthList t) := by
  cases x with
  | none => rw [depthList]; simp [depthO]
  | some c => rw [depthList]; rfl

theorem countLeavesList_set : ∀ (l : List (Option Cell)) (o : ℕ) (v : Option Cell),
    o < l.length →
    countLeavesList (l.set o v) =
      countLeavesList l - countLeavesO (l.getD o none) + countLeavesO v := by
  intro l
  induction l with
  | nil => intro o v h; simp at h
  | cons hd t ih =>
    intro o v h
    cases o with
    | zero =>
      show countLeavesList (v :: t) = _
      rw [countLeavesList_cons, countLeavesList_cons, List.getD_cons_zero]
      ring
    | succ o =>
      show countLeavesList (hd :: t.set o v) = _
      have hlt : o < t.length := by simpa using h
      rw [countLeavesList_cons, countLeavesList_cons, ih o v hlt, List.getD_cons_succ]
      ring

theorem depthList_set : ∀ (l : List (Option Cell)) (o : ℕ) (v : Option Cell),
    depthO v = depthO (l.getD o none) → depthList (l.set o v) = depthList l := by
  intro l
  induction l with
  | nil => intro o v _; rfl
  | cons hd t ih =>
    intro o v hv
    cases o with
    | zero =>
      show depthList (v :: t) = depthList (hd :: t)
      rw [depthList_cons, depthList_cons, hv, List.getD_cons_zero]
    | succ o =>
      show depthList (hd :: t.set o v) = depthList (hd :: t)
      rw [depthList_cons, depthList_cons, ih o v (by simpa using hv)]

theorem countLeavesO_modifyAt (f : Cell → Cell) (hoct : ∀ c, (f c).oct = c.oct) :
    ∀ (p : List ℕ) (t : Option Cell),
    (∀ c2, getPath t p = some c2 → (0 ≤ (f c2).pt ↔ 0 ≤ c2.pt)) →
    countLeavesO (modifyAt t p f) = countLeavesO t := by
  intro p
  induction p with
  | nil =>
    intro t hpt
    cases t with
    | none => simp
    | some c =>
      show countLeaves (f c) = countLeaves c
      rw [countLeaves_eq, countLeaves_eq, hoct c]
      have hptc := hpt c (by simp)
      by_cases hc : 0 ≤ c.pt
      · rw [if_pos (hptc.mpr hc), if_pos hc]
      · rw [if_neg (fun hcc => hc (hptc.mp hcc)), if_neg hc]
  | cons o p ih =>
    intro t hpt
    cases t with
    | none => simp
    | some c =>
      show countLeaves (c.setOct o (modifyAt (c.oct.getD o none) p f)) = countLeaves c
      rw [countLeaves_eq, countLeaves_eq]
      simp only [Cell.pt_setOct, Cell.oct_setOct]
      by_cases hc : 0 ≤ c.pt
      · rw [if_pos hc, if_pos hc]
      · rw [if_neg hc, if_neg hc]
        have ih2 := ih (c.oct.getD o none)
          (fun c2 h2 => hpt c2 (by rw [getPath_cons]; exact h2))
        rcases lt_or_le o c.oct.length with h | h
        · rw [countLeavesList_set _ _ _ h, ih2]
          ring
        · rw [List.set_eq_of_length_le h]

theorem depthO_modifyAt (f : Cell → Cell) (hoct : ∀ c, (f c).oct = c.oct) :
    ∀ (p : List ℕ) (t : Option Cell), depthO (modifyAt t p f) = depthO t := by
  intro p
  induction p with
  | nil =>
    intro t
    cases t with
    | none => simp
    | some c =>
      show depthCell (f c) = depthCell c
      rw [depthCell_eq, depthCell_eq, hoct c]
  | cons o p ih =>
    intro t
    cases t with
    | none => simp
    | some c =>
      show depthCell (c.setOct o (modifyAt (c.oct.getD o none) p f)) = depthCell c
      rw [depthCell_eq, depthCell_eq]
      simp only [Cell.oct_setOct]
      rw [depthList_set _ _ _ (ih _)]

/-! ### Characterisation of the occupancy recompute loop -/

theorem foldl_recomputeStep_fst : ∀ (os : List ℕ) (node : Cell) (init : Int × Option ℕ),
    (os.foldl (recomputeStep node) init).1 = os.foldl (contribStep node) init.1 := by
  intro os
  induction os with
  | nil => intro node init; rfl
  | cons o os ih =>
    intro node init
    rw [List.foldl_cons, List.foldl_cons, ih]
    congr 1
    unfold recomputeStep contribStep
    cases node.oct.getD o none with
    | none => rfl
    | some d =>
      by_cases h : 0 ≤ d.pt
      · simp [h]
      · simp [h]

theorem foldl_contribStep_eq_sub :
    ∀ (os : List ℕ) (node : Cell) (init : Int),
    (∀ o ∈ os, ∀ d, node.oct.getD o none = some d → d.pt < 0 →
      d.pt = -(countLeavesList d.oct)) →
    os.foldl (contribStep node) init =
      init - ((os.map (fun o => countLeavesO (node.oct.getD o none))).sum) := by
  intro os
  induction os with
  | nil => intro node init _; simp
  | cons o os ih =>
    intro node init hWC
    rw [List.foldl_cons, List.map_cons, List.sum_cons,
      ih node _ (fun o' ho' => hWC o' (List.mem_cons_of_mem _ ho'))]
    cases hslot : node.oct.getD o none with
    | none =>
      have hstep : contribStep node init o = init := by
        unfold contribStep; rw [hslot]
      rw [hstep]
      simp [countLeavesO]
    | some d =>
      have hstep : contribStep node init o = if 0 ≤ d.pt then init - 1 else init + d.pt := by
        unfold contribStep; rw [hslot]
      rw [hstep]
      by_cases h : 0 ≤ d.pt
      · rw [if_pos h]
        have hc : countLeavesO (some d) = 1 := by
          show countLeaves d = 1
          rw [countLeaves_eq, if_pos h]
        rw [hc]
        ring
      · rw [if_neg h]
        have hd := hWC o (List.mem_cons_self o os) d hslot (not_le.mp h)
        have hc : countLeavesO (some d) = -d.pt := by
          show countLeaves d = -d.pt
          rw [countLeaves_eq, if_neg h, hd]
          ring
        rw [hc]
        ring

theorem sum_range_cntSlot : ∀ l : List (Option Cell),
    ((List.range l.length).map (fun o => countLeavesO (l.getD o none))).sum =
      countLeavesList l := by
  intro l
  induction l with
  | nil => simp [countLeavesList]
  | cons x t ih =>
    rw [List.length_cons, List.range_succ_eq_map, List.map_cons, List.sum_cons,
      countLeavesList_cons, List.map_map]
    have h2 : ((List.range t.length).map
        ((fun o => countLeavesO ((x :: t).getD o none)) ∘ Nat.succ)).sum =
        countLeavesList t := by
      rw [← ih]
      apply congrArg List.sum
      apply List.map_congr_left
      intro o _
      simp [Function.comp, List.getD_cons_succ]
    rw [h2]
    rfl

theorem recompute_fst_eq (node : Cell) (h8 : node.oct.length = 8)
    (hWC : ∀ o, ∀ d, node.oct.getD o none = some d → d.pt < 0 →
      d.pt = -(countLeavesList d.oct)) :
    (tree_recompute node).1 = -(countLeavesList node.oct) := by
  unfold tree_recompute
  rw [foldl_recomputeStep_fst, foldl_contribStep_eq_sub _ _ _ (fun o _ => hWC o)]
  rw [← h8, sum_range_cntSlot]
  ring

theorem recompute_fst_eq_octContribution (node : Cell) :
    (tree_recompute node).1 = octContribution node := by
  unfold tree_recompute octContribution
  rw [foldl_recomputeStep_fst]

theorem foldl_recomputeStep_all_none : ∀ (os : List ℕ) (node : Cell)
    (init : Int × Option ℕ), (∀ o ∈ os, node.oct.getD o none = none) →
    os.foldl (recomputeStep node) init = init := by
  intro os
  induction os with
  | nil => intro node init _; rfl
  | cons o os ih =>
    intro node init hn
    rw [List.foldl_cons]
    have h0 : recomputeStep node init o = init := by
      unfold recomputeStep
      rw [hn o (List.mem_cons_self o os)]
    rw [h0, ih node init (fun o' ho' => hn o' (List.mem_cons_of_mem _ ho'))]

theorem intSum_zero_of_nonneg : ∀ l : List ℤ, (∀ x ∈ l, 0 ≤ x) → l.sum = 0 →
    ∀ x ∈ l, x = 0 := by
  intro l
  induction l with
  | nil => intro _ _ x hx; simp at hx
  | cons a t ih =>
    intro hpos hsum x hx
    have hta : 0 ≤ a := hpos a (List.mem_cons_self a t)
    have htsum : 0 ≤ t.sum := List.sum_nonneg (fun y hy => hpos y (List.mem_cons_of_mem _ hy))
    rw [List.sum_cons] at hsum
    rcases List.mem_cons.mp hx with rfl | hx2
    · omega
    · exact ih (fun y hy => hpos y (List.mem_cons_of_mem _ hy)) (by omega) x hx2

theorem foldl_recomputeStep_unique_leaf :
    ∀ (os : List ℕ) (node : Cell) (init : Int × Option ℕ),
    (∀ o ∈ os, ∀ d, node.oct.getD o none = some d → d.pt < 0 →
      d.pt = -(countLeavesList d.oct) ∧ d.pt ≤ -2) →
    ((os.map (fun o => countLeavesO (node.oct.getD o none))).sum = 1) →
    ∃ o ∈ os, (∃ child, node.oct.getD o none = some child ∧ 0 ≤ child.pt) ∧
      (os.foldl (recomputeStep node) init).2 = some o ∧
      ∀ o' ∈ os, o' ≠ o → node.oct.getD o' none = none := by
  intro os
  induction os with
  | nil => intro node init _ hsum; simp at hsum
  | cons o os ih =>
    intro node init hWC hsum
    rw [List.map_cons, List.sum_cons] at hsum
    cases hslot : node.oct.getD o none with
    | none =>
      rw [hslot] at hsum
      have hsum2 : (os.map (fun o => countLeavesO (node.oct.getD o none))).sum = 1 := by
        simpa [countLeavesO] using hsum
      have hstep : recomputeStep node init o = init := by
        unfold recomputeStep; rw [hslot]
      obtain ⟨o2, ho2, hchild, htest, hrest⟩ :=
        ih node init (fun o' ho' => hWC o' (List.mem_cons_of_mem _ ho')) hsum2
      refine ⟨o2, List.mem_cons_of_mem _ ho2, hchild, ?_, ?_⟩
      · rw [List.foldl_cons, hstep]; exact htest
      · intro o' ho' hne
        rcases List.mem_cons.mp ho' with rfl | ho'2
        · exact hslot
        · exact hrest o' ho'2 hne
    | some d =>
      rw [hslot] at hsum
      by_cases hleaf : 0 ≤ d.pt
      · have hcnt : countLeavesO (some d) = 1 := by
          show countLeaves d = 1
          rw [countLeaves_eq, if_pos hleaf]
        rw [hcnt] at hsum
        have hsum0 : (os.map (fun o => countLeavesO (node.oct.getD o none))).sum = 0 := by
          omega
        have hall0 : ∀ o' ∈ os, node.oct.getD o' none = none := by
          intro o' ho'
          have hx : countLeavesO (node.oct.getD o' none) = 0 := by
            have := intSum_zero_of_nonneg _
              (by
                intro x hx
                obtain ⟨o2, _, rfl⟩ := List.mem_map.mp hx
                exact countLeavesO_nonneg _) hsum0
            exact this _ (List.mem_map.mpr ⟨o', ho', rfl⟩)
          cases hslot2 : node.oct.getD o' none with
          | none => rfl
          | some d2 =>
            rw [hslot2] at hx
            by_cases hl2 : 0 ≤ d2.pt
            · exfalso
              have : countLeavesO (some d2) = 1 := by
                show countLeaves d2 = 1
                rw [countLeaves_eq, if_pos hl2]
              omega
            · exfalso
              have hd2 := hWC o' (List.mem_cons_of_mem _ ho') d2 hslot2 (not_le.mp hl2)
              have : countLeavesO (some d2) = -d2.pt := by
                show countLeaves d2 = -d2.pt
                rw [countLeaves_eq, if_neg hl2, hd2.1]
                ring
              omega
        refine ⟨o, List.mem_cons_self o os, ⟨d, hslot, hleaf⟩, ?_, ?_⟩
        · rw [List.foldl_cons]
          have hstep : recomputeStep node init o = (init.1 - 1, some o) := by
            unfold recomputeStep
            rw [hslot]
            simp [hleaf]
          rw [hstep, foldl_recomputeStep_all_none os node _ hall0]
        · intro o' ho' hne
          rcases List.mem_cons.mp ho' with rfl | ho'2
          · exact absurd rfl hne
          · exact hall0 o' ho'2
      · exfalso
        have hd := hWC o (List.mem_cons_self o os) d hslot (not_le.mp hleaf)
        have hge : 2 ≤ countLeavesO (some d) := by
          show 2 ≤ countLeaves d
          rw [countLeaves_eq, if_neg hleaf]
          omega
        have hrest : 0 ≤ (os.map (fun o => countLeavesO (node.oct.getD o none))).sum :=
          List.sum_nonneg (by
            intro x hx
            obtain ⟨o2, _, rfl⟩ := List.mem_map.mp hx
            exact countLeavesO_nonneg _)
        omega

theorem recompute_minus_one (node : Cell) (h8 : node.oct.length = 8)
    (hWC : ∀ o, ∀ d, node.oct.getD o none = some d → d.pt < 0 →
      d.pt = -(countLeavesList d.oct) ∧ d.pt ≤ -2)
    (hm1 : (tree_recompute node).1 = -1) :
    ∃ o child, (tree_recompute node).2 = some o ∧
      node.oct.getD o none = some child ∧ 0 ≤ child.pt ∧
      ∀ o', o' ≠ o → node.oct.getD o' none = none := by
  have hcnt : countLeavesList node.oct = 1 := by
    have := recompute_fst_eq node h8 (fun o d hd hlt => (hWC o d hd hlt).1)
    omega
  have hsum : ((List.range 8).map (fun o => countLeavesO (node.oct.getD o none))).sum = 1 := by
    rw [← h8, sum_range_cntSlot, hcnt]
  obtain ⟨o, ho, ⟨child, hchild, hleaf⟩, htest, hrest⟩ :=
    foldl_recomputeStep_unique_leaf (List.range 8) node (0, none) (fun o _ => hWC o) hsum
  refine ⟨o, child, htest, hchild, hleaf, ?_⟩
  intro o' hne
  by_cases hin : o' < 8
  · exact hrest o' (List.mem_range.mpr hin) hne
  · exact List.getD_eq_default _ _ (h8 ▸ Nat.le_of_not_lt hin)

/-! ### Boolean checkers imply the quantified invariants -/

theorem default_particle_m : (default : Particle).m = 0 := rfl

theorem massNonnegB_spec (r : Rebound) (h : massNonnegB r = true) :
    ∀ i : ℕ, 0 ≤ (r.particles.getD i default).m := by
  intro i
  rcases lt_or_le i r.particles.length with hi | hi
  · have hmem : r.particles.getD i default ∈ r.particles := by
      rw [List.getD_eq_getElem _ _ hi]
      exact List.getElem_mem _
    have := List.all_eq_true.mp h _ hmem
    simpa using this
  · rw [List.getD_eq_default _ _ hi, default_particle_m]

theorem structList_spec : ∀ (l : List (Option Cell)) (x y z w : ℚ),
    structList x y z w l = true → ∀ j child, l.getD j none = some child →
    (|child.x - x| + child.w / 2 ≤ w / 2 ∧ |child.y - y| + child.w / 2 ≤ w / 2 ∧
      |child.z - z| + child.w / 2 ≤ w / 2) ∧ structCell child = true := by
  intro l
  induction l with
  | nil => intro x y z w _ j child hj; simp at hj
  | cons hd t ih =>
    intro x y z w hL j child hj
    cases hd with
    | none =>
      rw [structList] at hL
      cases j with
      | zero => simp at hj
      | succ j => exact ih x y z w hL j child (by simpa using hj)
    | some c =>
      rw [structList] at hL
      rw [Bool.and_eq_true, Bool.and_eq_true, Bool.and_eq_true, Bool.and_eq_true] at hL
      obtain ⟨⟨⟨⟨hx, hy⟩, hz⟩, hc⟩, ht⟩ := hL
      cases j with
      | zero =>
        rw [List.getD_cons_zero] at hj
        cases hj
        exact ⟨⟨of_decide_eq_true hx, of_decide_eq_true hy, of_decide_eq_true hz⟩, hc⟩
      | succ j => exact ih x y z w ht j child (by simpa using hj)

theorem allNone_getD (l : List (Option Cell)) (h : l.all Option.isNone = true) :
    ∀ o, l.getD o none = none := by
  intro o
  rcases lt_or_le o l.length with ho | ho
  · have hmem : l.getD o none ∈ l := by
      rw [List.getD_eq_getElem _ _ ho]
      exact List.getElem_mem _
    have := List.all_eq_true.mp h _ hmem
    exact Option.isNone_iff_eq_none.mp this
  · exact List.getD_eq_default _ _ ho

theorem structCell_elim (c : Cell) (h : structCell c = true) :
    c.oct.length = 8 ∧
      (0 ≤ c.pt → ∀ o, c.oct.getD o none = none) ∧
      (∀ o child, c.oct.getD o none = some child →
        (|child.x - c.x| + child.w / 2 ≤ c.w / 2 ∧
          |child.y - c.y| + child.w / 2 ≤ c.w / 2 ∧
          |child.z - c.z| + child.w / 2 ≤ c.w / 2) ∧ structCell child = true) := by
  cases c with
  | mk x y z w pt m mx my mz oct =>
    rw [structCell] at h
    rw [Bool.and_eq_true, Bool.and_eq_true] at h
    obtain ⟨⟨hlen, hleaf⟩, hlist⟩ := h
    refine ⟨by simpa using hlen, ?_, ?_⟩
    · intro hpt o
      rw [Cell.pt_mk] at hpt
      rw [if_pos hpt] at hleaf
      exact allNone_getD _ hleaf _
    · intro o child hchild
      exact structList_spec oct x y z w hlist o child (by simpa using hchild)

theorem structCell_walk : ∀ (s : List ℕ) (c : Cell), structCell c = true →
    ∀ (c2 : Cell), getPath (some c) s = some c2 → structCell c2 = true := by
  intro s
  induction s with
  | nil => intro c hc c2 h2; rw [getPath_nil] at h2; cases h2; exact hc
  | cons o s ih =>
    intro c hc c2 h2
    rw [getPath_cons] at h2
    cases hslot : c.oct.getD o none with
    | none => rw [hslot, getPath_none] at h2; cases h2
    | some child =>
      rw [hslot] at h2
      exact ih child ((structCell_elim c hc).2.2 o child hslot).2 c2 h2

theorem structB_spec (r : Rebound) (h : structB r = true) : StructQ r := by
  intro q c hq
  have hroot : ∀ t ∈ r.tree_root, (match t with | none => true | some c => structCell c) = true :=
    List.all_eq_true.mp h
  have hcell : structCell c = true := by
    cases htop : r.tree_root.getD q.1 none with
    | none =>
      unfold getCellAt at hq
      rw [htop, getPath_none] at hq
      cases hq
    | some c0 =>
      have h0 : structCell c0 = true := by
        rcases lt_or_le q.1 r.tree_root.length with hl | hl
        · have hmem : r.tree_root.getD q.1 none ∈ r.tree_root := by
            rw [List.getD_eq_getElem _ _ hl]
            exact List.getElem_mem _
          rw [htop] at hmem
          exact hroot _ hmem
        · rw [List.getD_eq_default _ _ hl] at htop
          cases htop
      unfold getCellAt at hq
      rw [htop] at hq
      exact structCell_walk q.2 c0 h0 c hq
  have he := structCell_elim c hcell
  exact ⟨he.1, he.2.1, fun o child hc => (he.2.2 o child hc).1⟩

theorem inv1List_spec : ∀ (l : List (Option Cell)) (ps : List Particle) (ri : ℕ)
    (path : List ℕ) (o : ℕ), inv1List ps ri path o l = true →
    ∀ j child, l.getD j none = some child →
      inv1Cell ps ri (path ++ [o + j]) child = true := by
  intro l
  induction l with
  | nil => intro ps ri path o _ j child hj; simp at hj
  | cons hd t ih =>
    intro ps ri path o hL j child hj
    cases hd with
    | none =>
      rw [inv1List] at hL
      cases j with
      | zero => simp at hj
      | succ j =>
        have := ih ps ri path (o + 1) hL j child (by simpa using hj)
        simpa [Nat.add_assoc, Nat.add_comm 1 j] using this
    | some c =>
      rw [inv1List, Bool.and_eq_true] at hL
      cases j with
      | zero =>
        rw [List.getD_cons_zero] at hj
        cases hj
        simpa using hL.1
      | succ j =>
        have := ih ps ri path (o + 1) hL.2 j child (by simpa using hj)
        simpa [Nat.add_assoc, Nat.add_comm 1 j] using this

theorem inv1Cell_walk : ∀ (s : List ℕ) (c : Cell) (ps : List Particle) (ri : ℕ)
    (path : List ℕ), inv1Cell ps ri path c = true → structCell c = true →
    ∀ c2, getPath (some c) s = some c2 → 0 ≤ c2.pt →
      c2.pt.toNat < ps.length ∧
        (ps.getD c2.pt.toNat default).c = some (ri, path ++ s) := by
  intro s
  induction s with
  | nil =>
    intro c ps ri path h1 _ c2 h2 hpt
    rw [getPath_nil] at h2
    cases h2
    cases c with
    | mk x y z w pt m mx my mz oct =>
      rw [inv1Cell] at h1
      rw [Cell.pt_mk] at hpt
      rw [if_pos hpt, Bool.and_eq_true] at h1
      refine ⟨by simpa using of_decide_eq_true h1.1, ?_⟩
      have := of_decide_eq_true h1.2
      simpa using this
  | cons o s ih =>
    intro c ps ri path h1 hstruct c2 h2 hpt
    rw [getPath_cons] at h2
    cases hslot : c.oct.getD o none with
    | none => rw [hslot, getPath_none] at h2; cases h2
    | some child =>
      rw [hslot] at h2
      cases c with
      | mk x y z w pt m mx my mz oct =>
        by_cases hcpt : 0 ≤ pt
        · exfalso
          have := (structCell_elim _ hstruct).2.1 (by simpa using hcpt) o
          rw [Cell.oct_mk] at this
          rw [Cell.oct_mk] at hslot
          rw [this] at hslot
          cases hslot
        · rw [inv1Cell, if_neg hcpt] at h1
          rw [Cell.oct_mk] at hslot
          have hchild := inv1List_spec oct ps ri path 0 h1 o child hslot
          have hchildstruct := ((structCell_elim _ hstruct).2.2 o child (by simpa using hslot)).2
          have := ih child ps ri (path ++ [o]) (by simpa using hchild) hchildstruct c2 h2 hpt
          simpa using this

theorem inv1B_spec (r : Rebound) (h1 : inv1B r = true) (hs : structB r = true) :
    Inv1Q r := by
  intro q c hq hpt
  cases htop : r.tree_root.getD q.1 none with
  | none =>
    unfold getCellAt at hq
    rw [htop, getPath_none] at hq
    cases hq
  | some c0 =>
    unfold getCellAt at hq
    rw [htop] at hq
    have hq1lt : q.1 < r.tree_root.length := by
      by_contra hcon
      rw [List.getD_eq_default _ _ (Nat.le_of_not_lt hcon)] at htop
      cases htop
    have hc0 : inv1Cell r.particles q.1 [] c0 = true := by
      have := List.all_eq_true.mp h1 q.1 (List.mem_range.mpr hq1lt)
      rw [htop] at this
      exact this
    have hc0s : structCell c0 = true := by
      have hmem : r.tree_root.getD q.1 none ∈ r.tree_root := by
        rw [List.getD_eq_getElem _ _ hq1lt]
        exact List.getElem_mem _
      rw [htop] at hmem
      exact List.all_eq_true.mp hs _ hmem
    have := inv1Cell_walk q.2 c0 r.particles q.1 [] hc0 hc0s c hq hpt
    simpa using this

theorem inv2B_spec (r : Rebound) (h : inv2B r = true) : Inv2Q r := by
  intro i hi loc hloc
  have := List.all_eq_true.mp h i (List.mem_range.mpr hi)
  rw [hloc] at this
  cases hcell : getCellAt r loc with
  | none => exact Or.inl rfl
  | some cl =>
    simp only [hcell] at this
    refine Or.inr ⟨cl, rfl, ?_⟩
    simpa using this

theorem goodState_spec (r : Rebound) (h : goodState r = true) :
    r.tree_root.length = r.root_nx * r.root_ny * r.root_nz ∧ GInvQ r := by
  unfold goodState at h
  rw [Bool.and_eq_true, Bool.and_eq_true, Bool.and_eq_true] at h
  obtain ⟨⟨⟨hlen, h1⟩, h2⟩, hs⟩ := h
  exact ⟨by simpa using hlen,
    inv1B_spec r h1 hs, inv2B_spec r h2, structB_spec r hs⟩

/-! ### Generic invariant transport -/

theorem getCellAt_child (r : Rebound) (q : Loc) (c : Cell) (o : ℕ)
    (h : getCellAt r q = some c) :
    getCellAt r (q.1, q.2 ++ [o]) = c.oct.getD o none := by
  unfold getCellAt at h ⊢
  rw [getPath_append, h, getPath_cons, getPath_nil]

theorem Inv1Q_transport (r r' : Rebound) (hp : r'.particles = r.particles)
    (hpt : PtPreserved r r') (h : Inv1Q r) : Inv1Q r' := by
  intro q c' hq hpt'
  obtain ⟨c, hc, hce | hbb⟩ := hpt q c' hq
  · have := h q c hc (hce ▸ hpt')
    rw [hp, ← hce]
    exact this
  · exact absurd hpt' (not_le.mpr hbb.2)

theorem Inv2Q_transport (r r' : Rebound) (hp : r'.particles = r.particles)
    (hpt : PtPreserved r r') (h : Inv2Q r) : Inv2Q r' := by
  intro i hi loc hloc
  rw [hp] at hi hloc
  cases hq : getCellAt r' loc with
  | none => exact Or.inl rfl
  | some c' =>
    obtain ⟨c, hc, hce⟩ := hpt loc c' hq
    rcases h i hi loc hloc with hnone | ⟨cl, hcl, hcle⟩
    · rw [hnone] at hc; cases hc
    · rw [hcl] at hc
      cases hc
      rcases hce with hce | hbb
      · exact Or.inr ⟨c', rfl, hce ▸ hcle⟩
      · exfalso
        rw [hcle] at hbb
        exact absurd hbb.1 (not_lt.mpr (Int.ofNat_nonneg i))

theorem StructQ_transport (r r' : Rebound) (hg : GeomSignPreserved r r')
    (h : StructQ r) : StructQ r' := by
  intro q c' hq
  obtain ⟨c, hc, hx, hy, hz, hw, hlen, hmono, hsign⟩ := hg q c' hq
  have hold := h q c hc
  refine ⟨hlen.trans hold.1, ?_, ?_⟩
  · intro hpt' o
    rcases hsign with hsign | hleafy
    · have hpt : 0 ≤ c.pt := hsign.mp hpt'
      exact hmono o (hold.2.1 hpt o)
    · exact hleafy.2 o
  · intro o child' hslot'
    have hq' : getCellAt r' (q.1, q.2 ++ [o]) = some child' := by
      rw [getCellAt_child r' q c' o hq, hslot']
    obtain ⟨child, hchild, hcx, hcy, hcz, hcw, _, _, _⟩ := hg _ child' hq'
    have hchild2 : c.oct.getD o none = some child := by
      rw [← getCellAt_child r q c o hc]
      exact hchild
    have := hold.2.2 o child hchild2
    rw [hcx, hcy, hcz, hcw, hx, hy, hz, hw]
    exact this

theorem PtPreserved_trans (r1 r2 r3 : Rebound) (h1 : PtPreserved r1 r2)
    (h2 : PtPreserved r2 r3) : PtPreserved r1 r3 := by
  intro q c' hq
  obtain ⟨c2, hc2, he2⟩ := h2 q c' hq
  obtain ⟨c1, hc1, he1⟩ := h1 q c2 hc2
  refine ⟨c1, hc1, ?_⟩
  rcases he1 with he1 | he1 <;> rcases he2 with he2 | he2 <;> omega

theorem GeomSignPreserved_trans (r1 r2 r3 : Rebound) (h1 : GeomSignPreserved r1 r2)
    (h2 : GeomSignPreserved r2 r3) : GeomSignPreserved r1 r3 := by
  intro q c' hq
  obtain ⟨c2, hc2, a1, a2, a3, a4, a5, amono, asign⟩ := h2 q c' hq
  obtain ⟨c1, hc1, b1, b2, b3, b4, b5, bmono, bsign⟩ := h1 q c2 hc2
  refine ⟨c1, hc1, a1.trans b1, a2.trans b2, a3.trans b3, a4.trans b4,
    a5.trans b5, fun o ho => amono o (bmono o ho), ?_⟩
  rcases asign with asign | aleafy
  · rcases bsign with bsign | bleafy
    · exact Or.inl (asign.trans bsign)
    · exact Or.inr ⟨asign.mpr bleafy.1, fun o => amono o (bleafy.2 o)⟩
  · exact Or.inr aleafy

theorem GeomSignPreserved_of_ptPreserved_geom (r r' : Rebound)
    (hpt : PtPreserved r r')
    (hdead : ∀ q, getCellAt r q = none → getCellAt r' q = none)
    (hg : ∀ q c' c, getCellAt r' q = some c' → getCellAt r q = some c →
      c'.x = c.x ∧ c'.y = c.y ∧ c'.z = c.z ∧ c'.w = c.w ∧
        c'.oct.length = c.oct.length) : GeomSignPreserved r r' := by
  intro q c' hq
  obtain ⟨c, hc, hce⟩ := hpt q c' hq
  obtain ⟨a1, a2, a3, a4, a5⟩ := hg q c' c hq hc
  refine ⟨c, hc, a1, a2, a3, a4, a5, ?_, ?_⟩
  · intro o ho
    have h1 : getCellAt r (q.1, q.2 ++ [o]) = none := by
      rw [getCellAt_child r q c o hc]; exact ho
    have h2 : getCellAt r' (q.1, q.2 ++ [o]) = none := hdead _ h1
    rw [getCellAt_child r' q c' o hq] at h2
    exact h2
  · rcases hce with hce | hbb
    · exact Or.inl (by rw [hce])
    · refine Or.inl ⟨?_, ?_⟩
      · intro h2; exact absurd h2 (not_le.mpr hbb.2)
      · intro h2; exact absurd h2 (not_le.mpr hbb.1)

/-! ### Identity and pointwise effect lemmas for the state operations -/

theorem Cell.setPt_self (c : Cell) : c.setPt c.pt = c := by
  cases c; rfl

theorem particle_setC_self (p : Particle) (loc : Loc) (h : p.c = some loc) :
    { p with c := some loc } = p := by
  cases p
  simp_all

theorem setParticleC_self (r : Rebound) (i : ℕ) (loc : Loc)
    (h : (r.particles.getD i default).c = some loc) : setParticleC r i loc = r := by
  unfold setParticleC
  rw [particle_setC_self _ _ h, listSet_getD_self]

theorem modifyAt_congr_id : ∀ (p : List ℕ) (t : Option Cell) (f : Cell → Cell),
    (∀ c, getPath t p = some c → f c = c) → modifyAt t p f = t := by
  intro p
  induction p with
  | nil =>
    intro t f hf
    cases t with
    | none => simp
    | some c =>
      rw [modifyAt_nil]
      show some (f c) = some c
      rw [hf c (by simp)]
  | cons o p ih =>
    intro t f hf
    cases t with
    | none => simp
    | some c =>
      show some (c.setOct o (modifyAt (c.oct.getD o none) p f)) = some c
      rw [ih (c.oct.getD o none) f (fun c2 h2 => hf c2 (by rw [getPath_cons]; exact h2))]
      cases c with
      | mk x y z w pt m mx my mz oct =>
        show some (Cell.mk x y z w pt m mx my mz (oct.set o (oct.getD o none))) =
          some (Cell.mk x y z w pt m mx my mz oct)
        rw [listSet_getD_self]

theorem modifyCellAt_congr_id (r : Rebound) (a : Loc) (f : Cell → Cell)
    (hf : ∀ c, getCellAt r a = some c → f c = c) : modifyCellAt r a f = r := by
  unfold modifyCellAt
  rw [modifyAt_congr_id a.2 _ f hf, listSet_getD_self]

theorem getCellAt_none_extend (r : Rebound) (a : Loc) (s : List ℕ)
    (h : getCellAt r a = none) : getCellAt r (a.1, a.2 ++ s) = none := by
  unfold getCellAt at h ⊢
  rw [getPath_append, h, getPath_none]

theorem getCellAt_modifyCellAt_under (r : Rebound) (a : Loc) (f : Cell → Cell)
    (hoct : ∀ c, (f c).oct = c.oct) (o : ℕ) (s : List ℕ) :
    getCellAt (modifyCellAt r a f) (a.1, a.2 ++ o :: s) =
      getCellAt r (a.1, a.2 ++ o :: s) := by
  have hrhs : getCellAt r (a.1, a.2 ++ o :: s) =
      getPath (getCellAt r a) (o :: s) := by
    unfold getCellAt
    rw [getPath_append]
  rw [getCellAt_modifyCellAt_below, hrhs]
  cases hc : getCellAt r a with
  | none => simp
  | some c =>
    show getPath (some (f c)) (o :: s) = getPath (some c) (o :: s)
    rw [getPath_cons, getPath_cons, hoct c]

@[simp] theorem Cell.hd_x (c : Cell) : c.hd.x = c.x := rfl

@[simp] theorem Cell.hd_y (c : Cell) : c.hd.y = c.y := rfl

@[simp] theorem Cell.hd_z (c : Cell) : c.hd.z = c.z := rfl

@[simp] theorem Cell.hd_w (c : Cell) : c.hd.w = c.w := rfl

@[simp] theorem Cell.hd_pt (c : Cell) : c.hd.pt = c.pt := rfl

@[simp] theorem Cell.hd_len (c : Cell) : c.hd.len = c.oct.length := rfl

theorem hdAt_eq_extract (r r' : Rebound) (q : Loc) (c' : Cell)
    (h : hdAt r' q = hdAt r q) (hc' : getCellAt r' q = some c') :
    ∃ c, getCellAt r q = some c ∧ c.hd = c'.hd := by
  unfold hdAt hdO at h
  rw [hc'] at h
  cases hc : getCellAt r q with
  | none => rw [hc] at h; cases h
  | some c =>
    rw [hc] at h
    refine ⟨c, rfl, ?_⟩
    have := Option.some.inj h
    exact this.symm

theorem hd_fields (c c2 : Cell) (h : c.hd = c2.hd) :
    c.x = c2.x ∧ c.y = c2.y ∧ c.z = c2.z ∧ c.w = c2.w ∧ c.pt = c2.pt ∧
      c.oct.length = c2.oct.length := by
  refine ⟨?_, ?_, ?_, ?_, ?_, ?_⟩ <;>
    first
      | exact congrArg Hd.x h
      | exact congrArg Hd.y h
      | exact congrArg Hd.z h
      | exact congrArg Hd.w h
      | exact congrArg Hd.pt h
      | exact congrArg Hd.len h

theorem hdAt_congr_cell (r r' : Rebound) (q q' : Loc)
    (h : getCellAt r' q' = getCellAt r q) : hdAt r' q' = hdAt r q := by
  unfold hdAt
  rw [h]

theorem hdAt_modifyCellAt_ne (r : Rebound) (a : Loc) (f : Cell → Cell)
    (hoct : ∀ c, (f c).oct = c.oct) (q : Loc) (hq : q ≠ a) :
    hdAt (modifyCellAt r a f) q = hdAt r q := by
  obtain ⟨a1, a2⟩ := a
  obtain ⟨q1, q2⟩ := q
  by_cases hroot : q1 = a1
  · subst hroot
    rcases listRel a2 q2 with ⟨s, hs⟩ | ⟨o, s, hs⟩ | ⟨u, x, y, p', q', hxy, hp', hq'⟩
    · cases s with
      | nil => exact absurd (show q2 = a2 by simpa using hs) (fun h : q2 = a2 => hq (by rw [h]))
      | cons o s =>
        subst hs
        exact hdAt_congr_cell _ _ _ _ (getCellAt_modifyCellAt_under r (q1, a2) f hoct o s)
    · subst hs
      rw [show ((q1, q2 ++ o :: s) : Loc) = ((q1, q2).1, (q1, q2).2 ++ o :: s) from rfl]
      unfold hdAt
      rw [getCellAt_modifyCellAt_anc r (q1, q2) f o s, hdO_modifyAt_cons]
    · subst hp'
      subst hq'
      exact hdAt_congr_cell _ _ _ _
        (getCellAt_modifyCellAt_divergent r q1 u x y p' q' f hxy)
  · exact hdAt_congr_cell _ _ _ _
      (getCellAt_modifyCellAt_ne_root r (a1, a2) f (q1, q2) hroot)

theorem getCellAt_modifyCellAt_other (r : Rebound) (a : Loc) (f : Cell → Cell)
    (q : Loc) (hu : ¬ locUnder a q) (ha : ¬ locAnc q a) :
    getCellAt (modifyCellAt r a f) q = getCellAt r q := by
  obtain ⟨a1, a2⟩ := a
  obtain ⟨q1, q2⟩ := q
  by_cases hroot : q1 = a1
  · subst hroot
    rcases listRel a2 q2 with ⟨s, hs⟩ | ⟨o, s, hs⟩ | ⟨u, x, y, p', q', hxy, hp', hq'⟩
    · exact absurd ⟨rfl, s, hs⟩ hu
    · exact absurd ⟨rfl, o, s, hs⟩ ha
    · subst hp'
      subst hq'
      exact getCellAt_modifyCellAt_divergent r q1 u x y p' q' f hxy
  · exact getCellAt_modifyCellAt_ne_root r (a1, a2) f (q1, q2) hroot

theorem hdAt_setCellAt_anc (r : Rebound) (a q : Loc) (ha : locAnc q a) :
    hdAt (setCellAt r a none) q = hdAt r q := by
  obtain ⟨q1, q2⟩ := q
  obtain ⟨a1, a2⟩ := a
  obtain ⟨hroot, o, s, hs⟩ := ha
  simp only at hroot hs
  subst hroot
  subst hs
  rw [show ((q1, q2 ++ o :: s) : Loc) = ((q1, q2).1, (q1, q2).2 ++ o :: s) from rfl]
  unfold hdAt
  rw [getCellAt_setCellAt_anc r (q1, q2) o s, hdO_setSlot_cons]

theorem getCellAt_setCellAt_other (r : Rebound) (a : Loc) (q : Loc)
    (hu : ¬ locUnder a q) (ha : ¬ locAnc q a) :
    getCellAt (setCellAt r a none) q = getCellAt r q := by
  obtain ⟨a1, a2⟩ := a
  obtain ⟨q1, q2⟩ := q
  by_cases hroot : q1 = a1
  · subst hroot
    rcases listRel a2 q2 with ⟨s, hs⟩ | ⟨o, s, hs⟩ | ⟨u, x, y, p', q', hxy, hp', hq'⟩
    · exact absurd ⟨rfl, s, hs⟩ hu
    · exact absurd ⟨rfl, o, s, hs⟩ ha
    · subst hp'
      subst hq'
      exact getCellAt_setCellAt_divergent r q1 u x y p' q' hxy
  · exact getCellAt_setCellAt_ne_root r (a1, a2) none (q1, q2) hroot

theorem dead_modifyCellAt (r : Rebound) (a : Loc) (f : Cell → Cell)
    (hoct : ∀ c, (f c).oct = c.oct) (q : Loc) (h : getCellAt r q = none) :
    getCellAt (modifyCellAt r a f) q = none := by
  obtain ⟨a1, a2⟩ := a
  obtain ⟨q1, q2⟩ := q
  by_cases hroot : q1 = a1
  · subst hroot
    rcases listRel a2 q2 with ⟨s, hs⟩ | ⟨o, s, hs⟩ | ⟨u, x, y, p', q', hxy, hp', hq'⟩
    · cases s with
      | nil =>
        have hq2 : q2 = a2 := by simpa using hs
        subst hq2
        rw [getCellAt_modifyCellAt_self, h]
        rfl
      | cons o s =>
        subst hs
        rw [getCellAt_modifyCellAt_under r (q1, a2) f hoct o s]
        exact h
    · subst hs
      rw [show ((q1, q2 ++ o :: s) : Loc) = ((q1, q2).1, (q1, q2).2 ++ o :: s) from rfl]
      rw [getCellAt_modifyCellAt_anc r (q1, q2) f o s, h, modifyAt_none]
    · subst hp'
      subst hq'
      rw [getCellAt_modifyCellAt_divergent r q1 u x y p' q' f hxy]
      exact h
  · rw [getCellAt_modifyCellAt_ne_root r (a1, a2) f (q1, q2) hroot]
    exact h

theorem dead_setCellAt (r : Rebound) (a : Loc) (q : Loc)
    (h : getCellAt r q = none) : getCellAt (setCellAt r a none) q = none := by
  obtain ⟨a1, a2⟩ := a
  obtain ⟨q1, q2⟩ := q
  by_cases hroot : q1 = a1
  · subst hroot
    rcases listRel a2 q2 with ⟨s, hs⟩ | ⟨o, s, hs⟩ | ⟨u, x, y, p', q', hxy, hp', hq'⟩
    · subst hs
      exact getCellAt_setCellAt_under r (q1, a2) s
    · subst hs
      rw [show ((q1, q2 ++ o :: s) : Loc) = ((q1, q2).1, (q1, q2).2 ++ o :: s) from rfl]
      rw [getCellAt_setCellAt_anc r (q1, q2) o s, h]
      rfl
    · subst hp'
      subst hq'
      rw [getCellAt_setCellAt_divergent r q1 u x y p' q' hxy]
      exact h
  · rw [getCellAt_setCellAt_ne_root r (a1, a2) none (q1, q2) hroot]
    exact h

/-! ### Operation packages: prune and branch-tag write -/

theorem locAnc_ne (q a : Loc) (h : locAnc q a) : q ≠ a := by
  obtain ⟨h1, o, s, hs⟩ := h
  intro he
  subst he
  have : q.2.length = (q.2 ++ o :: s).length := by rw [← hs]
  simp at this

theorem locUnder_self (a : Loc) : locUnder a a := ⟨rfl, [], by simp⟩

theorem loc_cases (a q : Loc) :
    locUnder a q ∨ locAnc q a ∨ (¬ locUnder a q ∧ ¬ locAnc q a) := by
  by_cases h1 : locUnder a q
  · exact Or.inl h1
  by_cases h2 : locAnc q a
  · exact Or.inr (Or.inl h2)
  · exact Or.inr (Or.inr ⟨h1, h2⟩)

theorem UnrelPres_of_eq (r r' : Rebound) (q : Loc)
    (h : getCellAt r' q = getCellAt r q)
    (hp : ∀ j, r'.particles.getD j default = r.particles.getD j default) :
    UnrelPres r r' q := by
  intro c hc
  refine ⟨c, by rw [h, hc], rfl, rfl, rfl, rfl, rfl, rfl, rfl, fun _ => rfl, ?_⟩
  intro hpt
  exact ⟨c.pt.toNat, (Int.toNat_of_nonneg hpt).symm, hp _⟩

theorem UnrelPres_trans (r1 r2 r3 : Rebound) (q : Loc) (h1 : UnrelPres r1 r2 q)
    (h2 : UnrelPres r2 r3 q) : UnrelPres r1 r3 q := by
  intro c hc
  obtain ⟨c2, hc2, a1, a2, a3, a4, a5, a6, a7, a8, a9⟩ := h1 c hc
  obtain ⟨c3, hc3, b1, b2, b3, b4, b5, b6, b7, b8, b9⟩ := h2 c2 hc2
  refine ⟨c3, hc3, b1.trans a1, b2.trans a2, b3.trans a3, b4.trans a4,
    b5.trans a5, b6.trans a6, b7.trans a7, ?_, ?_⟩
  · intro hlt
    rw [b8 (a8 hlt ▸ hlt), a8 hlt]
  · intro hge
    obtain ⟨j2, hj2, hj2e⟩ := a9 hge
    have hge2 : 0 ≤ c2.pt := by rw [hj2]; exact Int.ofNat_nonneg j2
    obtain ⟨j3, hj3, hj3e⟩ := b9 hge2
    refine ⟨j3, hj3, ?_⟩
    rw [hj3e]
    have : c2.pt.toNat = j2 := by rw [hj2]; rfl
    rw [this, hj2e]

theorem prune_hd (r : Rebound) (a : Loc) (q : Loc) (c' : Cell)
    (hc' : getCellAt (setCellAt r a none) q = some c') :
    ∃ c, getCellAt r q = some c ∧ c'.hd = c.hd := by
  rcases loc_cases a q with hu | ha | ⟨hu, ha⟩
  · exfalso
    obtain ⟨h1, s, hs⟩ := hu
    have : q = (a.1, a.2 ++ s) := by
      obtain ⟨q1, q2⟩ := q
      simp only at h1 hs
      rw [h1, hs]
    rw [this, getCellAt_setCellAt_under] at hc'
    cases hc'
  · obtain ⟨c, hc, he⟩ := hdAt_eq_extract r (setCellAt r a none) q c'
      (hdAt_setCellAt_anc r a q ha) hc'
    exact ⟨c, hc, he.symm⟩
  · rw [getCellAt_setCellAt_other r a q hu ha] at hc'
    exact ⟨c', hc', rfl⟩

theorem prune_ptPreserved (r : Rebound) (a : Loc) :
    PtPreserved r (setCellAt r a none) := by
  intro q c' hc'
  obtain ⟨c, hc, he⟩ := prune_hd r a q c' hc'
  exact ⟨c, hc, Or.inl ((hd_fields _ _ he).2.2.2.2.1).symm⟩

theorem prune_geomSign (r : Rebound) (a : Loc) :
    GeomSignPreserved r (setCellAt r a none) := by
  apply GeomSignPreserved_of_ptPreserved_geom r _ (prune_ptPreserved r a)
    (dead_setCellAt r a)
  intro q c' c hc' hc
  obtain ⟨c2, hc2, he⟩ := prune_hd r a q c' hc'
  rw [hc] at hc2
  cases hc2
  obtain ⟨e1, e2, e3, e4, _, e6⟩ := hd_fields _ _ he
  exact ⟨e1, e2, e3, e4, e6⟩

theorem prune_GInv (r : Rebound) (a : Loc) (h : GInvQ r) :
    GInvQ (setCellAt r a none) := by
  obtain ⟨h1, h2, h3⟩ := h
  exact ⟨Inv1Q_transport r _ rfl (prune_ptPreserved r a) h1,
    Inv2Q_transport r _ rfl (prune_ptPreserved r a) h2,
    StructQ_transport r _ (prune_geomSign r a) h3⟩

theorem write_hd (r : Rebound) (a : Loc) (v : Int) (q : Loc) (c' : Cell)
    (hc' : getCellAt (modifyCellAt r a (fun n => n.setPt v)) q = some c') :
    (q = a ∧ ∃ c, getCellAt r a = some c ∧ c' = c.setPt v) ∨
      (q ≠ a ∧ ∃ c, getCellAt r q = some c ∧ c'.hd = c.hd) := by
  by_cases hqa : q = a
  · subst hqa
    rw [getCellAt_modifyCellAt_self] at hc'
    cases hc : getCellAt r q with
    | none => rw [hc] at hc'; cases hc'
    | some c =>
      rw [hc] at hc'
      refine Or.inl ⟨rfl, c, rfl, ?_⟩
      have : Option.map (fun n => n.setPt v) (some c) = some (c.setPt v) := rfl
      rw [this] at hc'
      exact (Option.some.inj hc').symm
  · right
    refine ⟨hqa, ?_⟩
    obtain ⟨c, hc, he⟩ := hdAt_eq_extract r _ q c'
      (hdAt_modifyCellAt_ne r a _ (fun c => Cell.oct_setPt c v) q hqa) hc'
    exact ⟨c, hc, he.symm⟩

theorem write_ptPreserved (r : Rebound) (a : Loc) (v : Int) (hv : v < 0)
    (hbr : ∀ c, getCellAt r a = some c → c.pt < 0) :
    PtPreserved r (modifyCellAt r a (fun n => n.setPt v)) := by
  intro q c' hc'
  rcases write_hd r a v q c' hc' with ⟨hqa, c, hc, he⟩ | ⟨_, c, hc, he⟩
  · subst hqa
    refine ⟨c, hc, Or.inr ⟨hbr c hc, ?_⟩⟩
    rw [he, Cell.pt_setPt]
    exact hv
  · exact ⟨c, hc, Or.inl ((hd_fields _ _ he).2.2.2.2.1).symm⟩

theorem write_geomSign (r : Rebound) (a : Loc) (v : Int) (hv : v < 0)
    (hbr : ∀ c, getCellAt r a = some c → c.pt < 0) :
    GeomSignPreserved r (modifyCellAt r a (fun n => n.setPt v)) := by
  apply GeomSignPreserved_of_ptPreserved_geom r _ (write_ptPreserved r a v hv hbr)
    (dead_modifyCellAt r a _ (fun c => Cell.oct_setPt c v))
  intro q c' c hc' hc
  rcases write_hd r a v q c' hc' with ⟨hqa, c2, hc2, he⟩ | ⟨_, c2, hc2, he⟩
  · subst hqa
    rw [hc] at hc2
    cases hc2
    rw [he]
    simp
  · rw [hc] at hc2
    cases hc2
    obtain ⟨e1, e2, e3, e4, _, e6⟩ := hd_fields _ _ he
    exact ⟨e1, e2, e3, e4, e6⟩

theorem write_GInv (r : Rebound) (a : Loc) (v : Int) (hv : v < 0)
    (hbr : ∀ c, getCellAt r a = some c → c.pt < 0) (h : GInvQ r) :
    GInvQ (modifyCellAt r a (fun n => n.setPt v)) := by
  obtain ⟨h1, h2, h3⟩ := h
  exact ⟨Inv1Q_transport r _ rfl (write_ptPreserved r a v hv hbr) h1,
    Inv2Q_transport r _ rfl (write_ptPreserved r a v hv hbr) h2,
    StructQ_transport r _ (write_geomSign r a v hv hbr) h3⟩

/-! ### Support lemmas for collapse and eviction -/

theorem pInside_iff (p : Particle) (c : Cell) :
    pInside p c = true ↔
      (|p.x - c.x| ≤ c.w / 2 ∧ |p.y - c.y| ≤ c.w / 2 ∧ |p.z - c.z| ≤ c.w / 2) := by
  unfold pInside
  by_cases h : |p.x - c.x| > c.w / 2 ∨ |p.y - c.y| > c.w / 2 ∨ |p.z - c.z| > c.w / 2
  · rw [if_pos h]
    constructor
    · intro hf
      exact absurd hf Bool.false_ne_true
    · intro hc
      exfalso
      rcases h with h | h | h
      · exact absurd hc.1 (not_le.mpr h)
      · exact absurd hc.2.1 (not_le.mpr h)
      · exact absurd hc.2.2 (not_le.mpr h)
  · rw [if_neg h]
    push_neg at h
    constructor
    · intro _
      exact h
    · intro _
      rfl

theorem pInside_congr (p : Particle) (c c2 : Cell) (hx : c.x = c2.x)
    (hy : c.y = c2.y) (hz : c.z = c2.z) (hw : c.w = c2.w) :
    pInside p c = pInside p c2 := by
  unfold pInside
  rw [hx, hy, hz, hw]

theorem pInside_setC (p : Particle) (l : Option Loc) (c : Cell) :
    pInside { p with c := l } c = pInside p c := rfl

theorem pInside_nested (p : Particle) (child node : Cell)
    (h : pInside p child = true)
    (hx : |child.x - node.x| + child.w / 2 ≤ node.w / 2)
    (hy : |child.y - node.y| + child.w / 2 ≤ node.w / 2)
    (hz : |child.z - node.z| + child.w / 2 ≤ node.w / 2) :
    pInside p node = true := by
  rw [pInside_iff] at h ⊢
  obtain ⟨h1, h2, h3⟩ := h
  refine ⟨?_, ?_, ?_⟩
  · have ha : |p.x - node.x| ≤ |p.x - child.x| + |child.x - node.x| := by
      calc |p.x - node.x| = |(p.x - child.x) + (child.x - node.x)| := by ring_nf
        _ ≤ |p.x - child.x| + |child.x - node.x| := abs_add _ _
    linarith
  · have ha : |p.y - node.y| ≤ |p.y - child.y| + |child.y - node.y| := by
      calc |p.y - node.y| = |(p.y - child.y) + (child.y - node.y)| := by ring_nf
        _ ≤ |p.y - child.y| + |child.y - node.y| := abs_add _ _
    linarith
  · have ha : |p.z - node.z| ≤ |p.z - child.z| + |child.z - node.z| := by
      calc |p.z - node.z| = |(p.z - child.z) + (child.z - node.z)| := by ring_nf
        _ ≤ |p.z - child.z| + |child.z - node.z| := abs_add _ _
    linarith

theorem leaf_below_dead (r : Rebound) (hs : StructQ r) (cl : Loc) (c : Cell)
    (hc : getCellAt r cl = some c) (hleaf : 0 ≤ c.pt) :
    ∀ o s, getCellAt r (cl.1, cl.2 ++ o :: s) = none := by
  intro o s
  have h1 : getCellAt r (cl.1, cl.2 ++ [o]) = none := by
    rw [getCellAt_child r cl c o hc]
    exact (hs cl c hc).2.1 hleaf o
  have : (cl.1, cl.2 ++ o :: s) = ((cl.1, cl.2 ++ [o]).1, (cl.1, cl.2 ++ [o]).2 ++ s) := by
    simp
  rw [this]
  exact getCellAt_none_extend r (cl.1, cl.2 ++ [o]) s h1

theorem locUnder_child_mono (a q : Loc) (t : ℕ)
    (h : locUnder (a.1, a.2 ++ [t]) q) : locUnder a q := by
  obtain ⟨h1, s, hs⟩ := h
  exact ⟨h1, t :: s, by simpa using hs⟩

theorem locAnc_child_cases (a q : Loc) (t : ℕ)
    (h : locAnc q (a.1, a.2 ++ [t])) : locAnc q a ∨ q = a := by
  obtain ⟨h1, o, s, hs⟩ := h
  simp only at h1 hs
  have hlen : a.2.length + 1 = q.2.length + (s.length + 1) := by
    have := congrArg List.length hs
    simpa using this
  have hle : q.2.length ≤ a.2.length := by omega
  have htake : a.2.take q.2.length = q.2 := by
    have h2 : (q.2 ++ o :: s).take q.2.length = q.2 := List.take_left _ _
    have h4 : (a.2 ++ [t]).take q.2.length = a.2.take q.2.length :=
      List.take_append_of_le_length hle
    rw [← h4, hs, h2]
  rcases Nat.lt_or_ge q.2.length a.2.length with hlt | hge
  · left
    refine ⟨h1, ?_⟩
    have hdrop := (List.take_append_drop q.2.length a.2).symm
    rw [htake] at hdrop
    cases hd : a.2.drop q.2.length with
    | nil =>
      exfalso
      have := congrArg List.length hd
      simp at this
      omega
    | cons o2 s2 => exact ⟨o2, s2, by rw [hdrop, hd]⟩
  · right
    have heq : q.2.length = a.2.length := le_antisymm hle hge
    have hq2 : q.2 = a.2 := by rw [← htake, heq, List.take_length]
    obtain ⟨q1, q2⟩ := q
    obtain ⟨a1, a2⟩ := a
    simp only at h1 hq2
    rw [h1, hq2]

theorem depthList_set_none_le : ∀ (l : List (Option Cell)) (o : ℕ),
    depthList (l.set o none) ≤ depthList l := by
  intro l
  induction l with
  | nil => intro o; exact le_refl _
  | cons hd t ih =>
    intro o
    cases o with
    | zero =>
      show depthList (none :: t) ≤ depthList (hd :: t)
      rw [depthList_cons, depthList_cons]
      simp [depthO]
    | succ o =>
      show depthList (hd :: t.set o none) ≤ depthList (hd :: t)
      rw [depthList_cons, depthList_cons]
      exact max_le_max (le_refl _) (ih o)

/-! ### The collapse step (tree.c lines 176–181) -/

@[simp] theorem hdAt_setParticleC (r : Rebound) (i : ℕ) (l : Loc) (q : Loc) :
    hdAt (setParticleC r i l) q = hdAt r q := rfl

theorem locAnc_extend (q a : Loc) (t : ℕ) (h : locAnc q a) :
    locAnc q (a.1, a.2 ++ [t]) := by
  obtain ⟨h1, o, s, hs⟩ := h
  exact ⟨h1, o, s ++ [t], by simp [hs]⟩

theorem getD_lt_length_of_some (l : List (Option Cell)) (n : ℕ) (c : Cell)
    (h : l.getD n none = some c) : n < l.length := by
  by_contra hc
  rw [List.getD_eq_default _ _ (Nat.le_of_not_lt hc)] at h
  cases h

theorem loc_eq (q a : Loc) (h1 : q.1 = a.1) (h2 : q.2 = a.2) : q = a := by
  obtain ⟨q1, q2⟩ := q
  obtain ⟨a1, a2⟩ := a
  simp only at h1 h2
  rw [h1, h2]

theorem collapse_spec (r : Rebound) (act : Loc) (node child : Cell) (t : ℕ)
    (hInv : GInvQ r)
    (hnode : getCellAt r act = some node) (hbr : node.pt < 0)
    (ht : node.oct.getD t none = some child) (hleaf : 0 ≤ child.pt)
    (hothers : ∀ o', o' ≠ t → node.oct.getD o' none = none)
    (hchildIB : pInside (r.particles.getD child.pt.toNat default) child = true)
    (r11 : Rebound)
    (hr11 : r11 = setCellAt (setParticleC
      (modifyCellAt r act (fun n => n.setPt child.pt)) child.pt.toNat act)
      (act.1, act.2 ++ [t]) none) :
    GInvQ r11 ∧
    r11.particles.length = r.particles.length ∧
    (∀ q, getCellAt r q = none → getCellAt r11 q = none) ∧
    (∀ q, locAnc q act → hdAt r11 q = hdAt r q) ∧
    (∀ q, ¬ locUnder act q → ¬ locAnc q act → UnrelPres r r11 q) ∧
    getCellAt r11 act = some ((node.setPt child.pt).setOct t none) ∧
    depthCell ((node.setPt child.pt).setOct t none) ≤ depthCell node ∧
    SubOK r11 act := by
  obtain ⟨hI1, hI2, hI3⟩ := hInv
  set j := child.pt.toNat with hjdef
  have hj : (j : Int) = child.pt := Int.toNat_of_nonneg hleaf
  set chl : Loc := (act.1, act.2 ++ [t]) with hchldef
  have hchl : getCellAt r chl = some child := by
    rw [hchldef, getCellAt_child r act node t hnode]
    exact ht
  obtain ⟨hjlen, hjc⟩ := hI1 chl child hchl hleaf
  set f : Cell → Cell := fun n => n.setPt child.pt with hfdef
  have hfoct : ∀ c, (f c).oct = c.oct := fun c => Cell.oct_setPt c child.pt
  set r9 := modifyCellAt r act f with hr9
  set r10 := setParticleC r9 j act with hr10
  have htree10 : ∀ q, getCellAt r10 q = getCellAt r9 q := fun q => rfl
  have hp10 : r10.particles = r.particles.set j
      { r.particles.getD j default with c := some act } := rfl
  have hplen : r11.particles.length = r.particles.length := by
    rw [hr11]
    simp [hp10]
  have hp11 : r11.particles = r.particles.set j
      { r.particles.getD j default with c := some act } := by
    rw [hr11]
    simp [hp10]
  have hpget : ∀ i, i ≠ j →
      r11.particles.getD i default = r.particles.getD i default := by
    intro i hi
    rw [hp11, listGetD_set_ne _ _ _ _ _ (fun h => hi h.symm)]
  have hpgetj : r11.particles.getD j default =
      { r.particles.getD j default with c := some act } := by
    rw [hp11, listGetD_set_self _ _ _ _ hjlen]
  -- the cell written at act
  have h9act : getCellAt r9 act = some (node.setPt child.pt) := by
    rw [hr9, getCellAt_modifyCellAt_self, hnode]
    rfl
  have h11act : getCellAt r11 act = some ((node.setPt child.pt).setOct t none) := by
    rw [hr11, hchldef]
    have h2 := getCellAt_setCellAt_anc r10 act t []
    have h3 : ((act.1, act.2 ++ t :: []) : Loc) = (act.1, act.2 ++ [t]) := rfl
    rw [h3] at h2
    rw [h2, htree10, h9act, setSlot_cons, setSlot_nil]
  -- dead locations stay dead
  have hdead : ∀ q, getCellAt r q = none → getCellAt r11 q = none := by
    intro q hq
    rw [hr11]
    apply dead_setCellAt
    rw [htree10]
    exact dead_modifyCellAt r act f hfoct q hq
  -- cells strictly below act are all dead in r11
  have hBelowNone : ∀ o s, getCellAt r11 (act.1, act.2 ++ o :: s) = none := by
    intro o s
    by_cases hot : o = t
    · subst hot
      rw [hr11]
      have : ((act.1, act.2 ++ o :: s) : Loc) = (chl.1, chl.2 ++ s) := by
        rw [hchldef]
        simp
      rw [this]
      exact getCellAt_setCellAt_under _ chl s
    · apply hdead
      have h1 : getCellAt r (act.1, act.2 ++ [o]) = none := by
        rw [getCellAt_child r act node o hnode]
        exact hothers o hot
      have : ((act.1, act.2 ++ o :: s) : Loc) =
          ((act.1, act.2 ++ [o]).1, (act.1, act.2 ++ [o]).2 ++ s) := by simp
      rw [this]
      exact getCellAt_none_extend r _ s h1
  -- ancestors keep their headers
  have hanc : ∀ q, locAnc q act → hdAt r11 q = hdAt r q := by
    intro q hq
    rw [hr11]
    have h1 : hdAt (setCellAt r10 chl none) q = hdAt r10 q :=
      hdAt_setCellAt_anc r10 chl q (by
        rw [hchldef]
        exact locAnc_extend q act t hq)
    rw [h1, hr10, hdAt_setParticleC, hr9]
    exact hdAt_modifyCellAt_ne r act f hfoct q (locAnc_ne q act hq)
  -- unrelated locations are fully preserved as cells
  have hcellOther : ∀ q, ¬ locUnder act q → ¬ locAnc q act →
      getCellAt r11 q = getCellAt r q := by
    intro q hu ha
    rw [hr11]
    have h2 : getCellAt (setCellAt r10 chl none) q = getCellAt r10 q := by
      apply getCellAt_setCellAt_other
      · intro hc
        exact hu (by
          have := locUnder_child_mono act q t (by rw [hchldef] at hc; exact hc)
          exact this)
      · intro hc
        rw [hchldef] at hc
        rcases locAnc_child_cases act q t hc with hc2 | hc2
        · exact ha hc2
        · exact hu (hc2 ▸ locUnder_self act)
    rw [h2, htree10, hr9]
    exact getCellAt_modifyCellAt_other r act f q hu ha
  -- no other leaf carries index j
  have hjonly : ∀ q c2, getCellAt r q = some c2 → 0 ≤ c2.pt →
      c2.pt.toNat = j → q = chl := by
    intro q c2 hq hpt hptj
    have := (hI1 q c2 hq hpt).2
    rw [hptj, hjc] at this
    exact (Option.some.inj this).symm
  have hUnrel : ∀ q, ¬ locUnder act q → ¬ locAnc q act → UnrelPres r r11 q := by
    intro q hu ha c hc
    refine ⟨c, by rw [hcellOther q hu ha, hc], rfl, rfl, rfl, rfl, rfl, rfl, rfl,
      fun _ => rfl, ?_⟩
    intro hpt
    refine ⟨c.pt.toNat, (Int.toNat_of_nonneg hpt).symm, ?_⟩
    apply hpget
    intro hij
    have := hjonly q c hc hpt hij
    subst this
    exact hu ⟨rfl, [t], rfl⟩
  -- facts about the collapsed cell
  have hncpt : ((node.setPt child.pt).setOct t none).pt = child.pt := by simp
  have hncoct : ((node.setPt child.pt).setOct t none).oct = node.oct.set t none := by simp
  have htlen : t < node.oct.length := getD_lt_length_of_some _ _ _ ht
  have hncslots : ∀ o, ((node.setPt child.pt).setOct t none).oct.getD o none = none := by
    intro o
    rw [hncoct, listGetD_set]
    by_cases hot : o = t
    · subst hot
      rw [if_pos ⟨rfl, htlen⟩]
    · rw [if_neg (fun hc => hot hc.1.symm)]
      exact hothers o hot
  have hchl_not_anc : ∀ q, locAnc q act → q ≠ chl := by
    intro q hA he
    obtain ⟨h1, o, s, hs⟩ := hA
    rw [hchldef] at he
    have : q.2 = act.2 ++ [t] := by rw [he]
    rw [hs] at this
    have := congrArg List.length this
    simp at this
  -- Inv1
  have hInv1 : Inv1Q r11 := by
    intro q c' hq' hpt'
    rcases loc_cases act q with ⟨h1, s, hs⟩ | hA | ⟨hu, ha⟩
    · cases s with
      | nil =>
        have hqact : q = act := loc_eq q act h1.symm (by simpa using hs)
        subst hqact
        rw [h11act] at hq'
        cases hq'
        rw [hncpt] at hpt' ⊢
        constructor
        · rw [hplen]
          have : child.pt.toNat = j := rfl
          omega
        · rw [show child.pt.toNat = j from rfl, hpgetj]
      | cons o s2 =>
        exfalso
        have hqu : q = (act.1, act.2 ++ o :: s2) := loc_eq _ _ h1.symm hs
        rw [hqu, hBelowNone] at hq'
        cases hq'
    · obtain ⟨c, hc, hhd⟩ := hdAt_eq_extract r r11 q c' (hanc q hA) hq'
      obtain ⟨_, _, _, _, hpt2, _⟩ := hd_fields _ _ hhd
      have hcpt : 0 ≤ c.pt := by rw [hpt2]; exact hpt'
      obtain ⟨hb, hcref⟩ := hI1 q c hc hcpt
      have hij : c.pt.toNat ≠ j := by
        intro hij
        exact hchl_not_anc q hA (hjonly q c hc hcpt hij)
      rw [← hpt2, hpget _ hij, hplen]
      exact ⟨hb, hcref⟩
    · rw [hcellOther q hu ha] at hq'
      obtain ⟨hb, hcref⟩ := hI1 q c' hq' hpt'
      have hij : c'.pt.toNat ≠ j := by
        intro hij
        have := hjonly q c' hq' hpt' hij
        subst this
        exact hu ⟨rfl, [t], rfl⟩
      rw [hpget _ hij, hplen]
      exact ⟨hb, hcref⟩
  -- Inv2
  have hInv2 : Inv2Q r11 := by
    intro i hi loc hloc
    by_cases hij : i = j
    · subst hij
      rw [hpgetj] at hloc
      have hlocact : act = loc := Option.some.inj hloc
      subst hlocact
      refine Or.inr ⟨_, h11act, ?_⟩
      rw [hncpt]
      exact hj.symm
    · rw [hpget _ hij] at hloc
      have hi' : i < r.particles.length := by rw [← hplen]; exact hi
      rcases hI2 i hi' loc hloc with hnone | ⟨cl, hcl, hclpt⟩
      · exact Or.inl (hdead loc hnone)
      · rcases loc_cases act loc with ⟨h1, s, hs⟩ | hA | ⟨hu, ha⟩
        · exfalso
          cases s with
          | nil =>
            have hlocact : loc = act := loc_eq loc act h1.symm (by simpa using hs)
            subst hlocact
            rw [hcl] at hnode
            cases hnode
            rw [hclpt] at hbr
            exact absurd hbr (not_lt.mpr (Int.ofNat_nonneg i))
          | cons o s2 =>
            have hlocu : loc = (act.1, act.2 ++ o :: s2) := loc_eq _ _ h1.symm hs
            by_cases hot : o = t
            · subst hot
              cases s2 with
              | nil =>
                have : loc = chl := by rw [hlocu, hchldef]
                subst this
                rw [hcl] at hchl
                cases hchl
                apply hij
                rw [hjdef, hclpt]
                rfl
              | cons o2 s3 =>
                have hdd := leaf_below_dead r hI3 chl child hchl hleaf o2 s3
                rw [hchldef] at hdd
                simp only [List.append_assoc, List.cons_append, List.nil_append] at hdd
                rw [hlocu] at hcl
                rw [hdd] at hcl
                cases hcl
            · have h2 : getCellAt r (act.1, act.2 ++ [o]) = none := by
                rw [getCellAt_child r act node o hnode]
                exact hothers o hot
              have h3 : getCellAt r (act.1, act.2 ++ o :: s2) = none := by
                have he : ((act.1, act.2 ++ o :: s2) : Loc) =
                    ((act.1, act.2 ++ [o]).1, (act.1, act.2 ++ [o]).2 ++ s2) := by simp
                rw [he]
                exact getCellAt_none_extend r _ s2 h2
              rw [hlocu, h3] at hcl
              cases hcl
        · obtain ⟨c'', hc'', hhd⟩ := hdAt_eq_extract r11 r loc cl (hanc loc hA).symm hcl
          refine Or.inr ⟨c'', hc'', ?_⟩
          obtain ⟨_, _, _, _, hpt2, _⟩ := hd_fields _ _ hhd
          rw [hpt2, hclpt]
        · refine Or.inr ⟨cl, ?_, hclpt⟩
          rw [hcellOther loc hu ha]
          exact hcl
  -- Struct via geometry-and-sign preservation
  have hGeomSign : GeomSignPreserved r r11 := by
    intro q c' hq'
    have hmono : ∀ c, getCellAt r q = some c →
        ∀ o, c.oct.getD o none = none → c'.oct.getD o none = none := by
      intro c hc o ho
      have h1 : getCellAt r (q.1, q.2 ++ [o]) = none := by
        rw [getCellAt_child r q c o hc]
        exact ho
      have h2 := hdead _ h1
      rw [getCellAt_child r11 q c' o hq'] at h2
      exact h2
    rcases loc_cases act q with ⟨h1, s, hs⟩ | hA | ⟨hu, ha⟩
    · cases s with
      | nil =>
        have hqact : q = act := loc_eq q act h1.symm (by simpa using hs)
        subst hqact
        rw [h11act] at hq'
        cases hq'
        refine ⟨node, hnode, by simp, by simp, by simp, by simp, by simp [List.length_set], ?_, ?_⟩
        · exact hmono node hnode
        · refine Or.inr ⟨?_, hncslots⟩
          rw [hncpt]
          exact hleaf
      | cons o s2 =>
        exfalso
        have hqu : q = (act.1, act.2 ++ o :: s2) := loc_eq _ _ h1.symm hs
        rw [hqu, hBelowNone] at hq'
        cases hq'
    · obtain ⟨c, hc, hhd⟩ := hdAt_eq_extract r r11 q c' (hanc q hA) hq'
      obtain ⟨e1, e2, e3, e4, e5, e6⟩ := hd_fields _ _ hhd
      exact ⟨c, hc, e1.symm, e2.symm, e3.symm, e4.symm, e6.symm, hmono c hc,
        Or.inl (by rw [e5])⟩
    · have hceq := hcellOther q hu ha
      rw [hq'] at hceq
      exact ⟨c', hceq.symm, rfl, rfl, rfl, rfl, rfl, hmono c' hceq.symm, Or.inl Iff.rfl⟩
  have hStruct : StructQ r11 := StructQ_transport r r11 hGeomSign hI3
  -- depth decreases
  have hdepth : depthCell ((node.setPt child.pt).setOct t none) ≤ depthCell node := by
    rw [depthCell_eq, depthCell_eq, hncoct]
    have := depthList_set_none_le node.oct t
    omega
  -- the collapsed subtree is wellformed
  have hsub : SubOK r11 act := by
    constructor
    · intro s c'' hc'' hneg
      cases s with
      | nil =>
        exfalso
        have he : ((act.1, act.2 ++ []) : Loc) = act := loc_eq _ _ rfl (by simp)
        rw [he, h11act] at hc''
        cases hc''
        rw [hncpt] at hneg
        exact absurd hleaf (not_le.mpr hneg)
      | cons o s2 =>
        exfalso
        rw [hBelowNone] at hc''
        cases hc''
    · intro s c'' hc'' hpos
      cases s with
      | nil =>
        have he : ((act.1, act.2 ++ []) : Loc) = act := loc_eq _ _ rfl (by simp)
        rw [he, h11act] at hc''
        cases hc''
        rw [show ((node.setPt child.pt).setOct t none).pt.toNat = j from by rw [hncpt]]
        rw [hpgetj, pInside_setC]
        have hnest := (hI3 act node hnode).2.2 t child ht
        have hin : pInside (r.particles.getD j default) node = true :=
          pInside_nested _ child node hchildIB hnest.1 hnest.2.1 hnest.2.2
        rw [pInside_congr _ _ node (by simp) (by simp) (by simp) (by simp)]
        exact hin
      | cons o s2 =>
        exfalso
        rw [hBelowNone] at hc''
        cases hc''
  exact ⟨⟨hInv1, hInv2, hStruct⟩, hplen, hdead, hanc, hUnrel, h11act, hdepth, hsub⟩

/-! ### Support lemmas for the eviction swap -/

theorem modifyAt_dead : ∀ (p : List ℕ) (t : Option Cell) (f : Cell → Cell),
    getPath t p = none → modifyAt t p f = t := by
  intro p
  induction p with
  | nil =>
    intro t f ht
    rw [getPath_nil] at ht
    subst ht
    simp
  | cons o p ih =>
    intro t f ht
    cases t with
    | none => simp
    | some c =>
      rw [getPath_cons] at ht
      rw [modifyAt_cons, ih _ f ht]
      cases c with
      | mk x y z w pt m mx my mz oct =>
        show some (Cell.mk x y z w pt m mx my mz (oct.set o (oct.getD o none))) =
          some (Cell.mk x y z w pt m mx my mz oct)
        rw [listSet_getD_self]

theorem modifyCellAt_dead (r : Rebound) (a : Loc) (f : Cell → Cell)
    (h : getCellAt r a = none) : modifyCellAt r a f = r := by
  unfold modifyCellAt
  unfold getCellAt at h
  rw [modifyAt_dead a.2 _ f h, listSet_getD_self]

theorem listGetD_dropLast {α : Type} (l : List α) (i : ℕ) (d : α)
    (h : i < l.length - 1) : l.dropLast.getD i d = l.getD i d := by
  have h1 : i < l.dropLast.length := by
    rw [List.length_dropLast]
    exact h
  have h2 : i < l.length := by omega
  rw [List.getD_eq_getElem _ _ h1, List.getD_eq_getElem _ _ h2]
  exact List.getElem_dropLast l i h1

theorem listDropLast_getD_concat {α : Type} (l : List α) (d : α) (h : l ≠ []) :
    l.dropLast ++ [l.getD (l.length - 1) d] = l := by
  have hlen : 0 < l.length := List.length_pos.mpr h
  have : l.getD (l.length - 1) d = l.getLast h := by
    rw [List.getD_eq_getElem _ _ (by omega), List.getLast_eq_getElem]
  rw [this]
  exact List.dropLast_append_getLast h

theorem evict_fixed_id (r : Rebound) (oldpos : ℕ) (h : oldpos < r.N_tree_fixed) :
    tree_evict r oldpos = r := by
  unfold tree_evict particles_add_fixed
  rw [if_pos h, listSet_getD_self]

theorem countLeaves_leaf (c : Cell) (h : 0 ≤ c.pt) : countLeaves c = 1 := by
  rw [countLeaves_eq, if_pos h]

theorem evict_last_id (r : Rebound) (oldpos : ℕ) (v : Int)
    (hv : Int.ofNat oldpos = v)
    (node : Cell) (act : Loc)
    (hnode : getCellAt r act = some node) (hptv : node.pt = v)
    (hcref : (r.particles.getD oldpos default).c = some act)
    (hge : r.N_tree_fixed ≤ oldpos)
    (hlast : oldpos = r.particles.length - 1)
    (hlen : oldpos < r.particles.length) :
    tree_evict r oldpos = r := by
  have hsw : r.particles.getD (r.particles.length - 1) default =
      r.particles.getD oldpos default := by rw [← hlast]
  have hset : r.particles.set oldpos (r.particles.getD oldpos default) =
      r.particles := listSet_getD_self _ _ _
  simp only [tree_evict, if_neg (not_lt.mpr hge), hsw, hset, hcref]
  have hid : modifyCellAt { r with particles := r.particles.dropLast } act
      (fun n => n.setPt (Int.ofNat oldpos)) =
      { r with particles := r.particles.dropLast } := by
    apply modifyCellAt_congr_id
    intro c hcact
    have : getCellAt { r with particles := r.particles.dropLast } act = getCellAt r act := rfl
    rw [this, hnode] at hcact
    cases hcact
    rw [hv, ← hptv, Cell.setPt_self]
  rw [hid]
  show ({ r with particles := r.particles.dropLast ++ [r.particles.getD oldpos default] } :
    Rebound) = r
  have hcat : r.particles.dropLast ++ [r.particles.getD oldpos default] = r.particles := by
    rw [hlast]
    exact listDropLast_getD_concat r.particles default
      (by intro he; rw [he] at hlen; simp at hlen)
  rw [hcat]

theorem evict_particles_desc (ps : List Particle) (oldpos : ℕ)
    (h : oldpos < ps.length - 1) (ps' : List Particle)
    (hps' : ps' = (ps.set oldpos (ps.getD (ps.length - 1) default)).dropLast ++
      [ps.getD oldpos default]) :
    ps'.length = ps.length ∧
    ps'.getD oldpos default = ps.getD (ps.length - 1) default ∧
    ps'.getD (ps.length - 1) default = ps.getD oldpos default ∧
    (∀ i, i ≠ oldpos → i ≠ ps.length - 1 → ps'.getD i default = ps.getD i default) := by
  have hlen0 : 1 ≤ ps.length := by omega
  have hdll : ((ps.set oldpos (ps.getD (ps.length - 1) default)).dropLast).length =
      ps.length - 1 := by
    rw [List.length_dropLast, List.length_set]
  have hlen : ps'.length = ps.length := by
    rw [hps', List.length_append, hdll]
    simp
    omega
  set dl := (ps.set oldpos (ps.getD (ps.length - 1) default)).dropLast with hdl
  have hop_dl : oldpos < dl.length := by rw [hdl, hdll]; omega
  have hop_set : oldpos < (ps.set oldpos (ps.getD (ps.length - 1) default)).length - 1 := by
    rw [List.length_set]
    omega
  refine ⟨hlen, ?_, ?_, ?_⟩
  · rw [hps', List.getD_append _ _ _ _ hop_dl, hdl,
      listGetD_dropLast _ _ _ hop_set,
      listGetD_set_self _ _ _ _ (by omega)]
  · have hge : dl.length ≤ ps.length - 1 := by rw [hdl, hdll]
    rw [hps', List.getD_append_right _ _ _ _ hge, hdl, hdll]
    simp
  · intro i hio hil
    rcases lt_or_le i (ps.length - 1) with hi | hi
    · have hi_dl : i < dl.length := by rw [hdl, hdll]; omega
      have hi_set : i < (ps.set oldpos (ps.getD (ps.length - 1) default)).length - 1 := by
        rw [List.length_set]
        omega
      rw [hps', List.getD_append _ _ _ _ hi_dl, hdl,
        listGetD_dropLast _ _ _ hi_set,
        listGetD_set_ne _ _ _ _ _ (fun he => hio he.symm)]
    · rw [List.getD_eq_default _ _ (by omega : ps.length ≤ i),
        List.getD_eq_default _ _ (by rw [hlen]; omega)]

theorem GeomSignPreserved_of_sign_geom (r r' : Rebound)
    (hdead : ∀ q, getCellAt r q = none → getCellAt r' q = none)
    (hg : ∀ q c', getCellAt r' q = some c' → ∃ c, getCellAt r q = some c ∧
      c'.x = c.x ∧ c'.y = c.y ∧ c'.z = c.z ∧ c'.w = c.w ∧
      c'.oct.length = c.oct.length ∧ (0 ≤ c'.pt ↔ 0 ≤ c.pt)) :
    GeomSignPreserved r r' := by
  intro q c' hq
  obtain ⟨c, hc, a1, a2, a3, a4, a5, a6⟩ := hg q c' hq
  refine ⟨c, hc, a1, a2, a3, a4, a5, ?_, Or.inl a6⟩
  intro o ho
  have h1 : getCellAt r (q.1, q.2 ++ [o]) = none := by
    rw [getCellAt_child r q c o hc]
    exact ho
  have h2 := hdead _ h1
  rw [getCellAt_child r' q c' o hq] at h2
  exact h2

theorem retag_geomSign (r : Rebound) (a : Loc) (v : Int)
    (hsg : ∀ c, getCellAt r a = some c → (0 ≤ v ↔ 0 ≤ c.pt)) :
    GeomSignPreserved r (modifyCellAt r a (fun n => n.setPt v)) := by
  apply GeomSignPreserved_of_sign_geom
  · exact fun q hq => dead_modifyCellAt r a _ (fun c => Cell.oct_setPt c v) q hq
  · intro q c' hq
    rcases write_hd r a v q c' hq with ⟨hqa, c, hc, he⟩ | ⟨_, c, hc, he⟩
    · subst hqa
      refine ⟨c, hc, by rw [he]; simp, by rw [he]; simp, by rw [he]; simp,
        by rw [he]; simp, by rw [he]; simp, ?_⟩
      rw [he, Cell.pt_setPt]
      exact hsg c hc
    · obtain ⟨e1, e2, e3, e4, e5, e6⟩ := hd_fields _ _ he
      exact ⟨c, hc, e1, e2, e3, e4, e6, by rw [e5]⟩

theorem prune_mstep (r : Rebound) (act : Loc) (hInv : GInvQ r) :
    MStep r (setCellAt r act none) act :=
  ⟨prune_GInv r act hInv, rfl,
   fun q hq => dead_setCellAt r act q hq,
   fun q hq => hdAt_setCellAt_anc r act q hq,
   fun q hu ha => UnrelPres_of_eq r _ q (getCellAt_setCellAt_other r act q hu ha)
     (fun j => rfl),
   Or.inl (getCellAt_setCellAt_self r act)⟩

theorem evict_swap_eq_none (r : Rebound) (oldpos : ℕ)
    (hge : r.N_tree_fixed ≤ oldpos)
    (hswc : (r.particles.getD (r.particles.length - 1) default).c = none) :
    tree_evict r oldpos =
      { r with particles := (r.particles.set oldpos
          (r.particles.getD (r.particles.length - 1) default)).dropLast ++
          [r.particles.getD oldpos default] } := by
  simp only [tree_evict, if_neg (not_lt.mpr hge), hswc]
  rfl

theorem evict_swap_eq_some (r : Rebound) (oldpos : ℕ)
    (hge : r.N_tree_fixed ≤ oldpos) (cl : Loc)
    (hswc : (r.particles.getD (r.particles.length - 1) default).c = some cl) :
    tree_evict r oldpos =
      { modifyCellAt r cl (fun n => n.setPt (Int.ofNat oldpos)) with
        particles := (r.particles.set oldpos
          (r.particles.getD (r.particles.length - 1) default)).dropLast ++
          [r.particles.getD oldpos default] } := by
  simp only [tree_evict, if_neg (not_lt.mpr hge), hswc]
  rfl

theorem evict_perm_mstep (r : Rebound) (act : Loc) (node : Cell) (oldpos : ℕ)
    (hInv : GInvQ r)
    (hnode : getCellAt r act = some node) (hleaf : 0 ≤ node.pt)
    (hop : node.pt = Int.ofNat oldpos)
    (hlt : oldpos < r.particles.length - 1)
    (hdeadsw : ∀ q, (r.particles.getD (r.particles.length - 1) default).c = some q →
      getCellAt r q = none)
    (re r' : Rebound)
    (hre : re = { r with particles := (r.particles.set oldpos
      (r.particles.getD (r.particles.length - 1) default)).dropLast ++
      [r.particles.getD oldpos default] })
    (hr' : r' = setCellAt re act none) :
    MStep r r' act := by
  obtain ⟨hI1, hI2, hI3⟩ := hInv
  obtain ⟨hplen', hgold, hglast, hgother⟩ :=
    evict_particles_desc r.particles oldpos hlt _ rfl
  obtain ⟨hoplen0, hopc0⟩ := hI1 act node hnode hleaf
  have htn : node.pt.toNat = oldpos := by
    rw [hop]
    exact Int.toNat_ofNat oldpos
  have hopc : (r.particles.getD oldpos default).c = some act := by
    rw [← htn]
    exact hopc0
  have hp' : r'.particles = (r.particles.set oldpos
      (r.particles.getD (r.particles.length - 1) default)).dropLast ++
      [r.particles.getD oldpos default] := by
    rw [hr', hre]
    rfl
  have hlen2 : r'.particles.length = r.particles.length := by
    rw [hp']
    exact hplen'
  have htree : ∀ q, getCellAt r' q = getCellAt (setCellAt r act none) q := by
    intro q
    rw [hr', hre]
    rfl
  have hdead : ∀ q, getCellAt r q = none → getCellAt r' q = none := by
    intro q hq
    rw [htree q]
    exact dead_setCellAt r act q hq
  have hanc : ∀ q, locAnc q act → hdAt r' q = hdAt r q := by
    intro q hq
    have h1 : hdAt r' q = hdAt (setCellAt r act none) q := by
      unfold hdAt
      rw [htree q]
    rw [h1]
    exact hdAt_setCellAt_anc r act q hq
  have hactnone : getCellAt r' act = none := by
    rw [htree act]
    exact getCellAt_setCellAt_self r act
  have hbelowdead := leaf_below_dead r hI3 act node hnode hleaf
  have honly_old : ∀ q c2, getCellAt r q = some c2 → 0 ≤ c2.pt →
      c2.pt.toNat = oldpos → q = act := by
    intro q c2 hq hpt he
    have h2 := (hI1 q c2 hq hpt).2
    rw [he, hopc] at h2
    exact (Option.some.inj h2).symm
  have hno_last : ∀ q c2, getCellAt r q = some c2 → 0 ≤ c2.pt →
      c2.pt.toNat ≠ r.particles.length - 1 := by
    intro q c2 hq hpt he
    have h2 := (hI1 q c2 hq hpt).2
    rw [he] at h2
    have h3 := hdeadsw q h2
    rw [h3] at hq
    cases hq
  have hInv1 : Inv1Q r' := by
    intro q c' hq' hpt'
    rcases loc_cases act q with ⟨h1, s, hs⟩ | hA | ⟨hu, ha⟩
    · exfalso
      cases s with
      | nil =>
        have hqact : q = act := loc_eq q act h1.symm (by simpa using hs)
        rw [hqact, hactnone] at hq'
        cases hq'
      | cons o s2 =>
        have hqu : q = (act.1, act.2 ++ o :: s2) := loc_eq _ _ h1.symm hs
        rw [hqu, htree _, getCellAt_setCellAt_under r act (o :: s2)] at hq'
        cases hq'
    · obtain ⟨c, hc, hhd⟩ := hdAt_eq_extract r r' q c' (hanc q hA) hq'
      obtain ⟨_, _, _, _, hpt2, _⟩ := hd_fields _ _ hhd
      have hcpt : 0 ≤ c.pt := by rw [hpt2]; exact hpt'
      obtain ⟨hb, hcref⟩ := hI1 q c hc hcpt
      have hcc : c'.pt = c.pt := hpt2.symm
      have hne1 : c.pt.toNat ≠ oldpos :=
        fun he => locAnc_ne q act hA (honly_old q c hc hcpt he)
      have hne2 : c.pt.toNat ≠ r.particles.length - 1 := hno_last q c hc hcpt
      constructor
      · rw [hcc, hlen2]
        exact hb
      · rw [hcc, hp', hgother _ hne1 hne2]
        exact hcref
    · have hceq : getCellAt r' q = getCellAt r q := by
        rw [htree q]
        exact getCellAt_setCellAt_other r act q hu ha
      rw [hceq] at hq'
      obtain ⟨hb, hcref⟩ := hI1 q c' hq' hpt'
      have hne1 : c'.pt.toNat ≠ oldpos := by
        intro he
        apply hu
        rw [honly_old q c' hq' hpt' he]
        exact locUnder_self act
      have hne2 := hno_last q c' hq' hpt'
      constructor
      · rw [hlen2]
        exact hb
      · rw [hp', hgother _ hne1 hne2]
        exact hcref
  have hInv2 : Inv2Q r' := by
    intro i hi loc hloc
    rw [hlen2] at hi
    by_cases hio : i = oldpos
    · subst hio
      rw [hp', hgold] at hloc
      exact Or.inl (hdead loc (hdeadsw loc hloc))
    · by_cases hil : i = r.particles.length - 1
      · subst hil
        rw [hp', hglast, hopc] at hloc
        obtain rfl : act = loc := Option.some.inj hloc
        exact Or.inl hactnone
      · rw [hp', hgother i hio hil] at hloc
        rcases hI2 i hi loc hloc with hnone | ⟨cl', hcl', hclpt⟩
        · exact Or.inl (hdead loc hnone)
        · rcases loc_cases act loc with ⟨h1, s, hs⟩ | hA | ⟨hu, ha⟩
          · exfalso
            cases s with
            | nil =>
              have hlact : loc = act := loc_eq loc act h1.symm (by simpa using hs)
              have hne : cl' = node := by
                rw [hlact, hnode] at hcl'
                exact (Option.some.inj hcl').symm
              apply hio
              rw [hne] at hclpt
              exact (Int.ofNat.inj (hop.symm.trans hclpt)).symm
            | cons o s2 =>
              have hlact : loc = (act.1, act.2 ++ o :: s2) := loc_eq _ _ h1.symm hs
              rw [hlact, hbelowdead o s2] at hcl'
              cases hcl'
          · obtain ⟨c'', hc'', hhd⟩ :=
              hdAt_eq_extract r' r loc cl' (hanc loc hA).symm hcl'
            refine Or.inr ⟨c'', hc'', ?_⟩
            obtain ⟨_, _, _, _, hpt2, _⟩ := hd_fields _ _ hhd
            rw [hpt2, hclpt]
          · refine Or.inr ⟨cl', ?_, hclpt⟩
            rw [htree loc, getCellAt_setCellAt_other r act loc hu ha]
            exact hcl'
  have hgs : GeomSignPreserved r r' := by
    intro q c' hq'
    rw [htree q] at hq'
    exact prune_geomSign r act q c' hq'
  have hStruct : StructQ r' := StructQ_transport r r' hgs hI3
  have hUnrel : ∀ q, ¬ locUnder act q → ¬ locAnc q act → UnrelPres r r' q := by
    intro q hu ha c hc
    have hceq : getCellAt r' q = getCellAt r q := by
      rw [htree q]
      exact getCellAt_setCellAt_other r act q hu ha
    refine ⟨c, by rw [hceq]; exact hc, rfl, rfl, rfl, rfl, rfl, rfl, rfl,
      fun _ => rfl, ?_⟩
    intro hpt
    refine ⟨c.pt.toNat, (Int.toNat_of_nonneg hpt).symm, ?_⟩
    have hne1 : c.pt.toNat ≠ oldpos := by
      intro he
      apply hu
      rw [honly_old q c hc hpt he]
      exact locUnder_self act
    have hne2 := hno_last q c hc hpt
    rw [hp', hgother _ hne1 hne2]
  exact ⟨⟨hInv1, hInv2, hStruct⟩, hlen2, hdead, hanc, hUnrel, Or.inl hactnone⟩

theorem evict_live_mstep (r : Rebound) (act : Loc) (node : Cell) (oldpos : ℕ)
    (hInv : GInvQ r)
    (hnode : getCellAt r act = some node) (hleaf : 0 ≤ node.pt)
    (hop : node.pt = Int.ofNat oldpos)
    (hlt : oldpos < r.particles.length - 1)
    (cl : Loc) (ccl : Cell)
    (hswc : (r.particles.getD (r.particles.length - 1) default).c = some cl)
    (hccl : getCellAt r cl = some ccl)
    (re r' : Rebound)
    (hre : re = { modifyCellAt r cl (fun n => n.setPt (Int.ofNat oldpos)) with
      particles := (r.particles.set oldpos
        (r.particles.getD (r.particles.length - 1) default)).dropLast ++
        [r.particles.getD oldpos default] })
    (hr' : r' = setCellAt re act none) :
    MStep r r' act := by
  obtain ⟨hI1, hI2, hI3⟩ := hInv
  have hll : r.particles.length - 1 < r.particles.length := by omega
  obtain ⟨hplen', hgold, hglast, hgother⟩ :=
    evict_particles_desc r.particles oldpos hlt _ rfl
  have hcclpt : ccl.pt = Int.ofNat (r.particles.length - 1) := by
    rcases hI2 (r.particles.length - 1) hll cl hswc with hdd | ⟨c2, hc2, hc2pt⟩
    · rw [hdd] at hccl
      cases hccl
    · have he : c2 = ccl := by
        rw [hc2] at hccl
        exact Option.some.inj hccl
      rw [← he]
      exact hc2pt
  have hcclleaf : 0 ≤ ccl.pt := by
    rw [hcclpt]
    exact Int.ofNat_nonneg _
  obtain ⟨hoplen0, hopc0⟩ := hI1 act node hnode hleaf
  have htn : node.pt.toNat = oldpos := by
    rw [hop]
    exact Int.toNat_ofNat oldpos
  have hopc : (r.particles.getD oldpos default).c = some act := by
    rw [← htn]
    exact hopc0
  obtain ⟨hll2, hclc0⟩ := hI1 cl ccl hccl hcclleaf
  have htn2 : ccl.pt.toNat = r.particles.length - 1 := by
    rw [hcclpt]
    exact Int.toNat_ofNat _
  have hclc : (r.particles.getD (r.particles.length - 1) default).c = some cl := by
    rw [← htn2]
    exact hclc0
  have honly_old : ∀ q c2, getCellAt r q = some c2 → 0 ≤ c2.pt →
      c2.pt.toNat = oldpos → q = act := by
    intro q c2 hq hpt he
    have h2 := (hI1 q c2 hq hpt).2
    rw [he, hopc] at h2
    exact (Option.some.inj h2).symm
  have honly_last : ∀ q c2, getCellAt r q = some c2 → 0 ≤ c2.pt →
      c2.pt.toNat = r.particles.length - 1 → q = cl := by
    intro q c2 hq hpt he
    have h2 := (hI1 q c2 hq hpt).2
    rw [he, hclc] at h2
    exact (Option.some.inj h2).symm
  have hclne : cl ≠ act := by
    intro he
    rw [he, hnode] at hccl
    have h2 := Option.some.inj hccl
    rw [← h2, hop] at hcclpt
    have h3 := Int.ofNat.inj hcclpt
    omega
  have hbelowdead := leaf_below_dead r hI3 act node hnode hleaf
  have hclbelowdead := leaf_below_dead r hI3 cl ccl hccl hcclleaf
  have hcl_not_under : ¬ locUnder act cl := by
    rintro ⟨h1, s, hs⟩
    cases s with
    | nil => exact hclne (loc_eq cl act h1.symm (by simpa using hs))
    | cons o s2 =>
      have h3 : cl = (act.1, act.2 ++ o :: s2) := loc_eq _ _ h1.symm hs
      rw [h3, hbelowdead o s2] at hccl
      cases hccl
  have hcl_not_anc : ¬ locAnc cl act := by
    rintro ⟨h1, o, s, hs⟩
    have h3 : act = (cl.1, cl.2 ++ o :: s) := loc_eq _ _ h1.symm hs
    rw [h3, hclbelowdead o s] at hnode
    cases hnode
  have hfoct : ∀ c : Cell,
      ((fun n : Cell => n.setPt (Int.ofNat oldpos)) c).oct = c.oct :=
    fun c => Cell.oct_setPt c _
  have hp' : r'.particles = (r.particles.set oldpos
      (r.particles.getD (r.particles.length - 1) default)).dropLast ++
      [r.particles.getD oldpos default] := by
    rw [hr', hre]
    rfl
  have hlen2 : r'.particles.length = r.particles.length := by
    rw [hp']
    exact hplen'
  have htree : ∀ q, getCellAt r' q =
      getCellAt (setCellAt
        (modifyCellAt r cl (fun n => n.setPt (Int.ofNat oldpos))) act none) q := by
    intro q
    rw [hr', hre]
    rfl
  have hMcl : getCellAt (modifyCellAt r cl (fun n => n.setPt (Int.ofNat oldpos))) cl =
      some (ccl.setPt (Int.ofNat oldpos)) := by
    rw [getCellAt_modifyCellAt_self, hccl]
    rfl
  have hMdead : ∀ q, getCellAt r q = none →
      getCellAt (modifyCellAt r cl (fun n => n.setPt (Int.ofNat oldpos))) q = none :=
    fun q hq => dead_modifyCellAt r cl _ hfoct q hq
  have hdead : ∀ q, getCellAt r q = none → getCellAt r' q = none := by
    intro q hq
    rw [htree q]
    exact dead_setCellAt _ act q (hMdead q hq)
  have hactnone : getCellAt r' act = none := by
    rw [htree act]
    exact getCellAt_setCellAt_self _ act
  have hanc : ∀ q, locAnc q act → hdAt r' q = hdAt r q := by
    intro q hq
    have h1 : hdAt r' q =
        hdAt (setCellAt
          (modifyCellAt r cl (fun n => n.setPt (Int.ofNat oldpos))) act none) q := by
      unfold hdAt
      rw [htree q]
    rw [h1, hdAt_setCellAt_anc _ act q hq]
    exact hdAt_modifyCellAt_ne r cl _ hfoct q (fun he => hcl_not_anc (he ▸ hq))
  have hbelow' : ∀ o s, getCellAt r' (act.1, act.2 ++ o :: s) = none := by
    intro o s
    rw [htree _]
    exact getCellAt_setCellAt_under _ act (o :: s)
  have hoffact : ∀ q, ¬ locUnder act q → ¬ locAnc q act →
      getCellAt r' q =
        getCellAt (modifyCellAt r cl (fun n => n.setPt (Int.ofNat oldpos))) q := by
    intro q hu ha
    rw [htree q]
    exact getCellAt_setCellAt_other _ act q hu ha
  have hclr' : getCellAt r' cl = some (ccl.setPt (Int.ofNat oldpos)) := by
    rw [hoffact cl hcl_not_under hcl_not_anc, hMcl]
  have hoffcl : ∀ q, q ≠ cl →
      hdAt (modifyCellAt r cl (fun n => n.setPt (Int.ofNat oldpos))) q = hdAt r q :=
    fun q hq => hdAt_modifyCellAt_ne r cl _ hfoct q hq
  have hInv1 : Inv1Q r' := by
    intro q c' hq' hpt'
    rcases loc_cases act q with ⟨h1, s, hs⟩ | hA | ⟨hu, ha⟩
    · exfalso
      cases s with
      | nil =>
        have hqact : q = act := loc_eq q act h1.symm (by simpa using hs)
        rw [hqact, hactnone] at hq'
        cases hq'
      | cons o s2 =>
        have hqu : q = (act.1, act.2 ++ o :: s2) := loc_eq _ _ h1.symm hs
        rw [hqu, hbelow' o s2] at hq'
        cases hq'
    · obtain ⟨c, hc, hhd⟩ := hdAt_eq_extract r r' q c' (hanc q hA) hq'
      obtain ⟨_, _, _, _, hpt2, _⟩ := hd_fields _ _ hhd
      have hcpt : 0 ≤ c.pt := by rw [hpt2]; exact hpt'
      obtain ⟨hb, hcref⟩ := hI1 q c hc hcpt
      have hcc : c'.pt = c.pt := hpt2.symm
      have hne1 : c.pt.toNat ≠ oldpos :=
        fun he => locAnc_ne q act hA (honly_old q c hc hcpt he)
      have hne2 : c.pt.toNat ≠ r.particles.length - 1 :=
        fun he => hcl_not_anc ((honly_last q c hc hcpt he) ▸ hA)
      constructor
      · rw [hcc, hlen2]
        exact hb
      · rw [hcc, hp', hgother _ hne1 hne2]
        exact hcref
    · by_cases hqcl : q = cl
      · subst hqcl
        rw [hclr'] at hq'
        have hc'eq : c' = ccl.setPt (Int.ofNat oldpos) := (Option.some.inj hq').symm
        have hct : c'.pt.toNat = oldpos := by
          rw [hc'eq, Cell.pt_setPt]
          exact Int.toNat_ofNat oldpos
        constructor
        · rw [hct, hlen2]
          omega
        · rw [hct, hp', hgold]
          exact hswc
      · have hhdq : hdAt r' q = hdAt r q := by
          have h1 : hdAt r' q =
              hdAt (modifyCellAt r cl (fun n => n.setPt (Int.ofNat oldpos))) q := by
            unfold hdAt
            rw [hoffact q hu ha]
          rw [h1]
          exact hoffcl q hqcl
        obtain ⟨c, hc, hhd⟩ := hdAt_eq_extract r r' q c' hhdq hq'
        obtain ⟨_, _, _, _, hpt2, _⟩ := hd_fields _ _ hhd
        have hcpt : 0 ≤ c.pt := by rw [hpt2]; exact hpt'
        obtain ⟨hb, hcref⟩ := hI1 q c hc hcpt
        have hcc : c'.pt = c.pt := hpt2.symm
        have hne1 : c.pt.toNat ≠ oldpos := by
          intro he
          apply hu
          rw [honly_old q c hc hcpt he]
          exact locUnder_self act
        have hne2 : c.pt.toNat ≠ r.particles.length - 1 :=
          fun he => hqcl (honly_last q c hc hcpt he)
        constructor
        · rw [hcc, hlen2]
          exact hb
        · rw [hcc, hp', hgother _ hne1 hne2]
          exact hcref
  have hInv2 : Inv2Q r' := by
    intro i hi loc hloc
    rw [hlen2] at hi
    by_cases hio : i = oldpos
    · rw [hio, hp', hgold, hswc] at hloc
      obtain rfl : cl = loc := Option.some.inj hloc
      refine Or.inr ⟨ccl.setPt (Int.ofNat oldpos), hclr', ?_⟩
      rw [hio, Cell.pt_setPt]
    · by_cases hil : i = r.particles.length - 1
      · subst hil
        rw [hp', hglast, hopc] at hloc
        obtain rfl : act = loc := Option.some.inj hloc
        exact Or.inl hactnone
      · rw [hp', hgother i hio hil] at hloc
        rcases hI2 i hi loc hloc with hnone | ⟨cl', hcl', hclpt⟩
        · exact Or.inl (hdead loc hnone)
        · rcases loc_cases act loc with ⟨h1, s, hs⟩ | hA | ⟨hu, ha⟩
          · exfalso
            cases s with
            | nil =>
              have hlact : loc = act := loc_eq loc act h1.symm (by simpa using hs)
              have hne : cl' = node := by
                rw [hlact, hnode] at hcl'
                exact (Option.some.inj hcl').symm
              apply hio
              rw [hne] at hclpt
              exact (Int.ofNat.inj (hop.symm.trans hclpt)).symm
            | cons o s2 =>
              have hlact : loc = (act.1, act.2 ++ o :: s2) := loc_eq _ _ h1.symm hs
              rw [hlact, hbelowdead o s2] at hcl'
              cases hcl'
          · obtain ⟨c'', hc'', hhd⟩ :=
              hdAt_eq_extract r' r loc cl' (hanc loc hA).symm hcl'
            refine Or.inr ⟨c'', hc'', ?_⟩
            obtain ⟨_, _, _, _, hpt2, _⟩ := hd_fields _ _ hhd
            rw [hpt2, hclpt]
          · by_cases hloccl : loc = cl
            · exfalso
              apply hil
              have hne : cl' = ccl := by
                rw [hloccl, hccl] at hcl'
                exact (Option.some.inj hcl').symm
              rw [hne] at hclpt
              exact (Int.ofNat.inj (hcclpt.symm.trans hclpt)).symm
            · have hhdq : hdAt r loc = hdAt r' loc := by
                have h1 : hdAt r' loc =
                    hdAt (modifyCellAt r cl (fun n => n.setPt (Int.ofNat oldpos)))
                      loc := by
                  unfold hdAt
                  rw [hoffact loc hu ha]
                rw [h1]
                exact (hoffcl loc hloccl).symm
              obtain ⟨c'', hc'', hhd⟩ := hdAt_eq_extract r' r loc cl' hhdq hcl'
              refine Or.inr ⟨c'', hc'', ?_⟩
              obtain ⟨_, _, _, _, hpt2, _⟩ := hd_fields _ _ hhd
              rw [hpt2, hclpt]
  have hgs1 : GeomSignPreserved r
      (modifyCellAt r cl (fun n => n.setPt (Int.ofNat oldpos))) := by
    apply retag_geomSign
    intro c hc
    have he : c = ccl := by
      rw [hccl] at hc
      exact (Option.some.inj hc).symm
    rw [he]
    constructor
    · intro _
      exact hcclleaf
    · intro _
      exact Int.ofNat_nonneg _
  have hgs2 : GeomSignPreserved
      (modifyCellAt r cl (fun n => n.setPt (Int.ofNat oldpos))) r' := by
    intro q c' hq'
    rw [htree q] at hq'
    exact prune_geomSign _ act q c' hq'
  have hStruct : StructQ r' :=
    StructQ_transport r r' (GeomSignPreserved_trans _ _ _ hgs1 hgs2) hI3
  have hUnrel : ∀ q, ¬ locUnder act q → ¬ locAnc q act → UnrelPres r r' q := by
    intro q hu ha c hc
    by_cases hqcl : q = cl
    · subst hqcl
      have hce : ccl = c := by
        rw [hccl] at hc
        exact Option.some.inj hc
      subst hce
      refine ⟨ccl.setPt (Int.ofNat oldpos), hclr', by simp, by simp, by simp,
        by simp, by simp, ?_, ?_, ?_, ?_⟩
      · rw [countLeaves_leaf _ (by rw [Cell.pt_setPt]; exact Int.ofNat_nonneg _),
          countLeaves_leaf ccl hcclleaf]
      · rw [depthCell_eq, depthCell_eq, Cell.oct_setPt]
      · intro hneg
        exact absurd hcclleaf (not_le.mpr hneg)
      · intro _
        refine ⟨oldpos, by rw [Cell.pt_setPt], ?_⟩
        rw [hp', hgold, htn2]
    · rcases loc_cases cl q with ⟨h1, s, hs⟩ | hA2 | ⟨hu2, ha2⟩
      · exfalso
        cases s with
        | nil => exact hqcl (loc_eq q cl h1.symm (by simpa using hs))
        | cons o s2 =>
          have hqu : q = (cl.1, cl.2 ++ o :: s2) := loc_eq _ _ h1.symm hs
          rw [hqu, hclbelowdead o s2] at hc
          cases hc
      · obtain ⟨h1, o, s, hs⟩ := hA2
        have hclq : cl = (q.1, q.2 ++ o :: s) := loc_eq _ _ h1.symm hs
        have hgp : getPath (getCellAt r q) (o :: s) = some ccl := by
          rw [← hccl, hclq]
          unfold getCellAt
          rw [getPath_append]
        have hMq : getCellAt
            (modifyCellAt r cl (fun n => n.setPt (Int.ofNat oldpos))) q =
            modifyAt (getCellAt r q) (o :: s) (fun n => n.setPt (Int.ofNat oldpos)) := by
          rw [hclq]
          exact getCellAt_modifyCellAt_anc r q _ o s
        have hr'q : getCellAt r' q =
            modifyAt (getCellAt r q) (o :: s) (fun n => n.setPt (Int.ofNat oldpos)) := by
          rw [hoffact q hu ha]
          exact hMq
        have hcnt : countLeavesO (modifyAt (getCellAt r q) (o :: s)
            (fun n => n.setPt (Int.ofNat oldpos))) = countLeavesO (getCellAt r q) := by
          apply countLeavesO_modifyAt _ hfoct
          intro c2 h2
          rw [hgp] at h2
          have hce : ccl = c2 := Option.some.inj h2
          rw [← hce, Cell.pt_setPt]
          constructor
          · intro _
            exact hcclleaf
          · intro _
            exact Int.ofNat_nonneg _
        have hdep : depthO (modifyAt (getCellAt r q) (o :: s)
            (fun n => n.setPt (Int.ofNat oldpos))) = depthO (getCellAt r q) :=
          depthO_modifyAt _ hfoct (o :: s) _
        have hhd : hdO (modifyAt (getCellAt r q) (o :: s)
            (fun n => n.setPt (Int.ofNat oldpos))) = hdO (getCellAt r q) :=
          hdO_modifyAt_cons o s _ _
        rw [hc] at hr'q hcnt hdep hhd
        cases hq' : modifyAt (some c) (o :: s) (fun n => n.setPt (Int.ofNat oldpos)) with
        | none =>
          exfalso
          rw [hq'] at hhd
          cases hhd
        | some c' =>
          rw [hq'] at hr'q hcnt hdep hhd
          have hhd2 : c'.hd = c.hd := by
            have h2 : some c'.hd = some c.hd := hhd
            exact Option.some.inj h2
          obtain ⟨e1, e2, e3, e4, e5, e6⟩ := hd_fields _ _ hhd2
          refine ⟨c', hr'q, e1, e2, e3, e4, e6, hcnt, hdep, ?_, ?_⟩
          · intro hneg
            rw [e5]
          · intro hpos
            refine ⟨c.pt.toNat, by rw [e5]; exact (Int.toNat_of_nonneg hpos).symm, ?_⟩
            have hne1 : c.pt.toNat ≠ oldpos := by
              intro he
              apply hu
              rw [honly_old q c hc hpos he]
              exact locUnder_self act
            have hne2 : c.pt.toNat ≠ r.particles.length - 1 :=
              fun he => hqcl (honly_last q c hc hpos he)
            rw [hp', hgother _ hne1 hne2]
      · have hceq : getCellAt r' q = getCellAt r q := by
          rw [hoffact q hu ha]
          exact getCellAt_modifyCellAt_other r cl _ q hu2 ha2
        refine ⟨c, by rw [hceq]; exact hc, rfl, rfl, rfl, rfl, rfl, rfl, rfl,
          fun _ => rfl, ?_⟩
        intro hpt
        refine ⟨c.pt.toNat, (Int.toNat_of_nonneg hpt).symm, ?_⟩
        have hne1 : c.pt.toNat ≠ oldpos := by
          intro he
          apply hu
          rw [honly_old q c hc hpt he]
          exact locUnder_self act
        have hne2 : c.pt.toNat ≠ r.particles.length - 1 :=
          fun he => hqcl (honly_last q c hc hpt he)
        rw [hp', hgother _ hne1 hne2]
  exact ⟨⟨hInv1, hInv2, hStruct⟩, hlen2, hdead, hanc, hUnrel, Or.inl hactnone⟩

theorem evict_mstep (r : Rebound) (act : Loc) (node : Cell)
    (hInv : GInvQ r)
    (hnode : getCellAt r act = some node) (hleaf : 0 ≤ node.pt)
    (r' : Rebound) (hr' : r' = setCellAt (tree_evict r node.pt.toNat) act none) :
    MStep r r' act := by
  obtain ⟨hoplen, hopc⟩ := hInv.1 act node hnode hleaf
  by_cases hfix : node.pt.toNat < r.N_tree_fixed
  · rw [evict_fixed_id r _ hfix] at hr'
    rw [hr']
    exact prune_mstep r act hInv
  · have hge : r.N_tree_fixed ≤ node.pt.toNat := not_lt.mp hfix
    by_cases hlast : node.pt.toNat = r.particles.length - 1
    · have hv : Int.ofNat node.pt.toNat = node.pt := by
        rw [Int.ofNat_eq_natCast]
        exact Int.toNat_of_nonneg hleaf
      rw [evict_last_id r node.pt.toNat node.pt hv node act hnode rfl hopc hge
        hlast hoplen] at hr'
      rw [hr']
      exact prune_mstep r act hInv
    · have hlt : node.pt.toNat < r.particles.length - 1 := by omega
      have hop : node.pt = Int.ofNat node.pt.toNat := by
        rw [Int.ofNat_eq_natCast]
        exact (Int.toNat_of_nonneg hleaf).symm
      cases hswc : (r.particles.getD (r.particles.length - 1) default).c with
      | none =>
        rw [evict_swap_eq_none r node.pt.toNat hge hswc] at hr'
        exact evict_perm_mstep r act node node.pt.toNat hInv hnode hleaf hop hlt
          (fun q hq => by rw [hswc] at hq; cases hq) _ r' rfl hr'
      | some cl =>
        cases hccl : getCellAt r cl with
        | none =>
          rw [evict_swap_eq_some r node.pt.toNat hge cl hswc] at hr'
          rw [modifyCellAt_dead r cl _ hccl] at hr'
          refine evict_perm_mstep r act node node.pt.toNat hInv hnode hleaf hop hlt
            ?_ _ r' rfl hr'
          intro q hq
          rw [hswc] at hq
          rcases Option.some.inj hq with rfl
          exact hccl
        | some ccl =>
          rw [evict_swap_eq_some r node.pt.toNat hge cl hswc] at hr'
          exact evict_live_mstep r act node node.pt.toNat hInv hnode hleaf hop hlt
            cl ccl hswc hccl _ r' rfl hr'

theorem MStep_of_dead (r : Rebound) (loc : Loc) (hInv : GInvQ r)
    (hdead : getCellAt r loc = none) : MStep r r loc :=
  ⟨hInv, rfl, fun _ hq => hq, fun _ _ => rfl,
   fun q _ _ => UnrelPres_of_eq r r q rfl (fun _ => rfl), Or.inl hdead⟩

theorem depthO_getD_le : ∀ (l : List (Option Cell)) (o : ℕ),
    depthO (l.getD o none) ≤ depthList l := by
  intro l
  induction l with
  | nil =>
    intro o
    simp [depthO]
  | cons x t ih =>
    intro o
    rw [depthList_cons]
    cases o with
    | zero =>
      rw [List.getD_cons_zero]
      exact le_max_left _ _
    | succ o =>
      rw [List.getD_cons_succ]
      exact le_trans (ih o) (le_max_right _ _)

theorem depthList_le_of_pointwise : ∀ (l l' : List (Option Cell)),
    l'.length = l.length →
    (∀ o, depthO (l'.getD o none) ≤ depthO (l.getD o none)) →
    depthList l' ≤ depthList l := by
  intro l
  induction l with
  | nil =>
    intro l' hlen _
    rw [List.length_nil, List.length_eq_zero] at hlen
    rw [hlen]
  | cons x t ih =>
    intro l' hlen h
    cases l' with
    | nil => exact Nat.zero_le _
    | cons x' t' =>
      rw [depthList_cons, depthList_cons]
      have h0 := h 0
      rw [List.getD_cons_zero, List.getD_cons_zero] at h0
      have ht : depthList t' ≤ depthList t := by
        apply ih t' (by simpa using hlen)
        intro o
        have := h (o + 1)
        rwa [List.getD_cons_succ, List.getD_cons_succ] at this
      exact max_le_max h0 ht

theorem locUnder_child_not_anc (loc : Loc) (o : ℕ) (q : Loc)
    (h : locUnder (loc.1, loc.2 ++ [o]) q) : ¬ locAnc q loc := by
  obtain ⟨h1, s, hs⟩ := h
  rintro ⟨h2, x, y, hy⟩
  have hlq := congrArg List.length hs
  have hly := congrArg List.length hy
  simp at hlq hly
  omega

theorem locUnder_child_ne (loc : Loc) (o : ℕ) (q : Loc)
    (h : locUnder (loc.1, loc.2 ++ [o]) q) : q ≠ loc := by
  obtain ⟨h1, s, hs⟩ := h
  intro he
  rw [he] at hs
  have := congrArg List.length hs
  simp at this

theorem sibling_not_under (loc : Loc) (o o' : ℕ) (hne : o ≠ o') (q : Loc)
    (h : locUnder (loc.1, loc.2 ++ [o]) q) :
    ¬ locUnder (loc.1, loc.2 ++ [o']) q := by
  obtain ⟨h1, s, hs⟩ := h
  rintro ⟨h2, s', hs'⟩
  rw [hs] at hs'
  simp only [List.append_assoc, List.cons_append, List.nil_append] at hs'
  have := List.append_cancel_left hs'
  exact hne (List.head_eq_of_cons_eq this)

theorem sibling_not_anc (loc : Loc) (o o' : ℕ) (hne : o ≠ o') (q : Loc)
    (h : locUnder (loc.1, loc.2 ++ [o]) q) :
    ¬ locAnc q (loc.1, loc.2 ++ [o']) := by
  obtain ⟨h1, s, hs⟩ := h
  rintro ⟨h2, x, y, hy⟩
  rw [hs] at hy
  simp only [List.append_assoc, List.cons_append, List.nil_append] at hy
  have := List.append_cancel_left hy
  exact hne (List.head_eq_of_cons_eq this).symm

theorem SubOK_unrel_pres (r r' : Rebound) (base : Loc)
    (hdead : ∀ q, getCellAt r q = none → getCellAt r' q = none)
    (hu : ∀ q, locUnder base q → UnrelPres r r' q)
    (hsub : SubOK r base) : SubOK r' base := by
  constructor
  · intro s c' hc' hneg
    cases hcr : getCellAt r (base.1, base.2 ++ s) with
    | none =>
      rw [hdead _ hcr] at hc'
      cases hc'
    | some c =>
      obtain ⟨c'', hc'', _, _, _, _, _, hcnt, _, hbr, hlf⟩ :=
        hu (base.1, base.2 ++ s) ⟨rfl, s, rfl⟩ c hcr
      have hce : c' = c'' := by
        rw [hc''] at hc'
        exact (Option.some.inj hc').symm
      subst hce
      have hcneg : c.pt < 0 := by
        by_contra hcp
        obtain ⟨j', hj', _⟩ := hlf (not_lt.mp hcp)
        rw [hj'] at hneg
        exact absurd hneg (not_lt.mpr (Int.ofNat_nonneg j'))
      have hpe : c'.pt = c.pt := hbr hcneg
      obtain ⟨hwc, hwc2⟩ := hsub.1 s c hcr hcneg
      have hcl : countLeavesList c.oct = countLeaves c := by
        rw [countLeaves_eq, if_neg (not_le.mpr hcneg)]
      have hcl' : countLeavesList c'.oct = countLeaves c' := by
        rw [countLeaves_eq, if_neg (not_le.mpr hneg)]
      constructor
      · rw [hpe, hwc, hcl, hcl', hcnt]
      · rw [hpe]
        exact hwc2
  · intro s c' hc' hpos
    cases hcr : getCellAt r (base.1, base.2 ++ s) with
    | none =>
      rw [hdead _ hcr] at hc'
      cases hc'
    | some c =>
      obtain ⟨c'', hc'', hx, hy, hz, hw, _, _, _, hbr, hlf⟩ :=
        hu (base.1, base.2 ++ s) ⟨rfl, s, rfl⟩ c hcr
      have hce : c' = c'' := by
        rw [hc''] at hc'
        exact (Option.some.inj hc').symm
      subst hce
      have hcpos : 0 ≤ c.pt := by
        by_contra hcp
        have := hbr (not_le.mp hcp)
        rw [this] at hpos
        exact absurd (not_le.mp hcp) (not_lt.mpr hpos)
      obtain ⟨j', hj', hpe⟩ := hlf hcpos
      have hib := hsub.2 s c hcr hcpos
      have htn : c'.pt.toNat = j' := by
        rw [hj']
        exact Int.toNat_ofNat j'
      rw [htn, hpe, pInside_congr _ _ c hx hy hz hw]
      exact hib

theorem children_fold (fuel : ℕ)
    (IH : ∀ (r : Rebound) (a : Loc), GInvQ r → depthO (getCellAt r a) ≤ fuel →
      MStep r (tree_update_cell r a fuel) a) :
    ∀ (os : List ℕ) (r : Rebound) (loc : Loc), os.Nodup → GInvQ r →
    (∀ o ∈ os, depthO (getCellAt r (loc.1, loc.2 ++ [o])) ≤ fuel) →
    GInvQ (os.foldl (fun acc o => tree_update_cell acc (loc.1, loc.2 ++ [o]) fuel) r) ∧
    (os.foldl (fun acc o => tree_update_cell acc (loc.1, loc.2 ++ [o]) fuel)
      r).particles.length = r.particles.length ∧
    (∀ q, getCellAt r q = none →
      getCellAt (os.foldl (fun acc o => tree_update_cell acc (loc.1, loc.2 ++ [o]) fuel)
        r) q = none) ∧
    (∀ q, (locAnc q loc ∨ q = loc) →
      hdAt (os.foldl (fun acc o => tree_update_cell acc (loc.1, loc.2 ++ [o]) fuel) r) q =
        hdAt r q) ∧
    (∀ q, (∀ o ∈ os, ¬ locUnder (loc.1, loc.2 ++ [o]) q) → ¬ locAnc q loc → q ≠ loc →
      UnrelPres r
        (os.foldl (fun acc o => tree_update_cell acc (loc.1, loc.2 ++ [o]) fuel) r) q) ∧
    (∀ o ∈ os,
      getCellAt (os.foldl (fun acc o => tree_update_cell acc (loc.1, loc.2 ++ [o]) fuel)
        r) (loc.1, loc.2 ++ [o]) = none ∨
      ∃ c c', getCellAt r (loc.1, loc.2 ++ [o]) = some c ∧
        getCellAt (os.foldl (fun acc o => tree_update_cell acc (loc.1, loc.2 ++ [o]) fuel)
          r) (loc.1, loc.2 ++ [o]) = some c' ∧
        c'.x = c.x ∧ c'.y = c.y ∧ c'.z = c.z ∧ c'.w = c.w ∧
        depthCell c' ≤ depthCell c ∧
        SubOK (os.foldl (fun acc o => tree_update_cell acc (loc.1, loc.2 ++ [o]) fuel) r)
          (loc.1, loc.2 ++ [o])) := by
  intro os
  induction os with
  | nil =>
    intro r loc _ hInv _
    exact ⟨hInv, rfl, fun _ hq => hq, fun _ _ => rfl,
      fun q _ _ _ => UnrelPres_of_eq r r q rfl (fun _ => rfl),
      fun o ho => absurd ho (List.not_mem_nil o)⟩
  | cons o os ih =>
    intro r loc hnd hInv hdep
    obtain ⟨hno, hnd2⟩ := List.nodup_cons.mp hnd
    simp only [List.foldl_cons]
    have M1 := IH r (loc.1, loc.2 ++ [o]) hInv
      (hdep o (List.mem_cons_self o os))
    set r1 := tree_update_cell r (loc.1, loc.2 ++ [o]) fuel with hr1
    have hsibne : ∀ o', o' ∈ os → o ≠ o' := fun o' ho' he => hno (he ▸ ho')
    have hsib_unrel : ∀ o', o' ∈ os → UnrelPres r r1 (loc.1, loc.2 ++ [o']) := by
      intro o' ho'
      exact M1.unrel _
        (sibling_not_under loc o' o (fun he => hsibne o' ho' he.symm) _ (locUnder_self _))
        (sibling_not_anc loc o' o (fun he => hsibne o' ho' he.symm) _ (locUnder_self _))
    have hdep1 : ∀ o' ∈ os, depthO (getCellAt r1 (loc.1, loc.2 ++ [o'])) ≤ fuel := by
      intro o' ho'
      cases hcr : getCellAt r (loc.1, loc.2 ++ [o']) with
      | none =>
        rw [M1.dead _ hcr]
        exact Nat.zero_le _
      | some c =>
        obtain ⟨c', hc', _, _, _, _, _, _, hd', _, _⟩ := hsib_unrel o' ho' c hcr
        rw [hc']
        show depthCell c' ≤ fuel
        rw [hd']
        have := hdep o' (List.mem_cons_of_mem _ ho')
        rw [hcr] at this
        exact this
    obtain ⟨G8, P8, D8, H8, U8, O8⟩ := ih r1 loc hnd2 M1.inv hdep1
    have hanc1 : ∀ q, (locAnc q loc ∨ q = loc) → hdAt r1 q = hdAt r q := by
      intro q hq
      rcases hq with hq | rfl
      · exact M1.anc q (locAnc_extend q loc o hq)
      · exact M1.anc q ⟨rfl, o, [], rfl⟩
    refine ⟨G8, P8.trans M1.plen, ?_, ?_, ?_, ?_⟩
    · intro q hq
      exact D8 q (M1.dead q hq)
    · intro q hq
      rw [H8 q hq]
      exact hanc1 q hq
    · intro q hq ha hne
      have h1 : UnrelPres r r1 q := by
        apply M1.unrel q (hq o (List.mem_cons_self o os))
        intro hA
        rcases locAnc_child_cases loc q o hA with h2 | h2
        · exact ha h2
        · exact hne h2
      have h2 : UnrelPres r1
          (os.foldl (fun acc o => tree_update_cell acc (loc.1, loc.2 ++ [o]) fuel) r1) q :=
        U8 q (fun o' ho' => hq o' (List.mem_cons_of_mem _ ho')) ha hne
      exact UnrelPres_trans _ _ _ q h1 h2
    · intro o' ho'
      rcases List.mem_cons.mp ho' with rfl | ho2
      · -- the head child: its step outcome survives the sibling folds
        have hund : ∀ q, locUnder (loc.1, loc.2 ++ [o']) q →
            UnrelPres r1
              (os.foldl (fun acc o => tree_update_cell acc (loc.1, loc.2 ++ [o]) fuel)
                r1) q := by
          intro q hq
          exact U8 q
            (fun o2 ho2 => sibling_not_under loc o' o2 (hsibne o2 ho2) q hq)
            (locUnder_child_not_anc loc o' q hq)
            (locUnder_child_ne loc o' q hq)
        rcases M1.out with hnone | ⟨c, c1, hc, hc1, ex, ey, ez, ew, hdc, hsub1⟩
        · exact Or.inl (D8 _ hnone)
        · obtain ⟨c', hc', ex2, ey2, ez2, ew2, _, _, hdep2, _, _⟩ :=
            hund _ (locUnder_self _) c1 hc1
          refine Or.inr ⟨c, c', hc, hc', ex2.trans ex, ey2.trans ey, ez2.trans ez,
            ew2.trans ew, ?_, ?_⟩
          · rw [hdep2]
            exact hdc
          · exact SubOK_unrel_pres r1 _ _ D8 hund hsub1
      · rcases O8 o' ho2 with hnone | ⟨c1, c', hc1, hc', ex, ey, ez, ew, hdc, hsub⟩
        · exact Or.inl hnone
        · cases hcr : getCellAt r (loc.1, loc.2 ++ [o']) with
          | none =>
            rw [M1.dead _ hcr] at hc1
            cases hc1
          | some c =>
            obtain ⟨c1', hc1', fx, fy, fz, fw, _, _, fdep, _, _⟩ :=
              hsib_unrel o' ho2 c hcr
            have hce : c1' = c1 := by
              rw [hc1'] at hc1
              exact Option.some.inj hc1
            subst hce
            refine Or.inr ⟨c, c', rfl, hc', ex.trans fx, ey.trans fy, ez.trans fz,
              ew.trans fw, ?_, hsub⟩
            rw [fdep] at hdc
            exact hdc

theorem update_branch_mstep (r R8 : Rebound) (loc : Loc) (node node1 : Cell)
    (hInv : GInvQ r)
    (hnode : getCellAt r loc = some node) (hbr : node.pt < 0)
    (G8 : GInvQ R8) (P8 : R8.particles.length = r.particles.length)
    (D8 : ∀ q, getCellAt r q = none → getCellAt R8 q = none)
    (H8 : ∀ q, (locAnc q loc ∨ q = loc) → hdAt R8 q = hdAt r q)
    (U8 : ∀ q, (∀ o ∈ List.range 8, ¬ locUnder (loc.1, loc.2 ++ [o]) q) →
      ¬ locAnc q loc → q ≠ loc → UnrelPres r R8 q)
    (O8 : ∀ o ∈ List.range 8,
      getCellAt R8 (loc.1, loc.2 ++ [o]) = none ∨
      ∃ c c', getCellAt r (loc.1, loc.2 ++ [o]) = some c ∧
        getCellAt R8 (loc.1, loc.2 ++ [o]) = some c' ∧
        c'.x = c.x ∧ c'.y = c.y ∧ c'.z = c.z ∧ c'.w = c.w ∧
        depthCell c' ≤ depthCell c ∧ SubOK R8 (loc.1, loc.2 ++ [o]))
    (hc8 : getCellAt R8 loc = some node1)
    (r' : Rebound)
    (hr' : r' = (if (tree_recompute node1).1 = 0 then setCellAt R8 loc none
      else if (tree_recompute node1).1 = -1 then
        match (tree_recompute node1).2 with
        | some t =>
          match node1.oct.getD t none with
          | some child =>
            setCellAt (setParticleC (modifyCellAt R8 loc (fun n => n.setPt child.pt))
              child.pt.toNat loc) (loc.1, loc.2 ++ [t]) none
          | none => modifyCellAt R8 loc (fun n => n.setPt (tree_recompute node1).1)
        | none => modifyCellAt R8 loc (fun n => n.setPt (tree_recompute node1).1)
      else modifyCellAt R8 loc (fun n => n.setPt (tree_recompute node1).1))) :
    MStep r r' loc := by
  have hn8 := H8 loc (Or.inr rfl)
  have hhd : node1.hd = node.hd := by
    unfold hdAt hdO at hn8
    rw [hc8, hnode] at hn8
    exact Option.some.inj hn8
  obtain ⟨e_x, e_y, e_z, e_w, e_pt, e_len⟩ := hd_fields _ _ hhd
  have hbr1 : node1.pt < 0 := by rw [e_pt]; exact hbr
  have h8len : node1.oct.length = 8 := (G8.2.2 loc node1 hc8).1
  have h8len0 : node.oct.length = 8 := (hInv.2.2 loc node hnode).1
  have hWC : ∀ o d, node1.oct.getD o none = some d → d.pt < 0 →
      d.pt = -(countLeavesList d.oct) ∧ d.pt ≤ -2 := by
    intro o d hd hdneg
    have hslot : getCellAt R8 (loc.1, loc.2 ++ [o]) = some d := by
      rw [getCellAt_child R8 loc node1 o hc8]
      exact hd
    have ho8 : o < 8 := by
      have := getD_lt_length_of_some _ _ _ hd
      omega
    rcases O8 o (List.mem_range.mpr ho8) with hnone | ⟨c, c', hcb, hc', _, _, _, _, _, hsub⟩
    · rw [hnone] at hslot
      cases hslot
    · have hcd : d = c' := by
        rw [hc'] at hslot
        exact (Option.some.inj hslot).symm
      subst hcd
      refine hsub.1 [] d ?_ hdneg
      simp only [List.append_nil]
      exact hslot
  have hrec1 : (tree_recompute node1).1 = -(countLeavesList node1.oct) :=
    recompute_fst_eq node1 h8len (fun o d hd hneg => (hWC o d hd hneg).1)
  have hcnt0 : 0 ≤ countLeavesList node1.oct := countLeavesList_nonneg _
  have hdep1 : depthCell node1 ≤ depthCell node := by
    rw [depthCell_eq, depthCell_eq]
    have hdl : depthList node1.oct ≤ depthList node.oct := by
      apply depthList_le_of_pointwise node.oct node1.oct e_len
      intro o
      by_cases ho8 : o < 8
      · have hsl1 : node1.oct.getD o none = getCellAt R8 (loc.1, loc.2 ++ [o]) := by
          rw [getCellAt_child R8 loc node1 o hc8]
        have hsl : node.oct.getD o none = getCellAt r (loc.1, loc.2 ++ [o]) := by
          rw [getCellAt_child r loc node o hnode]
        rcases O8 o (List.mem_range.mpr ho8) with hnone |
          ⟨c, c', hcb, hc', _, _, _, _, hdc, _⟩
        · rw [hsl1, hnone]
          exact Nat.zero_le _
        · rw [hsl1, hsl, hc', hcb]
          exact hdc
      · rw [List.getD_eq_default _ _ (by omega), List.getD_eq_default _ _ (by omega)]
    omega
  have hstd : ∀ q, ¬ locUnder loc q → ¬ locAnc q loc → UnrelPres r R8 q := by
    intro q hu ha
    exact U8 q (fun o _ ho => hu (locUnder_child_mono loc q o ho)) ha
      (fun he => hu (he ▸ locUnder_self loc))
  by_cases h0 : (tree_recompute node1).1 = 0
  · rw [if_pos h0] at hr'
    subst hr'
    exact ⟨prune_GInv R8 loc G8, P8,
      fun q hq => dead_setCellAt R8 loc q (D8 q hq),
      fun q hq => (hdAt_setCellAt_anc R8 loc q hq).trans (H8 q (Or.inl hq)),
      fun q hu ha => UnrelPres_trans _ _ _ q (hstd q hu ha)
        (UnrelPres_of_eq R8 _ q (getCellAt_setCellAt_other R8 loc q hu ha)
          (fun _ => rfl)),
      Or.inl (getCellAt_setCellAt_self R8 loc)⟩
  · by_cases h1 : (tree_recompute node1).1 = -1
    · rw [if_neg h0, if_pos h1] at hr'
      obtain ⟨t, child, htest, hchild, hchleaf, hothers⟩ :=
        recompute_minus_one node1 h8len hWC h1
      have ht8 : t < 8 := by
        have := getD_lt_length_of_some _ _ _ hchild
        omega
      have hchslot : getCellAt R8 (loc.1, loc.2 ++ [t]) = some child := by
        rw [getCellAt_child R8 loc node1 t hc8]
        exact hchild
      have hchIB : pInside (R8.particles.getD child.pt.toNat default) child = true := by
        rcases O8 t (List.mem_range.mpr ht8) with hnone |
          ⟨c, c', hcb, hc', _, _, _, _, _, hsub⟩
        · rw [hnone] at hchslot
          cases hchslot
        · have hce : child = c' := by
            rw [hc'] at hchslot
            exact (Option.some.inj hchslot).symm
          rw [hce]
          refine hsub.2 [] c' ?_ ?_
          · simp only [List.append_nil]
            exact hc'
          · rw [← hce]
            exact hchleaf
      have hr'2 : r' = setCellAt (setParticleC (modifyCellAt R8 loc
          (fun n => n.setPt child.pt)) child.pt.toNat loc) (loc.1, loc.2 ++ [t]) none := by
        rw [hr', htest]
        show (match node1.oct.getD t none with
          | some child =>
            setCellAt (setParticleC (modifyCellAt R8 loc (fun n => n.setPt child.pt))
              child.pt.toNat loc) (loc.1, loc.2 ++ [t]) none
          | none => modifyCellAt R8 loc (fun n => n.setPt (tree_recompute node1).1)) =
          setCellAt (setParticleC (modifyCellAt R8 loc (fun n => n.setPt child.pt))
            child.pt.toNat loc) (loc.1, loc.2 ++ [t]) none
        rw [hchild]
      obtain ⟨C1, C2, C3, C4, C5, C6, C7, C8⟩ :=
        collapse_spec R8 loc node1 child t G8 hc8 hbr1 hchild hchleaf hothers hchIB
          r' hr'2
      refine ⟨C1, C2.trans P8, fun q hq => C3 q (D8 q hq),
        fun q hq => (C4 q hq).trans (H8 q (Or.inl hq)),
        fun q hu ha => UnrelPres_trans _ _ _ q (hstd q hu ha) (C5 q hu ha),
        Or.inr ⟨node, (node1.setPt child.pt).setOct t none, hnode, C6,
          by simpa using e_x, by simpa using e_y, by simpa using e_z,
          by simpa using e_w, le_trans C7 hdep1, C8⟩⟩
    · rw [if_neg h0, if_neg h1] at hr'
      have hs1neg : (tree_recompute node1).1 < 0 := by omega
      have hs1le : (tree_recompute node1).1 ≤ -2 := by omega
      have hbrc : ∀ c, getCellAt R8 loc = some c → c.pt < 0 := by
        intro c hc
        rw [hc8] at hc
        rw [← Option.some.inj hc]
        exact hbr1
      have hfoct2 : ∀ c : Cell,
          ((fun n : Cell => n.setPt (tree_recompute node1).1) c).oct = c.oct :=
        fun c => Cell.oct_setPt c _
      have hdeq : depthCell (node1.setPt (tree_recompute node1).1) = depthCell node1 := by
        rw [depthCell_eq, depthCell_eq, Cell.oct_setPt]
      subst hr'
      refine ⟨write_GInv R8 loc _ hs1neg hbrc G8, P8,
        fun q hq => dead_modifyCellAt R8 loc _ hfoct2 q (D8 q hq),
        fun q hq => (hdAt_modifyCellAt_ne R8 loc _ hfoct2 q (locAnc_ne q loc hq)).trans
          (H8 q (Or.inl hq)),
        fun q hu ha => UnrelPres_trans _ _ _ q (hstd q hu ha)
          (UnrelPres_of_eq R8 _ q (getCellAt_modifyCellAt_other R8 loc _ q hu ha)
            (fun _ => rfl)),
        Or.inr ⟨node, node1.setPt (tree_recompute node1).1, hnode, ?_,
          by simpa using e_x, by simpa using e_y, by simpa using e_z,
          by simpa using e_w, by rw [hdeq]; exact hdep1, ?_, ?_⟩⟩
      · rw [getCellAt_modifyCellAt_self, hc8]
        rfl
      · intro s c hc hneg
        cases s with
        | nil =>
          have hpe : ((loc.1, loc.2 ++ ([] : List ℕ)) : Loc) = loc :=
            loc_eq _ _ rfl (by simp)
          rw [hpe, getCellAt_modifyCellAt_self, hc8] at hc
          have hce : node1.setPt (tree_recompute node1).1 = c := Option.some.inj hc
          rw [← hce]
          constructor
          · rw [Cell.pt_setPt, Cell.oct_setPt]
            exact hrec1
          · rw [Cell.pt_setPt]
            exact hs1le
        | cons o s2 =>
          rw [getCellAt_modifyCellAt_under R8 loc _ hfoct2 o s2] at hc
          have he : ((loc.1, loc.2 ++ o :: s2) : Loc) =
              ((loc.1, loc.2 ++ [o]).1, (loc.1, loc.2 ++ [o]).2 ++ s2) := by simp
          by_cases ho8 : o < 8
          · rcases O8 o (List.mem_range.mpr ho8) with hnone |
              ⟨c0, c0', hcb, hc0', _, _, _, _, _, hsub⟩
            · exfalso
              rw [he, getCellAt_none_extend R8 _ s2 hnone] at hc
              cases hc
            · rw [he] at hc
              exact hsub.1 s2 c hc hneg
          · exfalso
            have hslotn : getCellAt R8 (loc.1, loc.2 ++ [o]) = none := by
              rw [getCellAt_child R8 loc node1 o hc8]
              exact List.getD_eq_default _ _ (by omega)
            rw [he, getCellAt_none_extend R8 _ s2 hslotn] at hc
            cases hc
      · intro s c hc hpos
        cases s with
        | nil =>
          exfalso
          have hpe : ((loc.1, loc.2 ++ ([] : List ℕ)) : Loc) = loc :=
            loc_eq _ _ rfl (by simp)
          rw [hpe, getCellAt_modifyCellAt_self, hc8] at hc
          have hce : node1.setPt (tree_recompute node1).1 = c := Option.some.inj hc
          rw [← hce, Cell.pt_setPt] at hpos
          omega
        | cons o s2 =>
          rw [getCellAt_modifyCellAt_under R8 loc _ hfoct2 o s2] at hc
          have he : ((loc.1, loc.2 ++ o :: s2) : Loc) =
              ((loc.1, loc.2 ++ [o]).1, (loc.1, loc.2 ++ [o]).2 ++ s2) := by simp
          by_cases ho8 : o < 8
          · rcases O8 o (List.mem_range.mpr ho8) with hnone |
              ⟨c0, c0', hcb, hc0', _, _, _, _, _, hsub⟩
            · exfalso
              rw [he, getCellAt_none_extend R8 _ s2 hnone] at hc
              cases hc
            · rw [he] at hc
              exact hsub.2 s2 c hc hpos
          · exfalso
            have hslotn : getCellAt R8 (loc.1, loc.2 ++ [o]) = none := by
              rw [getCellAt_child R8 loc node1 o hc8]
              exact List.getD_eq_default _ _ (by omega)
            rw [he, getCellAt_none_extend R8 _ s2 hslotn] at hc
            cases hc

theorem update_cell_mstep : ∀ (fuel : ℕ) (r : Rebound) (loc : Loc),
    GInvQ r → depthO (getCellAt r loc) ≤ fuel →
    MStep r (tree_update_cell r loc fuel) loc := by
  intro fuel
  induction fuel with
  | zero =>
    intro r loc hInv hdep
    cases hc : getCellAt r loc with
    | none => exact MStep_of_dead r loc hInv hc
    | some c =>
      exfalso
      rw [hc] at hdep
      have h2 : 1 + depthList c.oct ≤ 0 := by
        rw [← depthCell_eq c]
        exact hdep
      omega
  | succ fuel IH =>
    intro r loc hInv hdep
    cases hnode : getCellAt r loc with
    | none =>
      have hstep : tree_update_cell r loc (fuel + 1) = r := by
        unfold tree_update_cell
        rw [hnode]
      rw [hstep]
      exact MStep_of_dead r loc hInv hnode
    | some node =>
      by_cases hbr : node.pt < 0
      · have hdepc : ∀ o ∈ List.range 8,
            depthO (getCellAt r (loc.1, loc.2 ++ [o])) ≤ fuel := by
          intro o _
          have hsl : getCellAt r (loc.1, loc.2 ++ [o]) = node.oct.getD o none :=
            getCellAt_child r loc node o hnode
          rw [hsl]
          have h1 : depthO (node.oct.getD o none) ≤ depthList node.oct :=
            depthO_getD_le _ o
          have h2 : depthCell node ≤ fuel + 1 := by
            rw [hnode] at hdep
            exact hdep
          rw [depthCell_eq] at h2
          omega
        obtain ⟨G8, P8, D8, H8, U8, O8⟩ := children_fold fuel IH (List.range 8) r loc
          (List.nodup_range 8) hInv hdepc
        have hn8 := H8 loc (Or.inr rfl)
        cases hc8 : getCellAt ((List.range 8).foldl
            (fun acc o => tree_update_cell acc (loc.1, loc.2 ++ [o]) fuel) r) loc with
        | none =>
          exfalso
          unfold hdAt hdO at hn8
          rw [hc8, hnode] at hn8
          cases hn8
        | some node1 =>
          apply update_branch_mstep r _ loc node node1 hInv hnode hbr G8 P8 D8 H8 U8
            O8 hc8
          rw [tree_update_cell]
          simp only [hnode]
          rw [if_pos hbr]
          simp only [hc8]
      · have hleaf : 0 ≤ node.pt := not_lt.mp hbr
        obtain ⟨hoplen, hopc⟩ := hInv.1 loc node hnode hleaf
        by_cases hin : tree_particle_is_inside_cell r node = true
        · have hstep : tree_update_cell r loc (fuel + 1) = r := by
            unfold tree_update_cell
            simp only [hnode]
            rw [if_neg hbr, if_pos hin]
            exact setParticleC_self r node.pt.toNat loc hopc
          rw [hstep]
          refine ⟨hInv, rfl, fun _ hq => hq, fun _ _ => rfl,
            fun q _ _ => UnrelPres_of_eq r r q rfl (fun _ => rfl),
            Or.inr ⟨node, node, hnode, hnode, rfl, rfl, rfl, rfl, le_refl _, ?_, ?_⟩⟩
          · intro s c hc hneg
            cases s with
            | nil =>
              exfalso
              have hpe : ((loc.1, loc.2 ++ ([] : List ℕ)) : Loc) = loc :=
                loc_eq _ _ rfl (by simp)
              rw [hpe, hnode] at hc
              have hce := Option.some.inj hc
              rw [← hce] at hneg
              omega
            | cons o s2 =>
              exfalso
              rw [leaf_below_dead r hInv.2.2 loc node hnode hleaf o s2] at hc
              cases hc
          · intro s c hc hpos
            cases s with
            | nil =>
              have hpe : ((loc.1, loc.2 ++ ([] : List ℕ)) : Loc) = loc :=
                loc_eq _ _ rfl (by simp)
              rw [hpe, hnode] at hc
              have hce := Option.some.inj hc
              rw [← hce]
              exact hin
            | cons o s2 =>
              exfalso
              rw [leaf_below_dead r hInv.2.2 loc node hnode hleaf o s2] at hc
              cases hc
        · have hstep : tree_update_cell r loc (fuel + 1) =
              setCellAt (tree_evict r node.pt.toNat) loc none := by
            unfold tree_update_cell
            simp only [hnode]
            rw [if_neg hbr, if_neg hin]
          rw [hstep]
          exact evict_mstep r loc node hInv hnode hleaf _ rfl

theorem locUnder_root (i : ℕ) (q : Loc) : locUnder (i, []) q ↔ q.1 = i := by
  constructor
  · rintro ⟨h1, s, hs⟩
    exact h1.symm
  · intro h
    exact ⟨h.symm, q.2, rfl⟩

theorem locAnc_root (q : Loc) (i : ℕ) : ¬ locAnc q (i, []) := by
  rintro ⟨h1, o, s, hs⟩
  have := congrArg List.length hs
  simp at this
  omega

theorem roots_fold (fuel : ℕ) : ∀ (is : List ℕ), is.Nodup → ∀ (r : Rebound), GInvQ r →
    (∀ i ∈ is, depthO (getCellAt r (i, [])) ≤ fuel) →
    GInvQ (is.foldl (fun acc i => tree_update_cell acc (i, []) fuel) r) ∧
    (is.foldl (fun acc i => tree_update_cell acc (i, []) fuel) r).particles.length =
      r.particles.length ∧
    (∀ q, getCellAt r q = none →
      getCellAt (is.foldl (fun acc i => tree_update_cell acc (i, []) fuel) r) q = none) ∧
    (∀ q, q.1 ∉ is →
      UnrelPres r (is.foldl (fun acc i => tree_update_cell acc (i, []) fuel) r) q) ∧
    (∀ i ∈ is, SubOK (is.foldl (fun acc i => tree_update_cell acc (i, []) fuel) r) (i, [])) ∧
    (∀ i ∈ is, depthO (getCellAt
        (is.foldl (fun acc i => tree_update_cell acc (i, []) fuel) r) (i, [])) ≤
      depthO (getCellAt r (i, []))) := by
  intro is
  induction is with
  | nil =>
    intro _ r hInv _
    exact ⟨hInv, rfl, fun _ hq => hq,
      fun q _ => UnrelPres_of_eq r r q rfl (fun _ => rfl),
      fun i hi => absurd hi (List.not_mem_nil i),
      fun i hi => absurd hi (List.not_mem_nil i)⟩
  | cons i is ih =>
    intro hnd r hInv hdep
    obtain ⟨hni, hnd2⟩ := List.nodup_cons.mp hnd
    simp only [List.foldl_cons]
    have M1 := update_cell_mstep fuel r (i, []) hInv (hdep i (List.mem_cons_self i is))
    set r1 := tree_update_cell r (i, []) fuel with hr1
    have hsib_unrel : ∀ q : Loc, q.1 ≠ i → UnrelPres r r1 q := by
      intro q hq
      exact M1.unrel q (fun hu => hq ((locUnder_root i q).mp hu)) (locAnc_root q i)
    have hdep1 : ∀ j ∈ is, depthO (getCellAt r1 (j, [])) ≤ fuel := by
      intro j hj
      have hji : j ≠ i := fun he => hni (he ▸ hj)
      cases hcr : getCellAt r (j, []) with
      | none =>
        rw [M1.dead _ hcr]
        exact Nat.zero_le _
      | some c =>
        obtain ⟨c', hc', _, _, _, _, _, _, hd', _, _⟩ := hsib_unrel (j, []) hji c hcr
        rw [hc']
        show depthCell c' ≤ fuel
        rw [hd']
        have := hdep j (List.mem_cons_of_mem _ hj)
        rw [hcr] at this
        exact this
    obtain ⟨G, P, D, U, S, DP⟩ := ih hnd2 r1 M1.inv hdep1
    refine ⟨G, P.trans M1.plen, fun q hq => D q (M1.dead q hq), ?_, ?_, ?_⟩
    · intro q hq
      have hqi : q.1 ≠ i := fun he => hq (he ▸ List.mem_cons_self i is)
      exact UnrelPres_trans _ _ _ q (hsib_unrel q hqi)
        (U q (fun hm => hq (List.mem_cons_of_mem _ hm)))
    · intro j hj
      rcases List.mem_cons.mp hj with rfl | hj2
      · have hund : ∀ q, locUnder (j, []) q →
            UnrelPres r1 (is.foldl (fun acc i => tree_update_cell acc (i, []) fuel) r1)
              q := by
          intro q hq
          have hq1 : q.1 = j := (locUnder_root j q).mp hq
          exact U q (fun hm => hni (hq1 ▸ hm))
        rcases M1.out with hnone | ⟨c, c', hc, hc', _, _, _, _, _, hsub1⟩
        · constructor
          · intro s c hc hneg
            exfalso
            have h2 : getCellAt r1 ((j, []).1, (j, []).2 ++ s) = none :=
              getCellAt_none_extend r1 (j, []) s hnone
            rw [D _ h2] at hc
            cases hc
          · intro s c hc hpos
            exfalso
            have h2 : getCellAt r1 ((j, []).1, (j, []).2 ++ s) = none :=
              getCellAt_none_extend r1 (j, []) s hnone
            rw [D _ h2] at hc
            cases hc
        · exact SubOK_unrel_pres r1 _ (j, []) D hund hsub1
      · exact S j hj2
    · intro j hj
      rcases List.mem_cons.mp hj with rfl | hj2
      · rcases M1.out with hnone | ⟨c, c', hc, hc', _, _, _, _, hdc, _⟩
        · rw [D _ hnone]
          exact Nat.zero_le _
        · have hjni : (j, ([] : List ℕ)).1 ∉ is := hni
          obtain ⟨c'', hc'', _, _, _, _, _, _, hd2, _, _⟩ := U (j, []) hjni c' hc'
          rw [hc'', hc]
          show depthCell c'' ≤ depthCell c
          rw [hd2]
          exact hdc
      · have hji : j ≠ i := fun he => hni (he ▸ hj2)
        refine le_trans (DP j hj2) ?_
        cases hcr : getCellAt r (j, []) with
        | none =>
          rw [M1.dead _ hcr]
        | some c =>
          obtain ⟨c', hc', _, _, _, _, _, _, hd', _, _⟩ := hsib_unrel (j, []) hji c hcr
          rw [hc']
          show depthCell c' ≤ depthCell c
          rw [hd']

theorem tree_evict_frame (r : Rebound) (p : ℕ) :
    (tree_evict r p).tree_root.length = r.tree_root.length ∧
    (tree_evict r p).root_nx = r.root_nx ∧
    (tree_evict r p).root_ny = r.root_ny ∧
    (tree_evict r p).root_nz = r.root_nz := by
  by_cases h : p < r.N_tree_fixed
  · rw [evict_fixed_id r p h]
    exact ⟨rfl, rfl, rfl, rfl⟩
  · have hge := not_lt.mp h
    cases hc : (r.particles.getD (r.particles.length - 1) default).c with
    | none =>
      rw [evict_swap_eq_none r p hge hc]
      exact ⟨rfl, rfl, rfl, rfl⟩
    | some cl =>
      rw [evict_swap_eq_some r p hge cl hc]
      exact ⟨List.length_set _ _ _, rfl, rfl, rfl⟩

theorem frame_branch (R8 : Rebound) (loc : Loc) (node1 : Cell)
    (r' : Rebound)
    (hr' : r' = (if (tree_recompute node1).1 = 0 then setCellAt R8 loc none
      else if (tree_recompute node1).1 = -1 then
        match (tree_recompute node1).2 with
        | some t =>
          match node1.oct.getD t none with
          | some child =>
            setCellAt (setParticleC (modifyCellAt R8 loc (fun n => n.setPt child.pt))
              child.pt.toNat loc) (loc.1, loc.2 ++ [t]) none
          | none => modifyCellAt R8 loc (fun n => n.setPt (tree_recompute node1).1)
        | none => modifyCellAt R8 loc (fun n => n.setPt (tree_recompute node1).1)
      else modifyCellAt R8 loc (fun n => n.setPt (tree_recompute node1).1))) :
    r'.tree_root.length = R8.tree_root.length ∧ r'.root_nx = R8.root_nx ∧
    r'.root_ny = R8.root_ny ∧ r'.root_nz = R8.root_nz := by
  by_cases h0 : (tree_recompute node1).1 = 0
  · rw [if_pos h0] at hr'
    subst hr'
    exact ⟨List.length_set _ _ _, rfl, rfl, rfl⟩
  · by_cases h1 : (tree_recompute node1).1 = -1
    · rw [if_neg h0, if_pos h1] at hr'
      cases ht : (tree_recompute node1).2 with
      | none =>
        rw [ht] at hr'
        subst hr'
        exact ⟨List.length_set _ _ _, rfl, rfl, rfl⟩
      | some t =>
        rw [ht] at hr'
        have hr'2 : r' = (match node1.oct.getD t none with
          | some child =>
            setCellAt (setParticleC (modifyCellAt R8 loc (fun n => n.setPt child.pt))
              child.pt.toNat loc) (loc.1, loc.2 ++ [t]) none
          | none => modifyCellAt R8 loc (fun n => n.setPt (tree_recompute node1).1)) :=
          hr'
        cases hch : node1.oct.getD t none with
        | none =>
          rw [hch] at hr'2
          subst hr'2
          exact ⟨List.length_set _ _ _, rfl, rfl, rfl⟩
        | some child =>
          rw [hch] at hr'2
          subst hr'2
          refine ⟨?_, rfl, rfl, rfl⟩
          show ((setParticleC (modifyCellAt R8 loc (fun n => n.setPt child.pt))
            child.pt.toNat loc).tree_root.set loc.1 _).length = _
          rw [List.length_set]
          exact List.length_set _ _ _
    · rw [if_neg h0, if_neg h1] at hr'
      subst hr'
      exact ⟨List.length_set _ _ _, rfl, rfl, rfl⟩

theorem update_cell_frame : ∀ (fuel : ℕ) (r : Rebound) (loc : Loc),
    (tree_update_cell r loc fuel).tree_root.length = r.tree_root.length ∧
    (tree_update_cell r loc fuel).root_nx = r.root_nx ∧
    (tree_update_cell r loc fuel).root_ny = r.root_ny ∧
    (tree_update_cell r loc fuel).root_nz = r.root_nz := by
  intro fuel
  induction fuel with
  | zero => intro r loc; exact ⟨rfl, rfl, rfl, rfl⟩
  | succ fuel IH =>
    intro r loc
    have hfold : ∀ (os : List ℕ) (r0 : Rebound),
        ((os.foldl (fun acc o => tree_update_cell acc (loc.1, loc.2 ++ [o]) fuel)
          r0)).tree_root.length = r0.tree_root.length ∧
        ((os.foldl (fun acc o => tree_update_cell acc (loc.1, loc.2 ++ [o]) fuel)
          r0)).root_nx = r0.root_nx ∧
        ((os.foldl (fun acc o => tree_update_cell acc (loc.1, loc.2 ++ [o]) fuel)
          r0)).root_ny = r0.root_ny ∧
        ((os.foldl (fun acc o => tree_update_cell acc (loc.1, loc.2 ++ [o]) fuel)
          r0)).root_nz = r0.root_nz := by
      intro os
      induction os with
      | nil => intro r0; exact ⟨rfl, rfl, rfl, rfl⟩
      | cons o os ih2 =>
        intro r0
        simp only [List.foldl_cons]
        obtain ⟨a1, a2, a3, a4⟩ := ih2 (tree_update_cell r0 (loc.1, loc.2 ++ [o]) fuel)
        obtain ⟨b1, b2, b3, b4⟩ := IH r0 (loc.1, loc.2 ++ [o])
        exact ⟨a1.trans b1, a2.trans b2, a3.trans b3, a4.trans b4⟩
    cases hnode : getCellAt r loc with
    | none =>
      have hstep : tree_update_cell r loc (fuel + 1) = r := by
        unfold tree_update_cell
        rw [hnode]
      rw [hstep]
      exact ⟨rfl, rfl, rfl, rfl⟩
    | some node =>
      by_cases hbr : node.pt < 0
      · obtain ⟨f1, f2, f3, f4⟩ := hfold (List.range 8) r
        cases hc8 : getCellAt ((List.range 8).foldl
            (fun acc o => tree_update_cell acc (loc.1, loc.2 ++ [o]) fuel) r) loc with
        | none =>
          have hstep : tree_update_cell r loc (fuel + 1) = (List.range 8).foldl
              (fun acc o => tree_update_cell acc (loc.1, loc.2 ++ [o]) fuel) r := by
            rw [tree_update_cell]
            simp only [hnode]
            rw [if_pos hbr]
            simp only [hc8]
          rw [hstep]
          exact ⟨f1, f2, f3, f4⟩
        | some node1 =>
          have hstep : tree_update_cell r loc (fuel + 1) =
              (if (tree_recompute node1).1 = 0 then
                setCellAt ((List.range 8).foldl
                  (fun acc o => tree_update_cell acc (loc.1, loc.2 ++ [o]) fuel) r)
                  loc none
              else if (tree_recompute node1).1 = -1 then
                match (tree_recompute node1).2 with
                | some t =>
                  match node1.oct.getD t none with
                  | some child =>
                    setCellAt (setParticleC (modifyCellAt ((List.range 8).foldl
                        (fun acc o => tree_update_cell acc (loc.1, loc.2 ++ [o]) fuel) r)
                        loc (fun n => n.setPt child.pt))
                      child.pt.toNat loc) (loc.1, loc.2 ++ [t]) none
                  | none => modifyCellAt ((List.range 8).foldl
                      (fun acc o => tree_update_cell acc (loc.1, loc.2 ++ [o]) fuel) r)
                      loc (fun n => n.setPt (tree_recompute node1).1)
                | none => modifyCellAt ((List.range 8).foldl
                    (fun acc o => tree_update_cell acc (loc.1, loc.2 ++ [o]) fuel) r)
                    loc (fun n => n.setPt (tree_recompute node1).1)
              else modifyCellAt ((List.range 8).foldl
                  (fun acc o => tree_update_cell acc (loc.1, loc.2 ++ [o]) fuel) r)
                  loc (fun n => n.setPt (tree_recompute node1).1)) := by
            rw [tree_update_cell]
            simp only [hnode]
            rw [if_pos hbr]
            simp only [hc8]
          obtain ⟨g1, g2, g3, g4⟩ := frame_branch _ loc node1 _ hstep
          exact ⟨g1.trans f1, g2.trans f2, g3.trans f3, g4.trans f4⟩
      · by_cases hin : tree_particle_is_inside_cell r node = true
        · have hstep : tree_update_cell r loc (fuel + 1) =
              setParticleC r node.pt.toNat loc := by
            rw [tree_update_cell]
            simp only [hnode]
            rw [if_neg hbr, if_pos hin]
          rw [hstep]
          exact ⟨rfl, rfl, rfl, rfl⟩
        · have hstep : tree_update_cell r loc (fuel + 1) =
              setCellAt (tree_evict r node.pt.toNat) loc none := by
            rw [tree_update_cell]
            simp only [hnode]
            rw [if_neg hbr, if_neg hin]
          rw [hstep]
          obtain ⟨e1, e2, e3, e4⟩ := tree_evict_frame r node.pt.toNat
          exact ⟨(List.length_set _ _ _).trans e1, e2, e3, e4⟩

theorem getCellAt_alloc_none (r : Rebound) (n : ℕ) (q : Loc) :
    getCellAt { r with tree_root := List.replicate n none } q = none := by
  unfold getCellAt
  have h : (List.replicate n (none : Option Cell)).getD q.1 none = none := by
    rcases lt_or_le q.1 n with h | h
    · rw [List.getD_eq_getElem _ _ (by simpa using h)]
      simp
    · rw [List.getD_eq_default _ _ (by simpa using h)]
  show getPath ((List.replicate n none).getD q.1 none) q.2 = none
  rw [h, getPath_none]

theorem GInvQ_alloc (r : Rebound) (n : ℕ) :
    GInvQ { r with tree_root := List.replicate n none } := by
  refine ⟨?_, ?_, ?_⟩
  · intro q c hq
    rw [getCellAt_alloc_none] at hq
    cases hq
  · intro i hi loc hloc
    exact Or.inl (getCellAt_alloc_none r n loc)
  · intro q c hq
    rw [getCellAt_alloc_none] at hq
    cases hq

theorem SubOK_of_dead (F : Rebound) (b : Loc) (h : getCellAt F b = none) :
    SubOK F b := by
  constructor
  · intro s c hc _
    exfalso
    rw [getCellAt_none_extend F b s h] at hc
    cases hc
  · intro s c hc _
    exfalso
    rw [getCellAt_none_extend F b s h] at hc
    cases hc

theorem root_dead_of_ge_length (r : Rebound) (i : ℕ)
    (h : r.tree_root.length ≤ i) : getCellAt r (i, []) = none := by
  unfold getCellAt
  show getPath (r.tree_root.getD i none) [] = none
  rw [List.getD_eq_default _ _ h, getPath_nil]

theorem tree_update_post (r : Rebound) (fuel : ℕ) (hInv : GInvQ r)
    (hlen : r.tree_root.length ≤ r.root_nx * r.root_ny * r.root_nz)
    (hdep : ∀ i : ℕ, depthO (getCellAt r (i, [])) ≤ fuel) :
    GInvQ (tree_update r fuel) ∧
    (∀ i : ℕ, SubOK (tree_update r fuel) (i, [])) ∧
    (tree_update r fuel).particles.length = r.particles.length := by
  by_cases hE : r.tree_root.isEmpty
  · have hstep : tree_update r fuel =
        (List.range (r.root_nx * r.root_ny * r.root_nz)).foldl
          (fun acc i => tree_update_cell acc (i, []) fuel)
          { r with tree_root :=
            List.replicate (r.root_nx * r.root_ny * r.root_nz) none } := by
      unfold tree_update
      rw [if_pos hE]
    have hAdead : ∀ q, getCellAt
        { r with tree_root := List.replicate (r.root_nx * r.root_ny * r.root_nz) none }
        q = none :=
      getCellAt_alloc_none r _
    obtain ⟨G, P, D, U, S, DP⟩ := roots_fold fuel
      (List.range (r.root_nx * r.root_ny * r.root_nz))
      (List.nodup_range _) _ (GInvQ_alloc r _)
      (fun i _ => by rw [hAdead]; exact Nat.zero_le _)
    rw [hstep]
    refine ⟨G, ?_, P⟩
    intro i
    rcases lt_or_le i (r.root_nx * r.root_ny * r.root_nz) with hi | hi
    · exact S i (List.mem_range.mpr hi)
    · exact SubOK_of_dead _ _ (D (i, []) (hAdead (i, [])))
  · have hstep : tree_update r fuel =
        (List.range (r.root_nx * r.root_ny * r.root_nz)).foldl
          (fun acc i => tree_update_cell acc (i, []) fuel) r := by
      unfold tree_update
      rw [if_neg hE]
    obtain ⟨G, P, D, U, S, DP⟩ := roots_fold fuel
      (List.range (r.root_nx * r.root_ny * r.root_nz))
      (List.nodup_range _) r hInv (fun i _ => hdep i)
    rw [hstep]
    refine ⟨G, ?_, P⟩
    intro i
    rcases lt_or_le i (r.root_nx * r.root_ny * r.root_nz) with hi | hi
    · exact S i (List.mem_range.mpr hi)
    · exact SubOK_of_dead _ _ (D (i, []) (root_dead_of_ge_length r i (by omega)))

theorem tree_update_WC (r : Rebound) (fuel : ℕ) (hInv : GInvQ r)
    (hlen : r.tree_root.length ≤ r.root_nx * r.root_ny * r.root_nz)
    (hdep : ∀ i : ℕ, depthO (getCellAt r (i, [])) ≤ fuel) :
    ∀ q c, getCellAt (tree_update r fuel) q = some c → c.pt < 0 →
      c.pt = -(countLeavesList c.oct) ∧ c.pt ≤ -2 := by
  obtain ⟨G, S, P⟩ := tree_update_post r fuel hInv hlen hdep
  intro q c hc hneg
  exact (S q.1).1 q.2 c hc hneg

theorem tree_update_IB (r : Rebound) (fuel : ℕ) (hInv : GInvQ r)
    (hlen : r.tree_root.length ≤ r.root_nx * r.root_ny * r.root_nz)
    (hdep : ∀ i : ℕ, depthO (getCellAt r (i, [])) ≤ fuel) :
    ∀ q c, getCellAt (tree_update r fuel) q = some c → 0 ≤ c.pt →
      pInside ((tree_update r fuel).particles.getD c.pt.toNat default) c = true := by
  obtain ⟨G, S, P⟩ := tree_update_post r fuel hInv hlen hdep
  intro q c hc hpos
  exact (S q.1).2 q.2 c hc hpos

/-- C1: immediately after a maintenance pass (`tree_update`, which runs
`tree_update_cell` over every owned root tree), every branch cell's occupancy
tag has magnitude equal to the number of particles held in its subtree, and
the tag equals the sum of its surviving children's contributions, where a
leaf child contributes one and a branch child its own occupancy magnitude
(`octContribution` folds exactly that reading over the eight slots). -/
theorem C1_branch_occupancy (r : Rebound) (fuel : ℕ)
    (hg : goodState r = true)
    (hdep : ∀ i : ℕ, depthO (getCellAt r (i, [])) ≤ fuel) :
    ∀ q c, getCellAt (tree_update r fuel) q = some c → c.pt < 0 →
      -c.pt = countLeavesList c.oct ∧ c.pt = octContribution c := by
  obtain ⟨hlen, hInv⟩ := goodState_spec r hg
  have hWC := tree_update_WC r fuel hInv (le_of_eq hlen) hdep
  obtain ⟨G, S, P⟩ := tree_update_post r fuel hInv (le_of_eq hlen) hdep
  intro q c hc hneg
  obtain ⟨hwc, _⟩ := hWC q c hc hneg
  have h8 : c.oct.length = 8 := (G.2.2 q c hc).1
  have hchildWC : ∀ o ∈ List.range 8, ∀ d, c.oct.getD o none = some d → d.pt < 0 →
      d.pt = -(countLeavesList d.oct) := by
    intro o _ d hd hdneg
    have hq : getCellAt (tree_update r fuel) (q.1, q.2 ++ [o]) = some d := by
      rw [getCellAt_child _ q c o hc]
      exact hd
    exact (hWC _ d hq hdneg).1
  constructor
  · omega
  · unfold octContribution
    rw [foldl_contribStep_eq_sub _ c 0 hchildWC]
    rw [← h8, sum_range_cntSlot]
    omega

/-- C2: after a maintenance pass no branch cell with occupancy 0 or −1
remains in any tree — every surviving branch's occupancy tag is at most −2
(a recomputed-empty branch was freed and a recomputed-singleton branch was
collapsed into a leaf). -/
theorem C2_no_degenerate_branches (r : Rebound) (fuel : ℕ)
    (hg : goodState r = true)
    (hdep : ∀ i : ℕ, depthO (getCellAt r (i, [])) ≤ fuel) :
    ∀ q c, getCellAt (tree_update r fuel) q = some c → c.pt < 0 →
      c.pt ≤ -2 := by
  obtain ⟨hlen, hInv⟩ := goodState_spec r hg
  intro q c hc hneg
  exact (tree_update_WC r fuel hInv (le_of_eq hlen) hdep q c hc hneg).2

/-- C3: after a maintenance pass the trees and the particle array are
mutually consistent — every leaf stores a valid particle index whose
particle's back-reference is exactly that leaf's location, and every live
particle's set back-reference points to a dead location or to a cell tagged
with its own index. -/
theorem C3_mutual_consistency (r : Rebound) (fuel : ℕ)
    (hg : goodState r = true)
    (hdep : ∀ i : ℕ, depthO (getCellAt r (i, [])) ≤ fuel) :
    Inv1Q (tree_update r fuel) ∧ Inv2Q (tree_update r fuel) := by
  obtain ⟨hlen, hInv⟩ := goodState_spec r hg
  obtain ⟨G, S, P⟩ := tree_update_post r fuel hInv (le_of_eq hlen) hdep
  exact ⟨G.1, G.2.1⟩

attribute [local semireducible] Rat.add Rat.mul Rat.inv Rat.sub in
/-- Witness for C1: the occupancy identities of the witness root after a
maintenance pass on the concrete two-particle state. -/
theorem C1_branch_occupancy_witness :
    -wit_root.pt = countLeavesList wit_root.oct ∧
      wit_root.pt = octContribution wit_root :=
  C1_branch_occupancy wit_r2 2 (by decide)
    (fun i => match i with
      | 0 => by decide
      | _ + 1 => Nat.zero_le 2)
    (0, []) wit_root rfl (by decide)

attribute [local semireducible] Rat.add Rat.mul Rat.inv Rat.sub in
/-- Witness for C2: the witness root's occupancy tag is at most −2 after a
maintenance pass on the concrete two-particle state. -/
theorem C2_no_degenerate_branches_witness : wit_root.pt ≤ -2 :=
  C2_no_degenerate_branches wit_r2 2 (by decide)
    (fun i => match i with
      | 0 => by decide
      | _ + 1 => Nat.zero_le 2)
    (0, []) wit_root rfl (by decide)

attribute [local semireducible] Rat.add Rat.mul Rat.inv Rat.sub in
/-- Witness for C3: mutual consistency after a maintenance pass on the
concrete two-particle state. -/
theorem C3_mutual_consistency_witness :
    Inv1Q (tree_update wit_r2 2) ∧ Inv2Q (tree_update wit_r2 2) :=
  C3_mutual_consistency wit_r2 2 (by decide)
    (fun i => match i with
      | 0 => by decide
      | _ + 1 => Nat.zero_le 2)

theorem SubOK_child (r : Rebound) (loc : Loc) (o : ℕ) (h : SubOK r loc) :
    SubOK r (loc.1, loc.2 ++ [o]) := by
  constructor
  · intro s c hc hneg
    refine h.1 (o :: s) c ?_ hneg
    rw [show ((loc.1, loc.2 ++ o :: s) : Loc) =
      ((loc.1, loc.2 ++ [o]).1, (loc.1, loc.2 ++ [o]).2 ++ s) by simp]
    exact hc
  · intro s c hc hpos
    refine h.2 (o :: s) c ?_ hpos
    rw [show ((loc.1, loc.2 ++ o :: s) : Loc) =
      ((loc.1, loc.2 ++ [o]).1, (loc.1, loc.2 ++ [o]).2 ++ s) by simp]
    exact hc

theorem update_cell_id : ∀ (fuel : ℕ) (r : Rebound) (loc : Loc),
    GInvQ r → SubOK r loc → tree_update_cell r loc fuel = r := by
  intro fuel
  induction fuel with
  | zero => intro r loc _ _; rfl
  | succ fuel IH =>
    intro r loc hInv hsub
    cases hnode : getCellAt r loc with
    | none =>
      unfold tree_update_cell
      rw [hnode]
    | some node =>
      by_cases hbr : node.pt < 0
      · have hfold8 : (List.range 8).foldl
            (fun acc o => tree_update_cell acc (loc.1, loc.2 ++ [o]) fuel) r = r := by
          have hid : ∀ o : ℕ, tree_update_cell r (loc.1, loc.2 ++ [o]) fuel = r :=
            fun o => IH r _ hInv (SubOK_child r loc o hsub)
          have : ∀ os : List ℕ, os.foldl
              (fun acc o => tree_update_cell acc (loc.1, loc.2 ++ [o]) fuel) r = r := by
            intro os
            induction os with
            | nil => rfl
            | cons o os ih2 =>
              simp only [List.foldl_cons]
              rw [hid o]
              exact ih2
          exact this (List.range 8)
        have h8 : node.oct.length = 8 := (hInv.2.2 loc node hnode).1
        have hWC : ∀ o d, node.oct.getD o none = some d → d.pt < 0 →
            d.pt = -(countLeavesList d.oct) := by
          intro o d hd hdneg
          refine (hsub.1 [o] d ?_ hdneg).1
          rw [getCellAt_child r loc node o hnode]
          exact hd
        have hrec : (tree_recompute node).1 = -(countLeavesList node.oct) :=
          recompute_fst_eq node h8 hWC
        have hself : node.pt = -(countLeavesList node.oct) ∧ node.pt ≤ -2 := by
          refine hsub.1 [] node ?_ hbr
          rw [show ((loc.1, loc.2 ++ ([] : List ℕ)) : Loc) = loc from
            loc_eq _ _ rfl (by simp)]
          exact hnode
        have hv : (tree_recompute node).1 = node.pt := by
          rw [hrec, hself.1]
        rw [tree_update_cell]
        simp only [hnode]
        rw [if_pos hbr, hfold8]
        simp only [hnode]
        rw [if_neg (by omega : ¬ (tree_recompute node).1 = 0),
          if_neg (by omega : ¬ (tree_recompute node).1 = -1)]
        apply modifyCellAt_congr_id
        intro c hc
        rw [hnode] at hc
        rw [← Option.some.inj hc, hv, Cell.setPt_self]
      · have hleaf : 0 ≤ node.pt := not_lt.mp hbr
        have hin : tree_particle_is_inside_cell r node = true := by
          have := hsub.2 [] node (by
            rw [show ((loc.1, loc.2 ++ ([] : List ℕ)) : Loc) = loc from
              loc_eq _ _ rfl (by simp)]
            exact hnode) hleaf
          exact this
        obtain ⟨_, hopc⟩ := hInv.1 loc node hnode hleaf
        rw [tree_update_cell]
        simp only [hnode]
        rw [if_neg hbr, if_pos hin]
        exact setParticleC_self r node.pt.toNat loc hopc

theorem update_fold_id (fuel : ℕ) : ∀ (is : List ℕ) (r : Rebound), GInvQ r →
    (∀ i ∈ is, SubOK r (i, [])) →
    is.foldl (fun acc i => tree_update_cell acc (i, []) fuel) r = r := by
  intro is
  induction is with
  | nil => intro r _ _; rfl
  | cons i is ih =>
    intro r hInv hS
    simp only [List.foldl_cons]
    rw [update_cell_id fuel r (i, []) hInv (hS i (List.mem_cons_self i is))]
    exact ih r hInv (fun j hj => hS j (List.mem_cons_of_mem _ hj))

theorem tree_update_frame (r : Rebound) (fuel : ℕ)
    (hlen : r.tree_root.length = r.root_nx * r.root_ny * r.root_nz) :
    (tree_update r fuel).tree_root.length = r.root_nx * r.root_ny * r.root_nz ∧
    (tree_update r fuel).root_nx = r.root_nx ∧
    (tree_update r fuel).root_ny = r.root_ny ∧
    (tree_update r fuel).root_nz = r.root_nz := by
  have hfold : ∀ (is : List ℕ) (r0 : Rebound),
      ((is.foldl (fun acc i => tree_update_cell acc (i, []) fuel)
        r0)).tree_root.length = r0.tree_root.length ∧
      ((is.foldl (fun acc i => tree_update_cell acc (i, []) fuel)
        r0)).root_nx = r0.root_nx ∧
      ((is.foldl (fun acc i => tree_update_cell acc (i, []) fuel)
        r0)).root_ny = r0.root_ny ∧
      ((is.foldl (fun acc i => tree_update_cell acc (i, []) fuel)
        r0)).root_nz = r0.root_nz := by
    intro is
    induction is with
    | nil => intro r0; exact ⟨rfl, rfl, rfl, rfl⟩
    | cons i is ih =>
      intro r0
      simp only [List.foldl_cons]
      obtain ⟨a1, a2, a3, a4⟩ := ih (tree_update_cell r0 (i, []) fuel)
      obtain ⟨b1, b2, b3, b4⟩ := update_cell_frame fuel r0 (i, [])
      exact ⟨a1.trans b1, a2.trans b2, a3.trans b3, a4.trans b4⟩
  by_cases hE : r.tree_root.isEmpty
  · have hstep : tree_update r fuel =
        (List.range (r.root_nx * r.root_ny * r.root_nz)).foldl
          (fun acc i => tree_update_cell acc (i, []) fuel)
          { r with tree_root :=
            List.replicate (r.root_nx * r.root_ny * r.root_nz) none } := by
      unfold tree_update
      rw [if_pos hE]
    rw [hstep]
    obtain ⟨a1, a2, a3, a4⟩ := hfold (List.range (r.root_nx * r.root_ny * r.root_nz))
      { r with tree_root := List.replicate (r.root_nx * r.root_ny * r.root_nz) none }
    refine ⟨?_, a2, a3, a4⟩
    rw [a1]
    exact List.length_replicate _ _
  · have hstep : tree_update r fuel =
        (List.range (r.root_nx * r.root_ny * r.root_nz)).foldl
          (fun acc i => tree_update_cell acc (i, []) fuel) r := by
      unfold tree_update
      rw [if_neg hE]
    rw [hstep]
    obtain ⟨a1, a2, a3, a4⟩ := hfold (List.range (r.root_nx * r.root_ny * r.root_nz)) r
    exact ⟨a1.trans hlen, a2, a3, a4⟩

/-- C6: running the maintenance pass twice in a row with no intervening
particle motion leaves the state identical after the second pass — no cell
is freed, collapsed or created and no tag or back-reference changes. -/
theorem C6_idempotent_maintenance (r : Rebound) (fuel : ℕ)
    (hg : goodState r = true)
    (hdep : ∀ i : ℕ, depthO (getCellAt r (i, [])) ≤ fuel) :
    tree_update (tree_update r fuel) fuel = tree_update r fuel := by
  obtain ⟨hlen, hInv⟩ := goodState_spec r hg
  obtain ⟨G, S, P⟩ := tree_update_post r fuel hInv (le_of_eq hlen) hdep
  obtain ⟨hL, hnx, hny, hnz⟩ := tree_update_frame r fuel hlen
  set r' := tree_update r fuel with hr'
  by_cases hn : r.root_nx * r.root_ny * r.root_nz = 0
  · have hL0 : r'.tree_root.length = 0 := by rw [hL, hn]
    have hnil : r'.tree_root = [] := List.length_eq_zero.mp hL0
    have hE : r'.tree_root.isEmpty = true := by
      rw [hnil]
      rfl
    have hn' : r'.root_nx * r'.root_ny * r'.root_nz = 0 := by
      rw [hnx, hny, hnz]
      exact hn
    show tree_update r' fuel = r'
    unfold tree_update
    rw [if_pos hE]
    show (List.range (r'.root_nx * r'.root_ny * r'.root_nz)).foldl
      (fun acc i => tree_update_cell acc (i, []) fuel)
      { r' with tree_root := List.replicate (r'.root_nx * r'.root_ny * r'.root_nz) none } =
      r'
    rw [hn']
    show ({ r' with tree_root := [] } : Rebound) = r'
    rw [← hnil]
  · have hne : r'.tree_root ≠ [] := by
      intro h
      rw [h] at hL
      simp only [List.length_nil] at hL
      exact hn hL.symm
    have hE : ¬ (r'.tree_root.isEmpty = true) := by
      simp only [List.isEmpty_iff]
      exact hne
    show tree_update r' fuel = r'
    unfold tree_update
    rw [if_neg hE]
    exact update_fold_id fuel _ r' G (fun i _ => S i)

/-- C4: during maintenance of a leaf, the particle is evicted exactly when
the containment test fails; the test is true iff all three axis distances
from the particle to the node center are at most the half-width; on eviction
the node's slot is freed, and the particle is handed to the store — re-added
at its old index below the fixed threshold, otherwise removed by
swap-with-last-and-shrink (retagging the swapped particle's leaf to its new
index through its back-reference) and appended as a new particle. -/
theorem C4_leaf_eviction (r : Rebound) (loc : Loc) (node : Cell) (fuel : ℕ)
    (hnode : getCellAt r loc = some node) (hleaf : 0 ≤ node.pt) :
    (tree_particle_is_inside_cell r node = true ↔
      specInside (r.particles.getD node.pt.toNat default)
        node.x node.y node.z node.w) ∧
    (tree_particle_is_inside_cell r node = true →
      tree_update_cell r loc (fuel + 1) = setParticleC r node.pt.toNat loc) ∧
    (tree_particle_is_inside_cell r node = false →
      tree_update_cell r loc (fuel + 1) =
        setCellAt (tree_evict r node.pt.toNat) loc none) ∧
    (node.pt.toNat < r.N_tree_fixed →
      tree_evict r node.pt.toNat =
        particles_add_fixed r (r.particles.getD node.pt.toNat default)
          node.pt.toNat) ∧
    (r.N_tree_fixed ≤ node.pt.toNat → node.pt.toNat < r.particles.length - 1 →
      (tree_evict r node.pt.toNat).particles.length = r.particles.length ∧
      (tree_evict r node.pt.toNat).particles.getD node.pt.toNat default =
        r.particles.getD (r.particles.length - 1) default ∧
      (tree_evict r node.pt.toNat).particles.getD (r.particles.length - 1) default =
        r.particles.getD node.pt.toNat default ∧
      (∀ cl ccl, (r.particles.getD (r.particles.length - 1) default).c = some cl →
        getCellAt r cl = some ccl →
        getCellAt (tree_evict r node.pt.toNat) cl =
          some (ccl.setPt (Int.ofNat node.pt.toNat)))) := by
  refine ⟨?_, ?_, ?_, ?_, ?_⟩
  · exact pInside_iff _ node
  · intro hin
    rw [tree_update_cell]
    simp only [hnode]
    rw [if_neg (not_lt.mpr hleaf), if_pos hin]
  · intro hout
    have hin' : ¬ (tree_particle_is_inside_cell r node = true) := by
      rw [hout]
      exact Bool.false_ne_true
    rw [tree_update_cell]
    simp only [hnode]
    rw [if_neg (not_lt.mpr hleaf), if_neg hin']
  · intro h
    unfold tree_evict
    rw [if_pos h]
  · intro hge hlt
    obtain ⟨a, b, c2, _⟩ := evict_particles_desc r.particles node.pt.toNat hlt _ rfl
    cases hswc : (r.particles.getD (r.particles.length - 1) default).c with
    | none =>
      rw [evict_swap_eq_none r _ hge hswc]
      refine ⟨a, b, c2, ?_⟩
      intro cl ccl hcl _
      cases hcl
    | some cl0 =>
      rw [evict_swap_eq_some r _ hge cl0 hswc]
      refine ⟨a, b, c2, ?_⟩
      intro cl ccl hcl hccl
      obtain rfl : cl0 = cl := Option.some.inj hcl
      show getCellAt (modifyCellAt r cl0 (fun n => n.setPt (Int.ofNat node.pt.toNat)))
        cl0 = some (ccl.setPt (Int.ofNat node.pt.toNat))
      rw [getCellAt_modifyCellAt_self, hccl]
      rfl

attribute [local semireducible] Rat.add Rat.mul Rat.inv Rat.sub in
/-- Witness for C4: the containment test of the witness leaf agrees with the
spec's three-axis formulation at the concrete state. -/
theorem C4_leaf_eviction_witness :
    tree_particle_is_inside_cell wit_r2 wit_leafA = true ↔
      specInside (wit_r2.particles.getD wit_leafA.pt.toNat default)
        wit_leafA.x wit_leafA.y wit_leafA.z wit_leafA.w :=
  (C4_leaf_eviction wit_r2 (0, [0]) wit_leafA 0 rfl (by decide)).1

attribute [local semireducible] Rat.add Rat.mul Rat.inv Rat.sub in
/-- Witness for C6: a second maintenance pass on the concrete two-particle
state equals the first. -/
theorem C6_idempotent_maintenance_witness :
    tree_update (tree_update wit_r2 2) 2 = tree_update wit_r2 2 :=
  C6_idempotent_maintenance wit_r2 2 (by decide)
    (fun i => match i with
      | 0 => by decide
      | _ + 1 => Nat.zero_le 2)

/-- C9: on a branch whose recomputed occupancy is −1, the `test` variable was
necessarily assigned the octant (in [0,7]) of a non-null leaf child — every
other slot is empty — so the collapse step's dereference of that slot is
well-defined and never reads the initial sentinel −1. -/
theorem C9_collapse_test_safe (node : Cell) (h8 : node.oct.length = 8)
    (hWC : ∀ o d, node.oct.getD o none = some d → d.pt < 0 →
      d.pt = -(countLeavesList d.oct) ∧ d.pt ≤ -2)
    (hm1 : (tree_recompute node).1 = -1) :
    ∃ o child, (tree_recompute node).2 = some o ∧ o < 8 ∧
      node.oct.getD o none = some child ∧ 0 ≤ child.pt ∧
      ∀ o', o' ≠ o → node.oct.getD o' none = none := by
  obtain ⟨o, child, htest, hchild, hleaf, hothers⟩ :=
    recompute_minus_one node h8 hWC hm1
  refine ⟨o, child, htest, ?_, hchild, hleaf, hothers⟩
  have := getD_lt_length_of_some _ _ _ hchild
  omega

/-- Witness for C9 at a concrete branch with one leaf child. -/
theorem C9_collapse_test_safe_witness :
    ∃ o child, (tree_recompute wit_single).2 = some o ∧ o < 8 ∧
      wit_single.oct.getD o none = some child ∧ 0 ≤ child.pt ∧
      ∀ o', o' ≠ o → wit_single.oct.getD o' none = none :=
  C9_collapse_test_safe wit_single rfl
    (fun o d hd hneg => by
      exfalso
      match o with
      | 0 =>
        have h2 : wit_leafA = d := Option.some.inj hd
        rw [← h2] at hneg
        exact absurd hneg (by decide)
      | 1 => exact Option.noConfusion hd
      | 2 => exact Option.noConfusion hd
      | 3 => exact Option.noConfusion hd
      | 4 => exact Option.noConfusion hd
      | 5 => exact Option.noConfusion hd
      | 6 => exact Option.noConfusion hd
      | 7 => exact Option.noConfusion hd
      | n + 8 =>
        rw [List.getD_eq_default _ _ (by
          show 8 ≤ n + 8
          omega)] at hd
        exact Option.noConfusion hd)
    (by decide)

theorem foldl_gravAcc : ∀ (l : List (Option Cell)) (ax ay az am : ℚ),
    l.foldl gravAcc (ax, ay, az, am) =
      (ax + sumMX l, ay + sumMY l, az + sumMZ l, am + sumM l) := by
  intro l
  induction l with
  | nil =>
    intro ax ay az am
    show (ax, ay, az, am) = _
    rw [sumMX, sumMY, sumMZ, sumM]
    simp
  | cons x t ih =>
    intro ax ay az am
    cases x with
    | none =>
      rw [List.foldl_cons]
      show t.foldl gravAcc (ax, ay, az, am) = _
      rw [ih, sumMX, sumMY, sumMZ, sumM]
    | some c =>
      rw [List.foldl_cons]
      show t.foldl gravAcc (ax + c.mx * c.m, ay + c.my * c.m, az + c.mz * c.m,
        am + c.m) = _
      rw [ih, sumMX, sumMY, sumMZ, sumM]
      refine congrArg₂ Prod.mk (by ring) (congrArg₂ Prod.mk (by ring)
        (congrArg₂ Prod.mk (by ring) (by ring)))

theorem grav_branch_eq (r : Rebound) (x y z w : ℚ) (pt : Int) (m mx my mz : ℚ)
    (oct : List (Option Cell)) (hbr : pt < 0) :
    tree_update_gravity_data_in_cell r (Cell.mk x y z w pt m mx my mz oct) =
      (if 0 < sumM (gravityList r oct) then
        Cell.mk x y z w pt (sumM (gravityList r oct))
          (sumMX (gravityList r oct) / sumM (gravityList r oct))
          (sumMY (gravityList r oct) / sumM (gravityList r oct))
          (sumMZ (gravityList r oct) / sumM (gravityList r oct))
          (gravityList r oct)
      else
        Cell.mk x y z w pt (sumM (gravityList r oct))
          (sumMX (gravityList r oct)) (sumMY (gravityList r oct))
          (sumMZ (gravityList r oct)) (gravityList r oct)) := by
  rw [tree_update_gravity_data_in_cell, if_pos hbr]
  simp only [foldl_gravAcc, zero_add]

theorem grav_leaf_eq (r : Rebound) (x y z w : ℚ) (pt : Int) (m mx my mz : ℚ)
    (oct : List (Option Cell)) (hbr : ¬ pt < 0) :
    tree_update_gravity_data_in_cell r (Cell.mk x y z w pt m mx my mz oct) =
      Cell.mk x y z w pt (r.particles.getD pt.toNat default).m
        (r.particles.getD pt.toNat default).x
        (r.particles.getD pt.toNat default).y
        (r.particles.getD pt.toNat default).z oct := by
  rw [tree_update_gravity_data_in_cell, if_neg hbr]

mutual
theorem grav_m_nonneg (r : Rebound)
    (hm : ∀ i : ℕ, 0 ≤ (r.particles.getD i default).m) :
    ∀ c : Cell, 0 ≤ (tree_update_gravity_data_in_cell r c).m
  | .mk x y z w pt m mx my mz oct => by
    by_cases hbr : pt < 0
    · rw [grav_branch_eq r x y z w pt m mx my mz oct hbr]
      by_cases h : 0 < sumM (gravityList r oct)
      · rw [if_pos h, Cell.m_mk]
        exact le_of_lt h
      · rw [if_neg h, Cell.m_mk]
        exact grav_sumM_nonneg r hm oct
    · rw [grav_leaf_eq r x y z w pt m mx my mz oct hbr, Cell.m_mk]
      exact hm _

theorem grav_sumM_nonneg (r : Rebound)
    (hm : ∀ i : ℕ, 0 ≤ (r.particles.getD i default).m) :
    ∀ l : List (Option Cell), 0 ≤ sumM (gravityList r l)
  | [] => by
    rw [gravityList, sumM]
  | none :: t => by
    rw [gravityList, sumM]
    exact grav_sumM_nonneg r hm t
  | some c :: t => by
    rw [gravityList, sumM]
    exact add_nonneg (grav_m_nonneg r hm c) (grav_sumM_nonneg r hm t)
end

theorem grav_sums_zero (r : Rebound)
    (hm : ∀ i : ℕ, 0 ≤ (r.particles.getD i default).m) :
    ∀ l : List (Option Cell), sumM (gravityList r l) = 0 →
      sumMX (gravityList r l) = 0 ∧ sumMY (gravityList r l) = 0 ∧
        sumMZ (gravityList r l) = 0 := by
  intro l
  induction l with
  | nil =>
    intro _
    rw [gravityList]
    exact ⟨rfl, rfl, rfl⟩
  | cons x t ih =>
    intro h
    cases x with
    | none =>
      rw [gravityList] at h ⊢
      rw [sumM] at h
      rw [sumMX, sumMY, sumMZ]
      exact ih h
    | some c =>
      rw [gravityList] at h ⊢
      rw [sumM] at h
      have h1 : 0 ≤ (tree_update_gravity_data_in_cell r c).m := grav_m_nonneg r hm c
      have h2 : 0 ≤ sumM (gravityList r t) := grav_sumM_nonneg r hm t
      have hm0 : (tree_update_gravity_data_in_cell r c).m = 0 := by linarith
      have ht0 : sumM (gravityList r t) = 0 := by linarith
      obtain ⟨a1, a2, a3⟩ := ih ht0
      rw [sumMX, sumMY, sumMZ]
      refine ⟨?_, ?_, ?_⟩
      · rw [hm0, a1]
        ring
      · rw [hm0, a2]
        ring
      · rw [hm0, a3]
        ring

/-- C8: a branch's aggregated mass is the sum of its children's masses and
its center of mass is their mass-weighted average, except that when the
total mass is zero the division is skipped and the center of mass stays at
zero instead of dividing by zero. -/
theorem C8_branch_moments (r : Rebound) (x y z w : ℚ) (pt : Int)
    (m mx my mz : ℚ) (oct : List (Option Cell)) (hbr : pt < 0) :
    (tree_update_gravity_data_in_cell r (Cell.mk x y z w pt m mx my mz oct)).m =
      sumM (gravityList r oct) ∧
    (0 < sumM (gravityList r oct) →
      (tree_update_gravity_data_in_cell r (Cell.mk x y z w pt m mx my mz oct)).mx =
        sumMX (gravityList r oct) / sumM (gravityList r oct) ∧
      (tree_update_gravity_data_in_cell r (Cell.mk x y z w pt m mx my mz oct)).my =
        sumMY (gravityList r oct) / sumM (gravityList r oct) ∧
      (tree_update_gravity_data_in_cell r (Cell.mk x y z w pt m mx my mz oct)).mz =
        sumMZ (gravityList r oct) / sumM (gravityList r oct)) ∧
    (massNonnegB r = true → sumM (gravityList r oct) = 0 →
      (tree_update_gravity_data_in_cell r (Cell.mk x y z w pt m mx my mz oct)).mx = 0 ∧
      (tree_update_gravity_data_in_cell r (Cell.mk x y z w pt m mx my mz oct)).my = 0 ∧
      (tree_update_gravity_data_in_cell r (Cell.mk x y z w pt m mx my mz oct)).mz =
        0) := by
  rw [grav_branch_eq r x y z w pt m mx my mz oct hbr]
  refine ⟨?_, ?_, ?_⟩
  · by_cases h : 0 < sumM (gravityList r oct)
    · rw [if_pos h, Cell.m_mk]
    · rw [if_neg h, Cell.m_mk]
  · intro h
    rw [if_pos h, Cell.mx_mk, Cell.my_mk, Cell.mz_mk]
    exact ⟨rfl, rfl, rfl⟩
  · intro hmb h0
    rw [if_neg (by rw [h0]; exact lt_irrefl 0), Cell.mx_mk, Cell.my_mk, Cell.mz_mk]
    exact grav_sums_zero r (massNonnegB_spec r hmb) oct h0

/-- Witness for C8: the aggregated mass of the witness branch equals its
children's mass sum. -/
theorem C8_branch_moments_witness :
    (tree_update_gravity_data_in_cell wit_r2
      (Cell.mk 0 0 0 1 (-2) 0 0 0 0 wit_root.oct)).m =
      sumM (gravityList wit_r2 wit_root.oct) :=
  (C8_branch_moments wit_r2 0 0 0 1 (-2) 0 0 0 0 wit_root.oct (by decide)).1

theorem GeomFwdO_refl (t : Option Cell) : GeomFwdO t t :=
  fun _ c hp => ⟨c, hp, rfl, rfl, rfl, rfl⟩

theorem GeomFwdO_none (t : Option Cell) : GeomFwdO none t := by
  intro p c hp
  rw [getPath_none] at hp
  cases hp

theorem GeomFwdO_trans (t1 t2 t3 : Option Cell) (h1 : GeomFwdO t1 t2)
    (h2 : GeomFwdO t2 t3) : GeomFwdO t1 t3 := by
  intro p c hp
  obtain ⟨c2, hc2, a1, a2, a3, a4⟩ := h1 p c hp
  obtain ⟨c3, hc3, b1, b2, b3, b4⟩ := h2 p c2 hc2
  exact ⟨c3, hc3, b1.trans a1, b2.trans a2, b3.trans a3, b4.trans a4⟩

theorem GeomFwdO_setPt (m : Cell) (w : Int) :
    GeomFwdO (some m) (some (m.setPt w)) := by
  intro p c hp
  cases p with
  | nil =>
    rw [getPath_nil] at hp
    have := Option.some.inj hp
    subst this
    exact ⟨m.setPt w, by rw [getPath_nil], by simp, by simp, by simp, by simp⟩
  | cons o rest =>
    rw [getPath_cons] at hp
    refine ⟨c, ?_, rfl, rfl, rfl, rfl⟩
    rw [getPath_cons, Cell.oct_setPt]
    exact hp

theorem GeomFwdO_setOct (n : Cell) (o : ℕ) (v : Option Cell)
    (h : GeomFwdO (n.oct.getD o none) v) :
    GeomFwdO (some n) (some (n.setOct o v)) := by
  intro p c hp
  cases p with
  | nil =>
    rw [getPath_nil] at hp
    have := Option.some.inj hp
    subst this
    exact ⟨n.setOct o v, by rw [getPath_nil], by simp, by simp, by simp, by simp⟩
  | cons o' rest =>
    rw [getPath_cons] at hp
    rw [show getPath (some (n.setOct o v)) (o' :: rest) =
      getPath ((n.setOct o v).oct.getD o' none) rest from getPath_cons _ _ _]
    rw [Cell.oct_setOct, listGetD_set]
    by_cases hoo : o = o' ∧ o < n.oct.length
    · rw [if_pos hoo]
      obtain ⟨rfl, _⟩ := hoo
      exact h rest c hp
    · rw [if_neg hoo]
      exact ⟨c, hp, rfl, rfl, rfl, rfl⟩

theorem add_geom_forward : ∀ (fuel : ℕ) (r : Rebound) (node : Option Cell)
    (pt : ℕ) (parent : Option Cell) (o0 : ℕ) (loc : Loc),
    GeomFwdO node (tree_add_particle_to_cell r node pt parent o0 loc fuel).2 := by
  intro fuel
  induction fuel with
  | zero =>
    intro r node pt parent o0 loc
    exact GeomFwdO_refl node
  | succ fuel IH =>
    intro r node pt parent o0 loc
    cases node with
    | none => exact GeomFwdO_none _
    | some n =>
      rw [tree_add_particle_to_cell]
      by_cases hleaf : 0 ≤ n.pt
      · rw [if_pos hleaf]
        refine GeomFwdO_trans _ _ _ ?_ (GeomFwdO_setPt _ _)
        refine GeomFwdO_trans _ _ _ ?_ (GeomFwdO_setOct _ _ _ (IH _ _ _ _ _ _))
        exact GeomFwdO_setOct _ _ _ (IH _ _ _ _ _ _)
      · rw [if_neg hleaf]
        refine GeomFwdO_trans _ _ _ ?_ (GeomFwdO_setOct _ _ _ (IH _ _ _ _ _ _))
        exact GeomFwdO_setPt n _

theorem add_tree_root_eq : ∀ (fuel : ℕ) (r : Rebound) (node : Option Cell)
    (pt : ℕ) (parent : Option Cell) (o0 : ℕ) (loc : Loc),
    (tree_add_particle_to_cell r node pt parent o0 loc fuel).1.tree_root = r.tree_root := by
  intro fuel
  induction fuel with
  | zero =>
    intro r node pt parent o0 loc
    rfl
  | succ fuel IH =>
    intro r node pt parent o0 loc
    cases node with
    | none => rfl
    | some n =>
      rw [tree_add_particle_to_cell]
      by_cases hleaf : 0 ≤ n.pt
      · rw [if_pos hleaf]
        simp only [IH]
      · rw [if_neg hleaf]
        simp only [IH]

theorem add_tree_geom_forward (r : Rebound) (pt fuel : ℕ) (q : Loc) (c : Cell)
    (hc : getCellAt r q = some c) :
    ∃ c', getCellAt (tree_add_particle_to_tree r pt fuel) q = some c' ∧
      c'.x = c.x ∧ c'.y = c.y ∧ c'.z = c.z ∧ c'.w = c.w := by
  have hE : r.tree_root.isEmpty = false := by
    cases hl : r.tree_root with
    | nil =>
      exfalso
      rw [getCellAt, hl, List.getD_nil, getPath_none] at hc
      cases hc
    | cons a t => rfl
  rw [tree_add_particle_to_tree, hE]
  simp only [Bool.false_eq_true, if_false]
  rw [getCellAt, add_tree_root_eq, listGetD_set]
  by_cases hq : particles_get_rootbox_for_particle r (r.particles.getD pt default) = q.1 ∧
      particles_get_rootbox_for_particle r (r.particles.getD pt default) < r.tree_root.length
  · rw [if_pos hq]
    rw [getCellAt] at hc
    rw [← hq.1] at hc
    exact add_geom_forward fuel r _ pt none 0 _ q.2 c hc
  · rw [if_neg hq]
    exact ⟨c, hc, rfl, rfl, rfl, rfl⟩

theorem listGetD_map {α β : Type} (f : α → β) : ∀ (l : List α) (n : ℕ) (d : α),
    (l.map f).getD n (f d) = f (l.getD n d)
  | [], n, d => by cases n <;> rfl
  | a :: t, 0, d => rfl
  | a :: t, n + 1, d => listGetD_map f t n d

theorem gravityList_getD (r : Rebound) : ∀ (l : List (Option Cell)) (o : ℕ),
    (gravityList r l).getD o none =
      Option.map (tree_update_gravity_data_in_cell r) (l.getD o none)
  | [], o => by
    rw [gravityList]
    cases o <;> rfl
  | none :: t, 0 => by
    rw [gravityList]
    rfl
  | none :: t, o + 1 => by
    rw [gravityList]
    exact gravityList_getD r t o
  | some c :: t, 0 => by
    rw [gravityList]
    rfl
  | some c :: t, o + 1 => by
    rw [gravityList]
    exact gravityList_getD r t o

mutual
theorem grav_geomFwd (r : Rebound) : ∀ c : Cell,
    GeomFwdO (some c) (some (tree_update_gravity_data_in_cell r c))
  | .mk x y z w pt m mx my mz oct => by
    intro p c2 hp
    by_cases hbr : pt < 0
    · rw [grav_branch_eq r x y z w pt m mx my mz oct hbr]
      cases p with
      | nil =>
        rw [getPath_nil] at hp
        have hco : Cell.mk x y z w pt m mx my mz oct = c2 := Option.some.inj hp
        refine ⟨_, getPath_nil _, ?_, ?_, ?_, ?_⟩ <;>
          rw [← hco] <;> by_cases hs : 0 < sumM (gravityList r oct) <;>
          simp [hs]
      | cons o rest =>
        rw [getPath_cons] at hp
        rw [show getPath (some (if 0 < sumM (gravityList r oct) then
            Cell.mk x y z w pt (sumM (gravityList r oct))
              (sumMX (gravityList r oct) / sumM (gravityList r oct))
              (sumMY (gravityList r oct) / sumM (gravityList r oct))
              (sumMZ (gravityList r oct) / sumM (gravityList r oct))
              (gravityList r oct)
          else
            Cell.mk x y z w pt (sumM (gravityList r oct))
              (sumMX (gravityList r oct)) (sumMY (gravityList r oct))
              (sumMZ (gravityList r oct)) (gravityList r oct))) (o :: rest) =
          getPath ((gravityList r oct).getD o none) rest by
            by_cases hs : 0 < sumM (gravityList r oct) <;> simp [hs, getPath_cons]]
        rw [Cell.oct_mk] at hp
        exact grav_geomFwd_slots r oct o rest c2 hp
    · rw [grav_leaf_eq r x y z w pt m mx my mz oct hbr]
      cases p with
      | nil =>
        rw [getPath_nil] at hp
        have hco : Cell.mk x y z w pt m mx my mz oct = c2 := Option.some.inj hp
        exact ⟨_, getPath_nil _, by rw [← hco]; rfl, by rw [← hco]; rfl,
          by rw [← hco]; rfl, by rw [← hco]; rfl⟩
      | cons o rest =>
        rw [getPath_cons] at hp
        exact ⟨c2, by rw [getPath_cons]; exact hp, rfl, rfl, rfl, rfl⟩

theorem grav_geomFwd_slots (r : Rebound) : ∀ (l : List (Option Cell)) (o : ℕ),
    GeomFwdO (l.getD o none) ((gravityList r l).getD o none)
  | [], o => by
    rw [gravityList]
    cases o <;> exact GeomFwdO_none _
  | x :: t, 0 => by
    cases x with
    | none =>
      rw [gravityList]
      exact GeomFwdO_none _
    | some c =>
      rw [gravityList]
      exact grav_geomFwd r c
  | x :: t, o + 1 => by
    cases x with
    | none =>
      rw [gravityList]
      exact grav_geomFwd_slots r t o
    | some c =>
      rw [gravityList]
      exact grav_geomFwd_slots r t o
end

theorem grav_tree_geom_forward (r : Rebound) (q : Loc) (c : Cell)
    (hc : getCellAt r q = some c) :
    ∃ c', getCellAt (tree_update_gravity_data r) q = some c' ∧
      c'.x = c.x ∧ c'.y = c.y ∧ c'.z = c.z ∧ c'.w = c.w := by
  rw [getCellAt] at hc ⊢
  rw [tree_update_gravity_data]
  have hroot : (r.tree_root.map (fun t =>
      t.map (tree_update_gravity_data_in_cell r))).getD q.1 none =
      Option.map (tree_update_gravity_data_in_cell r) (r.tree_root.getD q.1 none) :=
    listGetD_map (fun t => t.map (tree_update_gravity_data_in_cell r)) r.tree_root q.1 none
  rw [hroot]
  cases ht : r.tree_root.getD q.1 none with
  | none =>
    rw [ht, getPath_none] at hc
    cases hc
  | some c0 =>
    rw [ht] at hc
    exact grav_geomFwd r c0 q.2 c hc

theorem GeomBack_refl (r : Rebound) : GeomBack r r :=
  fun _ c' hc' => ⟨c', hc', rfl, rfl, rfl, rfl⟩

theorem GeomBack_of_getCellAt_eq (r r' : Rebound)
    (h : ∀ q, getCellAt r' q = getCellAt r q) : GeomBack r r' := by
  intro q c' hc'
  rw [h q] at hc'
  exact ⟨c', hc', rfl, rfl, rfl, rfl⟩

theorem GeomBack_trans (r1 r2 r3 : Rebound) (h1 : GeomBack r1 r2)
    (h2 : GeomBack r2 r3) : GeomBack r1 r3 := by
  intro q c' hc'
  obtain ⟨c2, hc2, a1, a2, a3, a4⟩ := h2 q c' hc'
  obtain ⟨c, hc, b1, b2, b3, b4⟩ := h1 q c2 hc2
  exact ⟨c, hc, a1.trans b1, a2.trans b2, a3.trans b3, a4.trans b4⟩

theorem GeomBack_prune (r : Rebound) (a : Loc) : GeomBack r (setCellAt r a none) := by
  intro q c' hc'
  obtain ⟨c, hc, he⟩ := prune_hd r a q c' hc'
  obtain ⟨e1, e2, e3, e4, _, _⟩ := hd_fields _ _ he
  exact ⟨c, hc, e1, e2, e3, e4⟩

theorem GeomBack_write (r : Rebound) (a : Loc) (v : Int) :
    GeomBack r (modifyCellAt r a (fun n => n.setPt v)) := by
  intro q c' hc'
  rcases write_hd r a v q c' hc' with ⟨hqa, c, hc, he⟩ | ⟨_, c, hc, he⟩
  · subst hqa
    refine ⟨c, hc, ?_, ?_, ?_, ?_⟩ <;> rw [he] <;> simp
  · obtain ⟨e1, e2, e3, e4, _, _⟩ := hd_fields _ _ he
    exact ⟨c, hc, e1, e2, e3, e4⟩

theorem GeomBack_setParticleC (r : Rebound) (i : ℕ) (loc : Loc) :
    GeomBack r (setParticleC r i loc) :=
  GeomBack_of_getCellAt_eq _ _ (fun q => getCellAt_setParticleC r i loc q)

theorem GeomBack_evict (r : Rebound) (p : ℕ) : GeomBack r (tree_evict r p) := by
  by_cases h : p < r.N_tree_fixed
  · rw [evict_fixed_id r p h]
    exact GeomBack_refl r
  · have hge := not_lt.mp h
    cases hc : (r.particles.getD (r.particles.length - 1) default).c with
    | none =>
      rw [evict_swap_eq_none r p hge hc]
      exact GeomBack_of_getCellAt_eq _ _ (fun q => rfl)
    | some cl =>
      rw [evict_swap_eq_some r p hge cl hc]
      intro q c' hc'
      exact GeomBack_write r cl (Int.ofNat p) q c' hc'

theorem geomBack_branch (R8 : Rebound) (loc : Loc) (node1 : Cell)
    (r' : Rebound)
    (hr' : r' = (if (tree_recompute node1).1 = 0 then setCellAt R8 loc none
      else if (tree_recompute node1).1 = -1 then
        match (tree_recompute node1).2 with
        | some t =>
          match node1.oct.getD t none with
          | some child =>
            setCellAt (setParticleC (modifyCellAt R8 loc (fun n => n.setPt child.pt))
              child.pt.toNat loc) (loc.1, loc.2 ++ [t]) none
          | none => modifyCellAt R8 loc (fun n => n.setPt (tree_recompute node1).1)
        | none => modifyCellAt R8 loc (fun n => n.setPt (tree_recompute node1).1)
      else modifyCellAt R8 loc (fun n => n.setPt (tree_recompute node1).1))) :
    GeomBack R8 r' := by
  by_cases h0 : (tree_recompute node1).1 = 0
  · rw [if_pos h0] at hr'
    subst hr'
    exact GeomBack_prune R8 loc
  · by_cases h1 : (tree_recompute node1).1 = -1
    · rw [if_neg h0, if_pos h1] at hr'
      cases ht : (tree_recompute node1).2 with
      | none =>
        rw [ht] at hr'
        subst hr'
        exact GeomBack_write R8 loc _
      | some t =>
        rw [ht] at hr'
        have hr'2 : r' = (match node1.oct.getD t none with
          | some child =>
            setCellAt (setParticleC (modifyCellAt R8 loc (fun n => n.setPt child.pt))
              child.pt.toNat loc) (loc.1, loc.2 ++ [t]) none
          | none => modifyCellAt R8 loc (fun n => n.setPt (tree_recompute node1).1)) :=
          hr'
        cases hch : node1.oct.getD t none with
        | none =>
          rw [hch] at hr'2
          subst hr'2
          exact GeomBack_write R8 loc _
        | some child =>
          rw [hch] at hr'2
          subst hr'2
          refine GeomBack_trans _ _ _ (GeomBack_write R8 loc child.pt) ?_
          refine GeomBack_trans _ _ _ (GeomBack_setParticleC _ child.pt.toNat loc) ?_
          exact GeomBack_prune _ _
    · rw [if_neg h0, if_neg h1] at hr'
      subst hr'
      exact GeomBack_write R8 loc _

theorem update_cell_geomBack : ∀ (fuel : ℕ) (r : Rebound) (loc : Loc),
    GeomBack r (tree_update_cell r loc fuel) := by
  intro fuel
  induction fuel with
  | zero =>
    intro r loc
    exact GeomBack_refl r
  | succ fuel IH =>
    intro r loc
    have hfold : ∀ (os : List ℕ) (r0 : Rebound),
        GeomBack r0 (os.foldl
          (fun acc o => tree_update_cell acc (loc.1, loc.2 ++ [o]) fuel) r0) := by
      intro os
      induction os with
      | nil =>
        intro r0
        exact GeomBack_refl r0
      | cons o os ih2 =>
        intro r0
        simp only [List.foldl_cons]
        exact GeomBack_trans _ _ _ (IH r0 (loc.1, loc.2 ++ [o]))
          (ih2 (tree_update_cell r0 (loc.1, loc.2 ++ [o]) fuel))
    cases hnode : getCellAt r loc with
    | none =>
      have hstep : tree_update_cell r loc (fuel + 1) = r := by
        unfold tree_update_cell
        rw [hnode]
      rw [hstep]
      exact GeomBack_refl r
    | some node =>
      by_cases hbr : node.pt < 0
      · cases hc8 : getCellAt ((List.range 8).foldl
            (fun acc o => tree_update_cell acc (loc.1, loc.2 ++ [o]) fuel) r) loc with
        | none =>
          have hstep : tree_update_cell r loc (fuel + 1) = (List.range 8).foldl
              (fun acc o => tree_update_cell acc (loc.1, loc.2 ++ [o]) fuel) r := by
            rw [tree_update_cell]
            simp only [hnode]
            rw [if_pos hbr]
            simp only [hc8]
          rw [hstep]
          exact hfold (List.range 8) r
        | some node1 =>
          have hstep : tree_update_cell r loc (fuel + 1) =
              (if (tree_recompute node1).1 = 0 then
                setCellAt ((List.range 8).foldl
                  (fun acc o => tree_update_cell acc (loc.1, loc.2 ++ [o]) fuel) r)
                  loc none
              else if (tree_recompute node1).1 = -1 then
                match (tree_recompute node1).2 with
                | some t =>
                  match node1.oct.getD t none with
                  | some child =>
                    setCellAt (setParticleC (modifyCellAt ((List.range 8).foldl
                        (fun acc o => tree_update_cell acc (loc.1, loc.2 ++ [o]) fuel) r)
                        loc (fun n => n.setPt child.pt))
                      child.pt.toNat loc) (loc.1, loc.2 ++ [t]) none
                  | none => modifyCellAt ((List.range 8).foldl
                      (fun acc o => tree_update_cell acc (loc.1, loc.2 ++ [o]) fuel) r)
                      loc (fun n => n.setPt (tree_recompute node1).1)
                | none => modifyCellAt ((List.range 8).foldl
                    (fun acc o => tree_update_cell acc (loc.1, loc.2 ++ [o]) fuel) r)
                    loc (fun n => n.setPt (tree_recompute node1).1)
              else modifyCellAt ((List.range 8).foldl
                  (fun acc o => tree_update_cell acc (loc.1, loc.2 ++ [o]) fuel) r)
                  loc (fun n => n.setPt (tree_recompute node1).1)) := by
            rw [tree_update_cell]
            simp only [hnode]
            rw [if_pos hbr]
            simp only [hc8]
          exact GeomBack_trans _ _ _ (hfold (List.range 8) r)
            (geomBack_branch _ loc node1 _ hstep)
      · by_cases hin : tree_particle_is_inside_cell r node = true
        · have hstep : tree_update_cell r loc (fuel + 1) =
              setParticleC r node.pt.toNat loc := by
            rw [tree_update_cell]
            simp only [hnode]
            rw [if_neg hbr, if_pos hin]
          rw [hstep]
          exact GeomBack_setParticleC r _ loc
        · have hstep : tree_update_cell r loc (fuel + 1) =
              setCellAt (tree_evict r node.pt.toNat) loc none := by
            rw [tree_update_cell]
            simp only [hnode]
            rw [if_neg hbr, if_neg hin]
          rw [hstep]
          exact GeomBack_trans _ _ _ (GeomBack_evict r node.pt.toNat)
            (GeomBack_prune _ loc)

theorem tree_update_geomBack (r : Rebound) (fuel : ℕ) :
    GeomBack r (tree_update r fuel) := by
  have hfoldR : ∀ (is : List ℕ) (r0 : Rebound),
      GeomBack r0 (is.foldl (fun acc i => tree_update_cell acc (i, []) fuel) r0) := by
    intro is
    induction is with
    | nil =>
      intro r0
      exact GeomBack_refl r0
    | cons i is ih =>
      intro r0
      simp only [List.foldl_cons]
      exact GeomBack_trans _ _ _ (update_cell_geomBack fuel r0 (i, []))
        (ih (tree_update_cell r0 (i, []) fuel))
  by_cases hE : r.tree_root.isEmpty
  · have hstep : tree_update r fuel =
        (List.range (r.root_nx * r.root_ny * r.root_nz)).foldl
          (fun acc i => tree_update_cell acc (i, []) fuel)
          { r with tree_root :=
            List.replicate (r.root_nx * r.root_ny * r.root_nz) none } := by
      unfold tree_update
      rw [if_pos hE]
    rw [hstep]
    refine GeomBack_trans _ _ _ ?_ (hfoldR _ _)
    intro q c' hc'
    rw [getCellAt_alloc_none] at hc'
    cases hc'
  · have hstep : tree_update r fuel =
        (List.range (r.root_nx * r.root_ny * r.root_nz)).foldl
          (fun acc i => tree_update_cell acc (i, []) fuel) r := by
      unfold tree_update
      rw [if_neg hE]
    rw [hstep]
    exact hfoldR _ r

/-- C10: a node's geometry (center x, y, z and width w) is assigned exactly
once, at allocation, and never modified afterwards: every cell surviving an
insertion keeps its geometry, every cell present after a maintenance pass
already existed at the same location with the same geometry beforehand (in
particular a branch collapsed into a leaf keeps its own wider center and
width, not the discarded child's), and moment aggregation preserves the
geometry of every cell. -/
theorem C10_geometry_immutable :
    (∀ (r : Rebound) (pt fuel : ℕ) (q : Loc) (c : Cell), getCellAt r q = some c →
      ∃ c', getCellAt (tree_add_particle_to_tree r pt fuel) q = some c' ∧
        c'.x = c.x ∧ c'.y = c.y ∧ c'.z = c.z ∧ c'.w = c.w) ∧
    (∀ (r : Rebound) (fuel : ℕ) (q : Loc) (c' : Cell),
      getCellAt (tree_update r fuel) q = some c' →
      ∃ c, getCellAt r q = some c ∧
        c'.x = c.x ∧ c'.y = c.y ∧ c'.z = c.z ∧ c'.w = c.w) ∧
    (∀ (r : Rebound) (q : Loc) (c : Cell), getCellAt r q = some c →
      ∃ c', getCellAt (tree_update_gravity_data r) q = some c' ∧
        c'.x = c.x ∧ c'.y = c.y ∧ c'.z = c.z ∧ c'.w = c.w) :=
  ⟨fun r pt fuel q c hc => add_tree_geom_forward r pt fuel q c hc,
   fun r fuel q c' hc' => tree_update_geomBack r fuel q c' hc',
   fun r q c hc => grav_tree_geom_forward r q c hc⟩

attribute [local semireducible] Rat.add Rat.mul Rat.inv Rat.sub in
theorem C10_geometry_immutable_witness :
    (∃ c', getCellAt (tree_add_particle_to_tree wit_r2 0 1) (0, []) = some c' ∧
      c'.x = wit_root.x ∧ c'.y = wit_root.y ∧ c'.z = wit_root.z ∧
      c'.w = wit_root.w) ∧
    (∃ c, getCellAt wit_r2 (0, []) = some c ∧
      wit_root.x = c.x ∧ wit_root.y = c.y ∧ wit_root.z = c.z ∧
      wit_root.w = c.w) ∧
    (∃ c', getCellAt (tree_update_gravity_data wit_r2) (0, []) = some c' ∧
      c'.x = wit_root.x ∧ c'.y = wit_root.y ∧ c'.z = wit_root.z ∧
      c'.w = wit_root.w) :=
  ⟨C10_geometry_immutable.1 wit_r2 0 1 (0, []) wit_root rfl,
   C10_geometry_immutable.2.1 wit_r2 2 (0, []) wit_root (by rfl),
   C10_geometry_immutable.2.2 wit_r2 (0, []) wit_root rfl⟩

/-- C5 (amended): at an existing branch node, insertion decrements the
branch's signed occupancy tag by one — so the occupancy magnitude increases
by one, anticipating one more particle (the claim's "decrements the
magnitude" has the direction backwards) — and recurses into the octant child
selected by the inserted particle's position relative to the branch's
center, leaving all other child slots unchanged. -/
theorem C5_branch_insertion (r : Rebound) (n : Cell) (pt : ℕ)
    (parent : Option Cell) (o0 : ℕ) (loc : Loc) (fuel : ℕ)
    (hbr : ¬ 0 ≤ n.pt) :
    (tree_add_particle_to_cell r (some n) pt parent o0 loc (fuel + 1)).2 =
      some ((n.setPt (n.pt - 1)).setOct
        (tree_get_octant_for_particle_in_cell (r.particles.getD pt default)
          (n.setPt (n.pt - 1)))
        (tree_add_particle_to_cell r
          ((n.setPt (n.pt - 1)).oct.getD
            (tree_get_octant_for_particle_in_cell (r.particles.getD pt default)
              (n.setPt (n.pt - 1))) none) pt
          (some (n.setPt (n.pt - 1)))
          (tree_get_octant_for_particle_in_cell (r.particles.getD pt default)
            (n.setPt (n.pt - 1)))
          (loc.1, loc.2 ++ [tree_get_octant_for_particle_in_cell
            (r.particles.getD pt default) (n.setPt (n.pt - 1))]) fuel).2) ∧
    (∀ c', (tree_add_particle_to_cell r (some n) pt parent o0 loc (fuel + 1)).2 =
        some c' →
      c'.pt = n.pt - 1 ∧ c'.pt.natAbs = n.pt.natAbs + 1 ∧
      ∀ o, o ≠ tree_get_octant_for_particle_in_cell (r.particles.getD pt default)
          (n.setPt (n.pt - 1)) →
        c'.oct.getD o none = n.oct.getD o none) := by
  have hstep : (tree_add_particle_to_cell r (some n) pt parent o0 loc (fuel + 1)).2 =
      some ((n.setPt (n.pt - 1)).setOct
        (tree_get_octant_for_particle_in_cell (r.particles.getD pt default)
          (n.setPt (n.pt - 1)))
        (tree_add_particle_to_cell r
          ((n.setPt (n.pt - 1)).oct.getD
            (tree_get_octant_for_particle_in_cell (r.particles.getD pt default)
              (n.setPt (n.pt - 1))) none) pt
          (some (n.setPt (n.pt - 1)))
          (tree_get_octant_for_particle_in_cell (r.particles.getD pt default)
            (n.setPt (n.pt - 1)))
          (loc.1, loc.2 ++ [tree_get_octant_for_particle_in_cell
            (r.particles.getD pt default) (n.setPt (n.pt - 1))]) fuel).2) := by
    rw [tree_add_particle_to_cell]
    rw [if_neg hbr]
  refine ⟨hstep, ?_⟩
  intro c' hc'
  rw [hstep] at hc'
  have hce : (n.setPt (n.pt - 1)).setOct
      (tree_get_octant_for_particle_in_cell (r.particles.getD pt default)
        (n.setPt (n.pt - 1)))
      (tree_add_particle_to_cell r
        ((n.setPt (n.pt - 1)).oct.getD
          (tree_get_octant_for_particle_in_cell (r.particles.getD pt default)
            (n.setPt (n.pt - 1))) none) pt
        (some (n.setPt (n.pt - 1)))
        (tree_get_octant_for_particle_in_cell (r.particles.getD pt default)
          (n.setPt (n.pt - 1)))
        (loc.1, loc.2 ++ [tree_get_octant_for_particle_in_cell
          (r.particles.getD pt default) (n.setPt (n.pt - 1))]) fuel).2 = c' :=
    Option.some.inj hc'
  subst hce
  refine ⟨by simp, ?_, ?_⟩
  · simp only [Cell.pt_setOct, Cell.pt_setPt]
    omega
  · intro o ho
    rw [Cell.oct_setOct, Cell.oct_setPt, listGetD_set,
      if_neg (fun h => ho h.1.symm)]

attribute [local semireducible] Rat.add Rat.mul Rat.inv Rat.sub in
/-- C5 (counterexample): at the concrete root branch with occupancy tag −2
(magnitude 2), one insertion step yields tag −3 — magnitude 3 = 2 + 1, not
2 − 1: the code increments the occupancy magnitude, refuting the claim's
"decrements the branch's occupancy magnitude by one". -/
theorem C5_magnitude_counterexample :
    ∃ c', (tree_add_particle_to_cell wit_r2 (some wit_root) 0 none 0 (0, []) 1).2 =
        some c' ∧
      c'.pt.natAbs = wit_root.pt.natAbs + 1 ∧
      c'.pt.natAbs ≠ wit_root.pt.natAbs - 1 :=
  ⟨(wit_root.setPt (-3)).setOct 0 (some wit_leafA), by rfl, by decide, by decide⟩

attribute [local semireducible] Rat.add Rat.mul Rat.inv Rat.sub in
theorem C5_branch_insertion_witness :
    ¬ 0 ≤ wit_root.pt ∧
    (((wit_root.setPt (-3)).setOct 0 (some wit_leafA)).pt = wit_root.pt - 1 ∧
      ((wit_root.setPt (-3)).setOct 0 (some wit_leafA)).pt.natAbs =
        wit_root.pt.natAbs + 1 ∧
      ∀ o, o ≠ tree_get_octant_for_particle_in_cell
          (wit_r2.particles.getD 0 default) (wit_root.setPt (wit_root.pt - 1)) →
        ((wit_root.setPt (-3)).setOct 0 (some wit_leafA)).oct.getD o none =
          wit_root.oct.getD o none) :=
  ⟨by decide, (C5_branch_insertion wit_r2 wit_root 0 none 0 (0, []) 0
    (by decide)).2 ((wit_root.setPt (-3)).setOct 0 (some wit_leafA)) (by rfl)⟩

attribute [local semireducible] Rat.add Rat.mul Rat.inv Rat.sub in
/-- C7: inserting the particles at (0.1, 0.1, 0.1) and (−0.1, −0.1, −0.1)
into an empty root box centered at the origin with width 1 produces a root
that is a single branch of occupancy −2 whose only children are two leaves:
particle 0 (positive coordinates) in octant 0 and particle 1 (negative
coordinates) in octant 7; and a particle whose coordinates equal a node's
center is assigned octant 0 (every bit goes to the positive side, bits being
set only for coordinates strictly less than the center). -/
theorem C7_two_particle_scenario :
    (∃ root, getCellAt (tree_add_particle_to_tree
        (tree_add_particle_to_tree wit_c7 0 1) 1 2) (0, []) = some root ∧
      root.pt = -2 ∧ root.x = 0 ∧ root.y = 0 ∧ root.z = 0 ∧ root.w = 1 ∧
      (∃ lA, root.oct.getD 0 none = some lA ∧ lA.pt = 0 ∧
        lA.oct = List.replicate 8 none) ∧
      (∃ lB, root.oct.getD 7 none = some lB ∧ lB.pt = 1 ∧
        lB.oct = List.replicate 8 none) ∧
      (∀ o, o ≠ 0 → o ≠ 7 → root.oct.getD o none = none)) ∧
    (∀ (p : Particle) (n : Cell), p.x = n.x → p.y = n.y → p.z = n.z →
      tree_get_octant_for_particle_in_cell p n = 0) := by
  constructor
  · refine ⟨wit_root, by rfl, by decide, rfl, rfl, rfl, rfl,
      ⟨wit_leafA, rfl, rfl, rfl⟩, ⟨wit_leafB, rfl, rfl, rfl⟩, ?_⟩
    intro o h0 h7
    match o with
    | 0 => exact absurd rfl h0
    | 1 => rfl
    | 2 => rfl
    | 3 => rfl
    | 4 => rfl
    | 5 => rfl
    | 6 => rfl
    | 7 => exact absurd rfl h7
    | n + 8 =>
      exact List.getD_eq_default _ _ (by
        show 8 ≤ n + 8
        omega)
  · intro p n h1 h2 h3
    rw [tree_get_octant_for_particle_in_cell, h1, h2, h3]
    simp [lt_irrefl]

theorem C7_two_particle_scenario_witness :
    tree_get_octant_for_particle_in_cell
      { x := 0, y := 0, z := 0, m := 1, c := none } wit_root = 0 :=
  C7_two_particle_scenario.2
    { x := 0, y := 0, z := 0, m := 1, c := none } wit_root rfl rfl rfl
